import Mathlib

/-!
# pprintf: placeholder scanner and template assembler

A shallow embedding of `src/pprintf.c` and `src/pprintf.h`.

Conventions of the embedding.

* A C string is the list of its characters before the terminator; the
  terminator is not stored, so such a list holds no NUL character.  `charAt`
  reads `str[i]` and yields NUL at the index of the terminator.
* A pointer `str + i` into a string is the index `i`; the C string it points
  to is `str.drop i`.
* `strcat` and `strncat` are list append.  `getformats` and `pprintf_value`
  compute the string that the chain of `strcat` calls denotes, without the
  heap buffers.  `getformats_heap` and `pprintf_value_heap` are the same
  functions with the buffers `format`, `tmp` and `results` of the source:
  they return `none` when a write does not fit its buffer or when `tmp` is
  read without a terminator, which is undefined behaviour of the source.
  What the source returns is what the `_heap` functions return;
  `pprintf_value_heap_eq_some_iff` tells when that is the denoted string.
* `int` counters are natural numbers (template lengths stay far below 2^31).
* Every C loop whose trip count is not the length of a list gets a fuel
  argument; `none` means that the fuel ran out, and a theorem that states the
  result of a loop as `some _` shows that the fuel handed to it is enough.
* The functions whose name ends in `_reads` are the same loops with a log of
  the indices at which they read the template; they serve the statements
  about reads, and are shown to return the values of the functions without
  log.  The functions whose name ends in `_indices` log the values of the
  loop index in the same way.
-/

namespace Pprintf

/-! ## Constants of `pprintf.h` -/

def ITALIC_C : Char := 'I'
def ITALIC : List Char := ['\x1b', '[', '3', 'm']
def BOLD_C : Char := 'D'
def BOLD : List Char := ['\x1b', '[', '1', 'm']
def UNDERLINE_C : Char := 'U'
def UNDERLINE : List Char := ['\x1b', '[', '4', 'm']
def RED_C : Char := 'R'
def RED : List Char := ['\x1b', '[', '3', '1', 'm']
def GREEN_C : Char := 'G'
def GREEN : List Char := ['\x1b', '[', '3', '2', 'm']
def YELLOW_C : Char := 'Y'
def YELLOW : List Char := ['\x1b', '[', '3', '3', 'm']
def BLUE_C : Char := 'B'
def BLUE : List Char := ['\x1b', '[', '3', '4', 'm']
def MAGENTA_C : Char := 'M'
def MAGENTA : List Char := ['\x1b', '[', '3', '5', 'm']
def CYAN_C : Char := 'C'
def CYAN : List Char := ['\x1b', '[', '3', '6', 'm']
def WHITE_C : Char := 'W'
def WHITE : List Char := ['\x1b', '[', '3', '7', 'm']
def TOTAL_OPTIONS : Nat := 10

/-- The literal "\x1b[0m" of `pprintf.c` (named NORMAL in `test.c`). -/
def NORMAL : List Char := ['\x1b', '[', '0', 'm']

/-- The string terminator. -/
def NUL : Char := '\x00'

/-- Reading `str[i]`: the character at index `i`, the terminator at the end. -/
def charAt (str : List Char) (i : Nat) : Char := str.getD i NUL

/-! ## `is_standard_format` -/

/-- Source `is_standard_format`: s, c, d or the terminator. -/
def is_standard_format (c : Char) : Bool :=
  c == 's' || c == 'c' || c == 'd' || c == NUL

/-! ## `getformats` -/

/-- The `switch (c)` of `getformats`: the ANSI string of a format option,
`none` for the default branch (`format_str = NULL`). -/
def format_str (c : Char) : Option (List Char) :=
  if c = BOLD_C then some BOLD
  else if c = ITALIC_C then some ITALIC
  else if c = UNDERLINE_C then some UNDERLINE
  else if c = BLUE_C then some BLUE
  else if c = RED_C then some RED
  else if c = GREEN_C then some GREEN
  else if c = YELLOW_C then some YELLOW
  else if c = MAGENTA_C then some MAGENTA
  else if c = CYAN_C then some CYAN
  else if c = WHITE_C then some WHITE
  else none

/-- The `for (i = 0; i < strlen(input); i++)` loop of `getformats`.  The list
holds `input[i]`, `input[i+1]`, ... up to the terminator, so it is empty when
`i = strlen(input)`; `format` is the string accumulated so far and `offset`
the current value of `*offset`.  The buffer that holds `format` is left out
here; `getformats_loop_heap` is the loop with it. -/
def getformats_loop : List Char → List Char → Nat → List Char × Nat
  | [], format, offset => (format, offset)
  | c :: rest, format, offset =>
    if is_standard_format c && c != NUL then (format, offset)
    else
      let format :=
        match format_str c with
        | some s => format ++ s
        | none => format
      getformats_loop rest format (offset + 1)

/-- Source `getformats(input, output, offset)` without the buffer `format`:
the string that its `strcat` calls accumulate and the new value of `*offset`.
`getformats_heap` is the function with the buffer. -/
def getformats (input : List Char) (offset : Nat) : List Char × Nat :=
  getformats_loop input NORMAL offset

/-! ## `get_str_length` -/

/-- The inner `while (!is_standard_format(c)) { i++; c = str[i]; count += 5; }`
of `get_str_length`, on the state `(i, c, count)`. -/
def get_str_length_while (str : List Char) :
    Nat → Nat → Char → Nat → Option (Nat × Char × Nat)
  | 0, i, c, count => if !is_standard_format c then none else some (i, c, count)
  | fuel + 1, i, c, count =>
    if !is_standard_format c then
      get_str_length_while str fuel (i + 1) (charAt str (i + 1)) (count + 5)
    else some (i, c, count)

/-- The `for (i = 0; i < strlen(str); i++)` loop of `get_str_length`. -/
def get_str_length_loop (str : List Char) : Nat → Nat → Nat → Option Nat
  | 0, i, count => if i < str.length then none else some count
  | fuel + 1, i, count =>
    if i < str.length then
      let c := charAt str i
      if '%' = c then
        match get_str_length_while str (str.length + 1) i c count with
        | none => none
        | some (i, _, count) => get_str_length_loop str fuel (i + 1) (count + 1 + 1)
      else get_str_length_loop str fuel (i + 1) (count + 1)
    else some count

/-- Source `get_str_length(str)`. -/
def get_str_length (str : List Char) : Option Nat :=
  (get_str_length_loop str str.length 0 0).map (fun count => count + 4)

/-! ## `get_current_type` -/

/-- The inner `while (!is_standard_format(current)) { (*str)++; current = **str; }`
of `get_current_type`, on the state `(*str, current)`. -/
def get_current_type_while (str : List Char) : Nat → Nat → Char → Option (Nat × Char)
  | 0, pos, current => if !is_standard_format current then none else some (pos, current)
  | fuel + 1, pos, current =>
    if !is_standard_format current then
      get_current_type_while str fuel (pos + 1) (charAt str (pos + 1))
    else some (pos, current)

/-- The `for (;;)` loop of `get_current_type`; the result is the returned
character and the new value of the cursor `*str`. -/
def get_current_type_loop (str : List Char) : Nat → Nat → Char → Option (Char × Nat)
  | 0, _, _ => none
  | fuel + 1, pos, current =>
    if current = NUL then some (current, pos)
    else if current = '%' then
      match get_current_type_while str (str.length + 1) pos current with
      | none => none
      | some (pos, current) => some (current, pos + 1)
    else get_current_type_loop str fuel (pos + 1) (charAt str (pos + 1))

/-- Source `get_current_type(&cursor)` with the cursor at index `pos` of `str`. -/
def get_current_type (str : List Char) (pos : Nat) : Option (Char × Nat) :=
  get_current_type_loop str (str.length + 1) pos (charAt str pos)

/-- Calling `get_current_type` until it returns the terminator, as the
`for (;;)` loop of `pprintf_value` does, collecting the returned characters. -/
def get_current_type_walk (str : List Char) : Nat → Nat → Option (List Char)
  | 0, _ => none
  | fuel + 1, pos =>
    match get_current_type str pos with
    | none => none
    | some (current_type, pos) =>
      if current_type = NUL then some []
      else (get_current_type_walk str fuel pos).map (fun l => current_type :: l)

/-! ## `pprintf_value` -/

/-- One variadic argument. -/
inductive Arg where
  | str (s : List Char)
  | chr (c : Char)
  | int (v : Int)
  deriving DecidableEq

/-- Decimal digits of an `int`, as "%d" prints them. -/
def int_to_decimal (v : Int) : List Char :=
  if v < 0 then '-' :: Nat.toDigits 10 v.natAbs else Nat.toDigits 10 v.toNat

/-- The `for (;;)` loop of `pprintf_value` that sums the argument lengths
(lines 196-219).  `none` also stands for a `va_arg` that does not find an
argument of the type it asks for. -/
def pprintf_value_arg_loop (type_str : List Char) :
    Nat → Nat → List Arg → Nat → Option Nat
  | 0, _, _, _ => none
  | fuel + 1, pos, args, arg_len =>
    match get_current_type type_str pos with
    | none => none
    | some (current_type, pos) =>
      if '\x00' = current_type then some arg_len
      else if 's' = current_type then
        match args with
        | Arg.str str_arg :: args =>
          pprintf_value_arg_loop type_str fuel pos args (arg_len + str_arg.length)
        | _ => none
      else if 'c' = current_type then
        match args with
        | Arg.chr _ :: args => pprintf_value_arg_loop type_str fuel pos args (arg_len + 1)
        | Arg.int _ :: args => pprintf_value_arg_loop type_str fuel pos args (arg_len + 1)
        | _ => none
      else if 'd' = current_type then
        match args with
        | Arg.int value :: args =>
          pprintf_value_arg_loop type_str fuel pos args
            (arg_len + ((int_to_decimal value).take 19).length)
        | Arg.chr value :: args =>
          pprintf_value_arg_loop type_str fuel pos args
            (arg_len + ((int_to_decimal (Int.ofNat value.toNat)).take 19).length)
        | _ => none
      else pprintf_value_arg_loop type_str fuel pos args arg_len

/-- The argument length `arg_len` that `pprintf_value` computes. -/
def pprintf_value_arg_len (str : List Char) (args : List Arg) : Option Nat :=
  pprintf_value_arg_loop str (str.length + 1) 0 args 0

/-- The number of bytes of the `results` buffer: `calloc(total_len + 2, 1)`
with `total_len = str_len + arg_len + 1` (lines 189, 225-230). -/
def pprintf_value_results_size (str : List Char) (args : List Arg) : Option Nat :=
  match get_str_length str, pprintf_value_arg_len str args with
  | some str_len, some arg_len =>
    let total_len := str_len + arg_len
    let total_len := total_len + 1
    some (total_len + 2)
  | _, _ => none

/-- The assembly loop `for (i = 0; i < strlen(str); i++)` of `pprintf_value`
(lines 239-253); `results` is the string built so far.  The buffers that hold
`tmp` and `results` are left out here; `pprintf_value_loop_heap` is the loop
with them. -/
def pprintf_value_loop (str : List Char) : Nat → Nat → List Char → Option (List Char)
  | 0, i, results => if i < str.length then none else some results
  | fuel + 1, i, results =>
    if i < str.length then
      if charAt str i = '%' then
        let offset := 0
        -- getformats(str+i, tmp, &offset)
        let (tmp, offset) := getformats (str.drop i) offset
        -- strcat(results, tmp); strcat(results, "%")
        let results := results ++ tmp
        let results := results ++ ['%']
        -- strncat(results, str+i+offset, 1); strcat(results, "\x1b[0m")
        let results := results ++ (str.drop (i + offset)).take 1
        let results := results ++ NORMAL
        -- i = i + offset, then the i++ of the for loop
        pprintf_value_loop str fuel (i + offset + 1) results
      else
        -- strncat(results, str+i, 1)
        pprintf_value_loop str fuel (i + 1) (results ++ (str.drop i).take 1)
    else some results

/-- The string that the assembly loop of `pprintf_value(str, args)` denotes:
the characters that its `strcat` calls append, in order.  The argument list
only enters the size of the buffer (`pprintf_value_results_size`), not the
characters written to it.  The source returns this string when no buffer is
overrun; `pprintf_value_heap` is the function with the arguments and the
buffers. -/
def pprintf_value (str : List Char) : Option (List Char) :=
  pprintf_value_loop str str.length 0 []

/-! ## Definitions used to state and prove the properties

These are not translations of source functions: `escape_table`,
`style_characters`, `escapes_of`, `placeholder_count`, `placeholder_conversions`
and `markers_converted` spell out the vocabulary of the specification, and
`run_len`, `run_esc` and `assembled` are devices of the proofs. -/

/-- A conversion character: s, c or d. -/
def is_conversion (c : Char) : Bool :=
  c == 's' || c == 'c' || c == 'd'

/-- The ten style characters with their escape sequences, as the
specification lists them. -/
def escape_table : List (Char × List Char) :=
  [('I', "\x1b[3m".toList), ('D', "\x1b[1m".toList), ('U', "\x1b[4m".toList),
   ('R', "\x1b[31m".toList), ('G', "\x1b[32m".toList), ('Y', "\x1b[33m".toList),
   ('B', "\x1b[34m".toList), ('M', "\x1b[35m".toList), ('C', "\x1b[36m".toList),
   ('W', "\x1b[37m".toList)]

/-- The escape sequences of the recognized style characters of a directive
run, concatenated in the order of the run, duplicates repeated. -/
def escapes_of (r : List Char) : List Char :=
  r.flatMap (fun x => (escape_table.lookup x).getD [])

/-- Number of characters of a string before its first conversion character. -/
def run_len : List Char → Nat
  | [] => 0
  | c :: rest => if is_conversion c then 0 else run_len rest + 1

/-- Escape sequences of the characters before the first conversion character. -/
def run_esc : List Char → List Char
  | [] => []
  | c :: rest => if is_conversion c then [] else (format_str c).getD [] ++ run_esc rest

/-- The assembly as a one-pass automaton over the template.  The flag tells
whether the automaton is inside a placeholder (after its marker, before its
conversion character). -/
def assembled : Bool → List Char → List Char
  | false, [] => []
  | true, [] => '%' :: NORMAL
  | false, c :: rest =>
    if c = '%' then NORMAL ++ assembled true rest else c :: assembled false rest
  | true, c :: rest =>
    if is_conversion c then '%' :: c :: (NORMAL ++ assembled false rest)
    else (format_str c).getD [] ++ assembled true rest

/-- The ten style characters. -/
def style_characters : List Char :=
  ['I', 'D', 'U', 'R', 'G', 'Y', 'B', 'M', 'C', 'W']

/-- Number of placeholders of a template, by the grammar of the
specification: a marker, a run of characters that are not conversion
characters, then a conversion character or the end of the template.  The flag
tells whether the reading is inside a placeholder. -/
def placeholder_count : Bool → List Char → Nat
  | _, [] => 0
  | false, c :: rest =>
    if c = '%' then placeholder_count true rest + 1 else placeholder_count false rest
  | true, c :: rest =>
    if is_conversion c then placeholder_count false rest else placeholder_count true rest

/-- Every marker of the string is immediately followed by a conversion
character. -/
def markers_converted (out : List Char) : Prop :=
  ∀ a b, out = a ++ '%' :: b → ∃ c rest, b = c :: rest ∧ is_conversion c = true

/-- The conversion characters of the placeholders of a template, left to
right, by the grammar of the specification; a placeholder that the end of the
template cuts short has none.  The flag tells whether the reading is inside a
placeholder. -/
def placeholder_conversions : Bool → List Char → List Char
  | _, [] => []
  | false, c :: rest =>
    if c = '%' then placeholder_conversions true rest else placeholder_conversions false rest
  | true, c :: rest =>
    if is_conversion c then c :: placeholder_conversions false rest
    else placeholder_conversions true rest

/-- Whether the reading of a string ends inside a placeholder (after a marker
whose conversion character has not come), given whether it starts inside
one.  A device of the proofs. -/
def inside_placeholder : Bool → List Char → Bool
  | st, [] => st
  | false, c :: rest =>
    if c = '%' then inside_placeholder true rest else inside_placeholder false rest
  | true, c :: rest =>
    if is_conversion c then inside_placeholder false rest else inside_placeholder true rest

/-- Number of literal characters of a template, those outside placeholders,
by the grammar of the specification.  The flag tells whether the reading is
inside a placeholder. -/
def literal_count : Bool → List Char → Nat
  | _, [] => 0
  | false, c :: rest =>
    if c = '%' then literal_count true rest else literal_count false rest + 1
  | true, c :: rest =>
    if is_conversion c then literal_count false rest else literal_count true rest

/-- Number of directive characters of a template, recognized or not: the
characters between a marker and the conversion character (or the end) of its
placeholder, summed over the placeholders. -/
def directive_count : Bool → List Char → Nat
  | _, [] => 0
  | false, c :: rest =>
    if c = '%' then directive_count true rest else directive_count false rest
  | true, c :: rest =>
    if is_conversion c then directive_count false rest else directive_count true rest + 1

/-- What the loop of `get_str_length` adds to `count` on the rest of a
template, as a one-pass automaton.  A device of the proofs. -/
def reserved : Bool → List Char → Nat
  | false, [] => 0
  | true, [] => 2
  | false, c :: rest => if c = '%' then reserved true rest + 5 else reserved false rest + 1
  | true, c :: rest =>
    if is_conversion c then reserved false rest + 2 else reserved true rest + 5

/-- The characters that stand immediately after a marker in a string, one per
marker that is not the last character, in the order of the markers. -/
def after_markers : List Char → List Char
  | [] => []
  | x :: rest => if x = '%' then rest.take 1 ++ after_markers rest else after_markers rest

/-- Whether an argument has the type that a conversion of the given kind
reads: a string for s, a character for c, a 32-bit signed int for d. -/
def arg_matches (kind : Char) : Arg → Prop
  | Arg.str _ => kind = 's'
  | Arg.chr _ => kind = 'c'
  | Arg.int v => kind = 'd' ∧ -2147483648 ≤ v ∧ v ≤ 2147483647

/-- An argument list matches a list of conversion kinds: same number, each
argument of the type of its conversion. -/
def args_match : List Char → List Arg → Prop
  | [], [] => True
  | kind :: kinds, a :: args => arg_matches kind a ∧ args_match kinds args
  | _, _ => False

/-- The length an argument contributes: the length of a string, 1 for a
character, the number of characters of the decimal representation of an int
(its digits, and a sign if it is negative). -/
def arg_length : Arg → Nat
  | Arg.str s => s.length
  | Arg.chr _ => 1
  | Arg.int v => (int_to_decimal v).length

/-! ## The loops with the log of the indices of the template they read

Each function below is the function of the same name without `_reads`, with
one more argument and result: the list of the indices at which the template
has been read so far, in the order of the reads.  (`strlen` reads up to the
terminator by definition and is not logged.) -/

/-- The inner while of `get_str_length`; `c = str[i]` after `i++` reads index
`i + 1`. -/
def get_str_length_while_reads (str : List Char) :
    Nat → Nat → Char → Nat → List Nat → Option (Nat × Char × Nat × List Nat)
  | 0, i, c, count, reads =>
    if !is_standard_format c then none else some (i, c, count, reads)
  | fuel + 1, i, c, count, reads =>
    if !is_standard_format c then
      get_str_length_while_reads str fuel (i + 1) (charAt str (i + 1)) (count + 5)
        (reads ++ [i + 1])
    else some (i, c, count, reads)

/-- The for loop of `get_str_length`; `c = str[i]` reads index `i`. -/
def get_str_length_loop_reads (str : List Char) :
    Nat → Nat → Nat → List Nat → Option (Nat × List Nat)
  | 0, i, count, reads => if i < str.length then none else some (count, reads)
  | fuel + 1, i, count, reads =>
    if i < str.length then
      let c := charAt str i
      let reads := reads ++ [i]
      if '%' = c then
        match get_str_length_while_reads str (str.length + 1) i c count reads with
        | none => none
        | some (i, _, count, reads) =>
          get_str_length_loop_reads str fuel (i + 1) (count + 1 + 1) reads
      else get_str_length_loop_reads str fuel (i + 1) (count + 1) reads
    else some (count, reads)

/-- Source `get_str_length(str)` with its reads. -/
def get_str_length_reads (str : List Char) : Option (Nat × List Nat) :=
  (get_str_length_loop_reads str str.length 0 0 []).map (fun r => (r.1 + 4, r.2))

/-- The inner while of `get_current_type`; `current = **str` after `(*str)++`
reads index `pos + 1`. -/
def get_current_type_while_reads (str : List Char) :
    Nat → Nat → Char → List Nat → Option (Nat × Char × List Nat)
  | 0, pos, current, reads =>
    if !is_standard_format current then none else some (pos, current, reads)
  | fuel + 1, pos, current, reads =>
    if !is_standard_format current then
      get_current_type_while_reads str fuel (pos + 1) (charAt str (pos + 1))
        (reads ++ [pos + 1])
    else some (pos, current, reads)

/-- The `for (;;)` loop of `get_current_type` with its reads. -/
def get_current_type_loop_reads (str : List Char) :
    Nat → Nat → Char → List Nat → Option (Char × Nat × List Nat)
  | 0, _, _, _ => none
  | fuel + 1, pos, current, reads =>
    if current = NUL then some (current, pos, reads)
    else if current = '%' then
      match get_current_type_while_reads str (str.length + 1) pos current reads with
      | none => none
      | some (pos, current, reads) => some (current, pos + 1, reads)
    else
      get_current_type_loop_reads str fuel (pos + 1) (charAt str (pos + 1))
        (reads ++ [pos + 1])

/-- Source `get_current_type(&cursor)` with its reads; the initial
`current = **str` reads index `pos`. -/
def get_current_type_reads (str : List Char) (pos : Nat) (reads : List Nat) :
    Option (Char × Nat × List Nat) :=
  get_current_type_loop_reads str (str.length + 1) pos (charAt str pos) (reads ++ [pos])

/-- The repeated calls of `get_current_type` by the argument loop of
`pprintf_value`, which stops at the first terminator returned, with their
reads. -/
def get_current_type_walk_reads (str : List Char) :
    Nat → Nat → List Nat → Option (List Char × List Nat)
  | 0, _, _ => none
  | fuel + 1, pos, reads =>
    match get_current_type_reads str pos reads with
    | none => none
    | some (current_type, pos, reads) =>
      if current_type = NUL then some ([], reads)
      else
        (get_current_type_walk_reads str fuel pos reads).map
          (fun r => (current_type :: r.1, r.2))

/-- The for loop of `getformats` with its reads; `idx` is the index in the
template of the head of the list, read by `c = input[i]`. -/
def getformats_loop_reads :
    List Char → List Char → Nat → Nat → List Nat → List Char × Nat × List Nat
  | [], format, offset, _, reads => (format, offset, reads)
  | c :: rest, format, offset, idx, reads =>
    let reads := reads ++ [idx]
    if is_standard_format c && c != NUL then (format, offset, reads)
    else
      let format :=
        match format_str c with
        | some s => format ++ s
        | none => format
      getformats_loop_reads rest format (offset + 1) (idx + 1) reads

/-- Source `getformats(str + idx, output, offset)` with its reads. -/
def getformats_reads (input : List Char) (offset idx : Nat) (reads : List Nat) :
    List Char × Nat × List Nat :=
  getformats_loop_reads input NORMAL offset idx reads

/-- The assembly loop of `pprintf_value` with its reads: `str[i] == '%'` reads
index `i`, `strncat(results, str+i+offset, 1)` reads index `i + offset`, and
`strncat(results, str+i, 1)` reads index `i`. -/
def pprintf_value_loop_reads (str : List Char) :
    Nat → Nat → List Char → List Nat → Option (List Char × List Nat)
  | 0, i, results, reads => if i < str.length then none else some (results, reads)
  | fuel + 1, i, results, reads =>
    if i < str.length then
      let reads := reads ++ [i]
      if charAt str i = '%' then
        let offset := 0
        let (tmp, offset, reads) := getformats_reads (str.drop i) offset i reads
        let results := results ++ tmp
        let results := results ++ ['%']
        let reads := reads ++ [i + offset]
        let results := results ++ (str.drop (i + offset)).take 1
        let results := results ++ NORMAL
        pprintf_value_loop_reads str fuel (i + offset + 1) results reads
      else
        pprintf_value_loop_reads str fuel (i + 1) (results ++ (str.drop i).take 1)
          (reads ++ [i])
    else some (results, reads)

/-- The assembly of `pprintf_value` with its reads. -/
def pprintf_value_reads (str : List Char) : Option (List Char × List Nat) :=
  pprintf_value_loop_reads str str.length 0 [] []

/-- What may stand after a style escape sequence in the returned string: the
escape sequences of further style characters, the marker, at most one
conversion character, and then the reset sequence; `z` is the rest of the
string.  No literal character of the template stands before the reset. -/
def followed_by_reset (y : List Char) : Prop :=
  ∃ r c z, y = escapes_of r ++ '%' :: (c ++ "\x1b[0m".toList ++ z)
    ∧ (c = [] ∨ ∃ k, c = [k] ∧ (k = 's' ∨ k = 'c' ∨ k = 'd'))

/-- Every style escape sequence of the string is followed by a reset sequence
before any literal character. -/
def no_style_leak (out : List Char) : Prop :=
  ∀ x e y X, out = x ++ e ++ y → (X, e) ∈ escape_table → followed_by_reset y

/-! ## `getformats` and `pprintf_value` with their heap buffers

The functions above whose results are strings (`getformats`,
`pprintf_value`) give the string that the chain of `strcat` calls denotes.
The source builds these strings in three buffers of fixed size: `format`
(`calloc(5*TOTAL_OPTIONS+1)`, line 39), `tmp` (`calloc(5*TOTAL_OPTIONS)`, line
231) and `results` (`calloc(total_len+2)`, line 230).  The functions below
are the same functions with these buffers: a write that does not fit its
buffer, or a read of a buffer that holds no terminator, is undefined
behaviour of the source, and they return `none` for it. -/

/-- `strcat(dest, src)`, or `strncat` of `src`, into a zeroed buffer of `size`
bytes that holds the string `dest`: the characters of both and the terminator
must fit. -/
def strcat_heap (size : Nat) (dest src : List Char) : Option (List Char) :=
  if dest.length + src.length + 1 ≤ size then some (dest ++ src) else none

/-- The for loop of `getformats` with the buffer `format` of
`5*TOTAL_OPTIONS+1` bytes. -/
def getformats_loop_heap : List Char → List Char → Nat → Option (List Char × Nat)
  | [], format, offset => some (format, offset)
  | c :: rest, format, offset =>
    if is_standard_format c && c != NUL then some (format, offset)
    else
      match format_str c with
      | some s =>
        match strcat_heap (5 * TOTAL_OPTIONS + 1) format s with
        | some format => getformats_loop_heap rest format (offset + 1)
        | none => none
      | none => getformats_loop_heap rest format (offset + 1)

/-- Source `getformats(input, output, offset)` with the buffer `format`:
returns the `strlen(format)` characters that `strncpy` writes to `output` (no
terminator is written) and the new value of `*offset`. -/
def getformats_heap (input : List Char) (offset : Nat) : Option (List Char × Nat) :=
  getformats_loop_heap input NORMAL offset

/-- The assembly loop of `pprintf_value` with the buffers `tmp` of
`5*TOTAL_OPTIONS` zeroed bytes and `results` of `size` zeroed bytes.  The
characters that `getformats` copies into `tmp` must leave a zero byte in it,
since `strcat(results, tmp)` reads `tmp` up to a terminator; `bzero` then
clears `tmp` again. -/
def pprintf_value_loop_heap (str : List Char) (size : Nat) :
    Nat → Nat → List Char → Option (List Char)
  | 0, i, results => if i < str.length then none else some results
  | fuel + 1, i, results =>
    if i < str.length then
      if charAt str i = '%' then
        match getformats_heap (str.drop i) 0 with
        | none => none
        | some (tmp, offset) =>
          if tmp.length < 5 * TOTAL_OPTIONS then
            match strcat_heap size results tmp with
            | none => none
            | some results =>
              match strcat_heap size results ['%'] with
              | none => none
              | some results =>
                match strcat_heap size results ((str.drop (i + offset)).take 1) with
                | none => none
                | some results =>
                  match strcat_heap size results NORMAL with
                  | none => none
                  | some results => pprintf_value_loop_heap str size fuel (i + offset + 1) results
          else none
      else
        match strcat_heap size results ((str.drop i).take 1) with
        | none => none
        | some results => pprintf_value_loop_heap str size fuel (i + 1) results
    else some results

/-- Source `pprintf_value(str, args)` with its buffers: the argument loop
sizes `results` (`none` when `va_arg` does not find an argument of the type it
asks for), then the assembly loop fills it. -/
def pprintf_value_heap (str : List Char) (args : List Arg) : Option (List Char) :=
  match pprintf_value_results_size str args with
  | none => none
  | some size => pprintf_value_loop_heap str size str.length 0 []

/-- The directive runs of the placeholders of a template, left to right, by
the grammar of the specification: the characters between a marker and the
conversion character (or the end) of its placeholder.  The first argument is
the run read so far when the reading is inside a placeholder. -/
def placeholder_runs : Option (List Char) → List Char → List (List Char)
  | none, [] => []
  | some r, [] => [r]
  | none, c :: rest =>
    if c = '%' then placeholder_runs (some []) rest else placeholder_runs none rest
  | some r, c :: rest =>
    if is_conversion c then r :: placeholder_runs none rest
    else placeholder_runs (some (r ++ [c])) rest

/-- Every placeholder of the template accumulates a string, the reset seed
and the escape sequences of its directive run, of fewer than `5*TOTAL_OPTIONS`
characters: it fits `format` and leaves `tmp` its terminator. -/
def accumulators_fit (t : List Char) : Prop :=
  ∀ r ∈ placeholder_runs none t,
    ("\x1b[0m".toList ++ escapes_of r).length < 5 * TOTAL_OPTIONS

/-- The string that the assembly denotes fits, with its terminator, the
`results` buffer that `pprintf_value` allocates for the template and the
arguments. -/
def results_fit (t : List Char) (args : List Arg) : Prop :=
  ∃ out size, pprintf_value t = some out ∧ pprintf_value_results_size t args = some size
    ∧ out.length + 1 ≤ size


instance accumulators_fit_decidable (t : List Char) : Decidable (accumulators_fit t) :=
  inferInstanceAs (Decidable (∀ r ∈ placeholder_runs none t,
    ("\x1b[0m".toList ++ escapes_of r).length < 5 * TOTAL_OPTIONS))


/-! ## The loops with the log of the values of their index

Each function below is the function of the same name without `_indices`, with
one more argument and result: the list of the values that the index of the
loop (`i`, or the cursor `*str`) has taken so far, in the order in which it
took them.  The log starts with the initial value of the index. -/

/-- The inner while of `get_str_length`; `i++` gives the index `i + 1`. -/
def get_str_length_while_indices (str : List Char) :
    Nat → Nat → Char → Nat → List Nat → Option (Nat × Char × Nat × List Nat)
  | 0, i, c, count, log =>
    if !is_standard_format c then none else some (i, c, count, log)
  | fuel + 1, i, c, count, log =>
    if !is_standard_format c then
      get_str_length_while_indices str fuel (i + 1) (charAt str (i + 1)) (count + 5)
        (log ++ [i + 1])
    else some (i, c, count, log)

/-- The for loop of `get_str_length`; its `i++` gives the index `i + 1`. -/
def get_str_length_loop_indices (str : List Char) :
    Nat → Nat → Nat → List Nat → Option (Nat × List Nat)
  | 0, i, count, log => if i < str.length then none else some (count, log)
  | fuel + 1, i, count, log =>
    if i < str.length then
      let c := charAt str i
      if '%' = c then
        match get_str_length_while_indices str (str.length + 1) i c count log with
        | none => none
        | some (i, _, count, log) =>
          get_str_length_loop_indices str fuel (i + 1) (count + 1 + 1) (log ++ [i + 1])
      else get_str_length_loop_indices str fuel (i + 1) (count + 1) (log ++ [i + 1])
    else some (count, log)

/-- Source `get_str_length(str)` with the values of `i`, from `i = 0`. -/
def get_str_length_indices (str : List Char) : Option (Nat × List Nat) :=
  (get_str_length_loop_indices str str.length 0 0 [0]).map (fun r => (r.1 + 4, r.2))

/-- The inner while of `get_current_type`; `(*str)++` gives the cursor
`pos + 1`. -/
def get_current_type_while_indices (str : List Char) :
    Nat → Nat → Char → List Nat → Option (Nat × Char × List Nat)
  | 0, pos, current, log =>
    if !is_standard_format current then none else some (pos, current, log)
  | fuel + 1, pos, current, log =>
    if !is_standard_format current then
      get_current_type_while_indices str fuel (pos + 1) (charAt str (pos + 1))
        (log ++ [pos + 1])
    else some (pos, current, log)

/-- The `for (;;)` loop of `get_current_type` with the values of the cursor:
the `(*str)++` after the while and the one at the end of the body give
`pos + 1`. -/
def get_current_type_loop_indices (str : List Char) :
    Nat → Nat → Char → List Nat → Option (Char × Nat × List Nat)
  | 0, _, _, _ => none
  | fuel + 1, pos, current, log =>
    if current = NUL then some (current, pos, log)
    else if current = '%' then
      match get_current_type_while_indices str (str.length + 1) pos current log with
      | none => none
      | some (pos, current, log) => some (current, pos + 1, log ++ [pos + 1])
    else
      get_current_type_loop_indices str fuel (pos + 1) (charAt str (pos + 1))
        (log ++ [pos + 1])

/-- Source `get_current_type(&cursor)` with the values of the cursor. -/
def get_current_type_indices (str : List Char) (pos : Nat) (log : List Nat) :
    Option (Char × Nat × List Nat) :=
  get_current_type_loop_indices str (str.length + 1) pos (charAt str pos) log

/-- The repeated calls of `get_current_type` by the argument loop of
`pprintf_value`, with the values of the cursor `type_str`. -/
def get_current_type_walk_indices (str : List Char) :
    Nat → Nat → List Nat → Option (List Char × List Nat)
  | 0, _, _ => none
  | fuel + 1, pos, log =>
    match get_current_type_indices str pos log with
    | none => none
    | some (current_type, pos, log) =>
      if current_type = NUL then some ([], log)
      else
        (get_current_type_walk_indices str fuel pos log).map
          (fun r => (current_type :: r.1, r.2))

/-- The assembly loop of `pprintf_value` with its buffers and the values of
`i`: `i = i + offset` gives `i + offset`, and the `i++` of the for loop one
more. -/
def pprintf_value_loop_heap_indices (str : List Char) (size : Nat) :
    Nat → Nat → List Char → List Nat → Option (List Char × List Nat)
  | 0, i, results, log => if i < str.length then none else some (results, log)
  | fuel + 1, i, results, log =>
    if i < str.length then
      if charAt str i = '%' then
        match getformats_heap (str.drop i) 0 with
        | none => none
        | some (tmp, offset) =>
          if tmp.length < 5 * TOTAL_OPTIONS then
            match strcat_heap size results tmp with
            | none => none
            | some results =>
              match strcat_heap size results ['%'] with
              | none => none
              | some results =>
                match strcat_heap size results ((str.drop (i + offset)).take 1) with
                | none => none
                | some results =>
                  match strcat_heap size results NORMAL with
                  | none => none
                  | some results =>
                    pprintf_value_loop_heap_indices str size fuel (i + offset + 1) results
                      (log ++ [i + offset, i + offset + 1])
          else none
      else
        match strcat_heap size results ((str.drop i).take 1) with
        | none => none
        | some results =>
          pprintf_value_loop_heap_indices str size fuel (i + 1) results (log ++ [i + 1])
    else some (results, log)

/-- Source `pprintf_value(str, args)` with its buffers and the values of the
index of its assembly loop, from `i = 0`. -/
def pprintf_value_heap_indices (str : List Char) (args : List Arg) :
    Option (List Char × List Nat) :=
  match pprintf_value_results_size str args with
  | none => none
  | some size => pprintf_value_loop_heap_indices str size str.length 0 [] [0]

/-- The values an index takes after `lo`: each greater than the one before,
all greater than `lo` and at most `hi`. -/
def index_steps (lo hi : Nat) (R : List Nat) : Prop :=
  R.Pairwise (fun a b => a < b) ∧ ∀ j ∈ R, lo < j ∧ j ≤ hi

end Pprintf

namespace Pprintf

/-! ## Basic facts -/

theorem break_eq_is_conversion (c : Char) :
    (is_standard_format c && c != NUL) = is_conversion c := by
  unfold is_standard_format is_conversion NUL
  by_cases h1 : c = 's'
  · subst h1; decide
  by_cases h2 : c = 'c'
  · subst h2; decide
  by_cases h3 : c = 'd'
  · subst h3; decide
  by_cases h4 : c = '\x00'
  · subst h4; decide
  have e1 : (c == 's') = false := beq_false_of_ne h1
  have e2 : (c == 'c') = false := beq_false_of_ne h2
  have e3 : (c == 'd') = false := beq_false_of_ne h3
  have e4 : (c == '\x00') = false := beq_false_of_ne h4
  rw [e1, e2, e3, e4]
  rfl

theorem is_conversion_iff (c : Char) :
    is_conversion c = true ↔ c = 's' ∨ c = 'c' ∨ c = 'd' := by
  unfold is_conversion
  rw [Bool.or_eq_true, Bool.or_eq_true, beq_iff_eq, beq_iff_eq, beq_iff_eq, or_assoc]

theorem is_standard_format_iff (c : Char) :
    is_standard_format c = true ↔ is_conversion c = true ∨ c = NUL := by
  unfold is_standard_format is_conversion
  rw [Bool.or_eq_true, beq_iff_eq]

theorem percent_not_conversion : is_conversion '%' = false := by decide

theorem format_str_percent : format_str '%' = none := by decide

theorem drop_eq_charAt_cons (str : List Char) (i : Nat) (h : i < str.length) :
    str.drop i = charAt str i :: str.drop (i + 1) := by
  rw [List.drop_eq_getElem_cons h]
  simp [charAt, List.getD_eq_getElem, h]

theorem assembled_false_cons (c : Char) (rest : List Char) :
    assembled false (c :: rest)
      = if c = '%' then NORMAL ++ assembled true rest else c :: assembled false rest := by
  rw [assembled]

theorem assembled_true_cons (c : Char) (rest : List Char) :
    assembled true (c :: rest)
      = if is_conversion c then '%' :: c :: (NORMAL ++ assembled false rest)
        else (format_str c).getD [] ++ assembled true rest := by
  rw [assembled]

theorem assembled_marker (rest : List Char) :
    assembled false ('%' :: rest) = NORMAL ++ assembled true rest := by
  rw [assembled_false_cons, if_pos rfl]

theorem assembled_true_conversion (c : Char) (rest : List Char) (hc : is_conversion c = true) :
    assembled true (c :: rest) = '%' :: c :: (NORMAL ++ assembled false rest) := by
  rw [assembled_true_cons, if_pos hc]

theorem assembled_true_directive (c : Char) (rest : List Char) (hc : is_conversion c = false) :
    assembled true (c :: rest) = (format_str c).getD [] ++ assembled true rest := by
  rw [assembled_true_cons, if_neg (by simp [hc])]

theorem getformats_loop_eq (l : List Char) :
    ∀ format offset,
      getformats_loop l format offset = (format ++ run_esc l, offset + run_len l) := by
  induction l with
  | nil => intro format offset; simp [getformats_loop, run_esc, run_len]
  | cons c rest ih =>
    intro format offset
    rw [getformats_loop, break_eq_is_conversion]
    by_cases hc : is_conversion c = true
    · simp [hc, run_esc, run_len]
    · simp only [hc, run_esc, run_len, if_false, Bool.false_eq_true]
      rw [ih]
      cases format_str c <;> simp [Nat.add_assoc, Nat.add_comm]

theorem assembled_true_eq (l : List Char) :
    assembled true l =
      run_esc l ++ '%' :: ((l.drop (run_len l)).take 1 ++ NORMAL
        ++ assembled false (l.drop (run_len l + 1))) := by
  induction l with
  | nil => simp [assembled, run_esc, run_len]
  | cons c rest ih =>
    by_cases hc : is_conversion c = true
    · simp [assembled, run_esc, run_len, hc]
    · simp only [assembled, run_esc, run_len, hc, if_false, Bool.false_eq_true]
      rw [ih]
      simp

/-- The assembly loop, started at index `i` with enough fuel, appends the
output of the automaton on the rest of the template. -/
theorem pprintf_value_loop_eq (str : List Char) :
    ∀ fuel i results, str.length ≤ i + fuel →
      pprintf_value_loop str fuel i results
        = some (results ++ assembled false (str.drop i)) := by
  intro fuel
  induction fuel with
  | zero =>
    intro i results h
    have hi : ¬ i < str.length := by omega
    simp [pprintf_value_loop, hi, List.drop_eq_nil_of_le (Nat.le_of_not_lt hi), assembled]
  | succ fuel ih =>
    intro i results h
    by_cases hi : i < str.length
    · rw [pprintf_value_loop]
      simp only [hi, if_true]
      have hd := drop_eq_charAt_cons str i hi
      by_cases hc : charAt str i = '%'
      · simp only [hc, if_true]
        rw [hc] at hd
        obtain ⟨rest, hrest⟩ : ∃ rest, str.drop (i + 1) = rest := ⟨_, rfl⟩
        rw [hrest] at hd
        have hg : getformats (str.drop i) 0 = (NORMAL ++ run_esc rest, run_len rest + 1) := by
          rw [hd, getformats, getformats_loop_eq]
          simp [run_len, run_esc, percent_not_conversion, format_str_percent]
        have e3 : str.drop (i + (run_len rest + 1)) = rest.drop (run_len rest) := by
          rw [← hrest, List.drop_drop]
          congr 1
          omega
        have e4 : str.drop (i + (run_len rest + 1) + 1) = rest.drop (run_len rest + 1) := by
          rw [← hrest, List.drop_drop]
          congr 1
          omega
        simp only [hg]
        rw [ih _ _ (by omega), e3, e4, hd]
        simp only [assembled, if_true]
        rw [assembled_true_eq rest]
        simp [List.append_assoc]
      · simp only [hc, if_false]
        rw [ih _ _ (by omega), hd]
        simp [assembled, hc]
    · simp [pprintf_value_loop, hi, List.drop_eq_nil_of_le (Nat.le_of_not_lt hi), assembled]

/-- The returned string is the output of the automaton on the template. -/
theorem pprintf_value_eq (str : List Char) :
    pprintf_value str = some (assembled false str) := by
  unfold pprintf_value
  rw [pprintf_value_loop_eq str _ _ _ (by omega)]
  simp

/-! ## The escape table -/

theorem format_str_none (x : Char) (h : x ∉ style_characters) : format_str x = none := by
  simp only [style_characters, List.mem_cons, List.mem_nil_iff, or_false, not_or] at h
  obtain ⟨hI, hD, hU, hR, hG, hY, hB, hM, hC, hW⟩ := h
  simp [format_str, BOLD_C, ITALIC_C, UNDERLINE_C, BLUE_C, RED_C, GREEN_C, YELLOW_C,
    MAGENTA_C, CYAN_C, WHITE_C, hD, hI, hU, hB, hR, hG, hY, hM, hC, hW]

theorem lookup_none (x : Char) (h : x ∉ style_characters) : escape_table.lookup x = none := by
  simp only [style_characters, List.mem_cons, List.mem_nil_iff, or_false, not_or] at h
  obtain ⟨hI, hD, hU, hR, hG, hY, hB, hM, hC, hW⟩ := h
  simp [escape_table, List.lookup, beq_false_of_ne hD, beq_false_of_ne hI, beq_false_of_ne hU,
    beq_false_of_ne hB, beq_false_of_ne hR, beq_false_of_ne hG, beq_false_of_ne hY,
    beq_false_of_ne hM, beq_false_of_ne hC, beq_false_of_ne hW]

theorem format_str_eq_lookup (x : Char) : format_str x = escape_table.lookup x := by
  by_cases h : x ∈ style_characters
  · have hall : ∀ y ∈ style_characters, format_str y = escape_table.lookup y := by decide
    exact hall x h
  · rw [format_str_none x h, lookup_none x h]

theorem lookup_of_mem_escape_table (X : Char) (e : List Char) (h : (X, e) ∈ escape_table) :
    escape_table.lookup X = some e ∧ is_conversion X = false := by
  have hall : ∀ q ∈ escape_table,
      escape_table.lookup q.1 = some q.2 ∧ is_conversion q.1 = false := by decide
  exact hall (X, e) h

theorem NORMAL_eq : NORMAL = "\x1b[0m".toList := by decide

/-! ## The automaton on literal text and on one placeholder -/

theorem assembled_literal (pre l : List Char) (hpre : '%' ∉ pre) :
    assembled false (pre ++ l) = pre ++ assembled false l := by
  induction pre with
  | nil => rfl
  | cons x pre ih =>
    have hx : x ≠ '%' := fun h => hpre (by simp [h])
    have hp : '%' ∉ pre := fun h => hpre (by simp [h])
    simp [assembled, hx, ih hp]

theorem assembled_no_marker (t : List Char) (ht : '%' ∉ t) : assembled false t = t := by
  have := assembled_literal t [] ht
  simpa [assembled] using this

theorem assembled_run_terminated (r l : List Char) (c : Char)
    (hr : ∀ x ∈ r, is_conversion x = false) (hc : is_conversion c = true) :
    assembled true (r ++ c :: l)
      = escapes_of r ++ '%' :: c :: (NORMAL ++ assembled false l) := by
  induction r with
  | nil => simp [assembled, hc, escapes_of]
  | cons x r ih =>
    have hx : is_conversion x = false := hr x (by simp)
    have hr2 : ∀ y ∈ r, is_conversion y = false := fun y hy => hr y (by simp [hy])
    have e : escapes_of (x :: r) = (escape_table.lookup x).getD [] ++ escapes_of r := by
      simp [escapes_of]
    rw [List.cons_append, assembled_true_directive _ _ hx, ih hr2, e, format_str_eq_lookup,
      List.append_assoc]

theorem assembled_run_unterminated (r : List Char)
    (hr : ∀ x ∈ r, is_conversion x = false) :
    assembled true r = escapes_of r ++ '%' :: NORMAL := by
  induction r with
  | nil => simp [assembled, escapes_of]
  | cons x r ih =>
    have hx : is_conversion x = false := hr x (by simp)
    have hr2 : ∀ y ∈ r, is_conversion y = false := fun y hy => hr y (by simp [hy])
    have e : escapes_of (x :: r) = (escape_table.lookup x).getD [] ++ escapes_of r := by
      simp [escapes_of]
    rw [assembled_true_directive _ _ hx, ih hr2, e, format_str_eq_lookup, List.append_assoc]

theorem not_conversion_of_ne (x : Char) (h : x ≠ 's' ∧ x ≠ 'c' ∧ x ≠ 'd') :
    is_conversion x = false := by
  rw [← Bool.not_eq_true, is_conversion_iff]
  rintro (h1 | h2 | h3)
  · exact h.1 h1
  · exact h.2.1 h2
  · exact h.2.2 h3

/-! ## C1, C3: the string that the assembly denotes; its conversion characters -/

/-- C1: a template `pre ++ "%" ++ X ++ c ++ suf` with one style character X
of the table and a conversion character c, whose literal text holds no marker,
is assembled to `pre ++ ESC[0m ++ escape(X) ++ "%" ++ c ++ ESC[0m ++ suf`. -/
theorem C1_single_style_placeholder (pre suf : List Char) (X c : Char) (e : List Char)
    (hX : (X, e) ∈ escape_table) (hc : c = 's' ∨ c = 'c' ∨ c = 'd')
    (hpre : '%' ∉ pre) (hsuf : '%' ∉ suf) :
    pprintf_value (pre ++ ['%', X, c] ++ suf)
      = some (pre ++ "\x1b[0m".toList ++ e ++ ['%', c] ++ "\x1b[0m".toList ++ suf) := by
  obtain ⟨hl, hXc⟩ := lookup_of_mem_escape_table X e hX
  have hcc : is_conversion c = true := (is_conversion_iff c).2 hc
  rw [pprintf_value_eq, ← NORMAL_eq]
  have h1 : pre ++ ['%', X, c] ++ suf = pre ++ '%' :: ([X] ++ c :: suf) := by simp
  rw [h1, assembled_literal _ _ hpre, assembled_marker,
    assembled_run_terminated [X] suf c (by simpa using hXc) hcc, assembled_no_marker suf hsuf]
  simp [escapes_of, hl]

/-- C1 at the ten templates of the test suite, "hello %Xs\n" for each style
character X, with the strings `get_expected` builds. -/
theorem C1_single_style_placeholder_witness :
    pprintf_value "hello %Rs\n".toList = some "hello \x1b[0m\x1b[31m%s\x1b[0m\n".toList
    ∧ pprintf_value "hello %Gs\n".toList = some "hello \x1b[0m\x1b[32m%s\x1b[0m\n".toList
    ∧ pprintf_value "hello %Ys\n".toList = some "hello \x1b[0m\x1b[33m%s\x1b[0m\n".toList
    ∧ pprintf_value "hello %Bs\n".toList = some "hello \x1b[0m\x1b[34m%s\x1b[0m\n".toList
    ∧ pprintf_value "hello %Ms\n".toList = some "hello \x1b[0m\x1b[35m%s\x1b[0m\n".toList
    ∧ pprintf_value "hello %Cs\n".toList = some "hello \x1b[0m\x1b[36m%s\x1b[0m\n".toList
    ∧ pprintf_value "hello %Ws\n".toList = some "hello \x1b[0m\x1b[37m%s\x1b[0m\n".toList
    ∧ pprintf_value "hello %Ds\n".toList = some "hello \x1b[0m\x1b[1m%s\x1b[0m\n".toList
    ∧ pprintf_value "hello %Us\n".toList = some "hello \x1b[0m\x1b[4m%s\x1b[0m\n".toList
    ∧ pprintf_value "hello %Is\n".toList = some "hello \x1b[0m\x1b[3m%s\x1b[0m\n".toList :=
  ⟨C1_single_style_placeholder "hello ".toList "\n".toList 'R' 's' "\x1b[31m".toList
      (by decide) (by decide) (by decide) (by decide),
    C1_single_style_placeholder "hello ".toList "\n".toList 'G' 's' "\x1b[32m".toList
      (by decide) (by decide) (by decide) (by decide),
    C1_single_style_placeholder "hello ".toList "\n".toList 'Y' 's' "\x1b[33m".toList
      (by decide) (by decide) (by decide) (by decide),
    C1_single_style_placeholder "hello ".toList "\n".toList 'B' 's' "\x1b[34m".toList
      (by decide) (by decide) (by decide) (by decide),
    C1_single_style_placeholder "hello ".toList "\n".toList 'M' 's' "\x1b[35m".toList
      (by decide) (by decide) (by decide) (by decide),
    C1_single_style_placeholder "hello ".toList "\n".toList 'C' 's' "\x1b[36m".toList
      (by decide) (by decide) (by decide) (by decide),
    C1_single_style_placeholder "hello ".toList "\n".toList 'W' 's' "\x1b[37m".toList
      (by decide) (by decide) (by decide) (by decide),
    C1_single_style_placeholder "hello ".toList "\n".toList 'D' 's' "\x1b[1m".toList
      (by decide) (by decide) (by decide) (by decide),
    C1_single_style_placeholder "hello ".toList "\n".toList 'U' 's' "\x1b[4m".toList
      (by decide) (by decide) (by decide) (by decide),
    C1_single_style_placeholder "hello ".toList "\n".toList 'I' 's' "\x1b[3m".toList
      (by decide) (by decide) (by decide) (by decide)⟩

/-- C3, as the code has it: a template without a marker is returned unchanged;
no reset sequence is put before or after it, so the output is as long as the
input. -/
theorem C3_no_placeholder_unchanged (t : List Char) (ht : '%' ∉ t) :
    pprintf_value t = some t
      ∧ (pprintf_value t).map List.length = some t.length := by
  rw [pprintf_value_eq, assembled_no_marker t ht]
  simp

/-- C3 amended, at the template "hello". -/
theorem C3_no_placeholder_unchanged_witness :
    pprintf_value "hello".toList = some "hello".toList
      ∧ (pprintf_value "hello".toList).map List.length = some 5 :=
  C3_no_placeholder_unchanged "hello".toList (by decide)

/-- C3 as stated fails: "hello" has no marker, and the returned string is
neither wrapped in reset sequences nor 2 * 4 characters longer. -/
theorem C3_counterexample :
    '%' ∉ "hello".toList
      ∧ pprintf_value "hello".toList ≠ some ("\x1b[0m".toList ++ "hello".toList ++ "\x1b[0m".toList)
      ∧ (pprintf_value "hello".toList).map List.length ≠ some ("hello".toList.length + 2 * 4) := by
  decide

theorem filter_format_str (x : Char) :
    ((format_str x).getD []).filter is_conversion = [] := by
  by_cases h : x ∈ style_characters
  · have hall : ∀ y ∈ style_characters,
        ((format_str y).getD []).filter is_conversion = [] := by decide
    exact hall x h
  · rw [format_str_none x h]
    rfl

theorem filter_assembled (l : List Char) :
    ∀ st, (assembled st l).filter is_conversion = l.filter is_conversion := by
  have hn : NORMAL.filter is_conversion = [] := by decide
  induction l with
  | nil => intro st; cases st <;> decide
  | cons x l ih =>
    intro st
    cases st
    · by_cases hx : x = '%'
      · subst hx
        rw [assembled_marker, List.filter_append, hn, ih,
          List.filter_cons_of_neg (by simp [percent_not_conversion])]
        rfl
      · rw [assembled_false_cons, if_neg hx, List.filter_cons, List.filter_cons, ih]
    · by_cases hx : is_conversion x = true
      · rw [assembled_true_conversion _ _ hx,
          List.filter_cons_of_neg (by simp [percent_not_conversion]),
          List.filter_cons_of_pos hx, List.filter_cons_of_pos hx, List.filter_append, hn, ih]
        rfl
      · rw [assembled_true_directive _ _ (by simpa using hx), List.filter_append,
          filter_format_str, ih, List.filter_cons_of_neg hx]
        rfl

/-! ## C5: the size of the `results` buffer -/

/-- C5 fails for `pprintf("%d%d%d%d", 1, 2, 3, 4)`: `get_str_length` is 32 and
the argument length 4, so the buffer has 32 + 4 + 3 = 39 bytes, while the
assembled string has 40 characters and needs 41 bytes with its terminator. -/
theorem C5_results_buffer_too_small :
    pprintf_value "%d%d%d%d".toList
        = some "\x1b[0m%d\x1b[0m\x1b[0m%d\x1b[0m\x1b[0m%d\x1b[0m\x1b[0m%d\x1b[0m".toList
      ∧ get_str_length "%d%d%d%d".toList = some 32
      ∧ pprintf_value_arg_len "%d%d%d%d".toList [Arg.int 1, Arg.int 2, Arg.int 3, Arg.int 4]
          = some 4
      ∧ pprintf_value_results_size "%d%d%d%d".toList
          [Arg.int 1, Arg.int 2, Arg.int 3, Arg.int 4] = some 39
      ∧ ¬ ("\x1b[0m%d\x1b[0m\x1b[0m%d\x1b[0m\x1b[0m%d\x1b[0m\x1b[0m%d\x1b[0m".toList.length + 1
            ≤ 32 + 4 + 3) := by
  decide

/-! ## Deleting an unrecognized directive character -/

theorem assembled_true_delete (r1 b : List Char) (x : Char)
    (hr1 : ∀ y ∈ r1, is_conversion y = false) (hx : x ∉ style_characters)
    (hxc : is_conversion x = false) :
    assembled true (r1 ++ x :: b) = assembled true (r1 ++ b) := by
  induction r1 with
  | nil =>
    rw [List.nil_append, List.nil_append, assembled_true_directive _ _ hxc, format_str_none x hx]
    rfl
  | cons y r1 ih =>
    have hy : is_conversion y = false := hr1 y (by simp)
    have hr2 : ∀ z ∈ r1, is_conversion z = false := fun z hz => hr1 z (by simp [hz])
    rw [List.cons_append, List.cons_append, assembled_true_directive _ _ hy,
      assembled_true_directive _ _ hy, ih hr2]

theorem assembled_delete (p r1 b : List Char) (x : Char)
    (hr1 : ∀ y ∈ r1, is_conversion y = false) (hx : x ∉ style_characters)
    (hxc : is_conversion x = false) :
    ∀ st, assembled st (p ++ '%' :: (r1 ++ x :: b)) = assembled st (p ++ '%' :: (r1 ++ b)) := by
  induction p with
  | nil =>
    intro st
    cases st
    · rw [List.nil_append, List.nil_append, assembled_marker, assembled_marker,
        assembled_true_delete r1 b x hr1 hx hxc]
    · rw [List.nil_append, List.nil_append, assembled_true_directive _ _ percent_not_conversion,
        assembled_true_directive _ _ percent_not_conversion,
        assembled_true_delete r1 b x hr1 hx hxc]
  | cons y p ih =>
    intro st
    cases st
    · rw [List.cons_append, List.cons_append, assembled_false_cons, assembled_false_cons,
        ih true, ih false]
    · rw [List.cons_append, List.cons_append, assembled_true_cons, assembled_true_cons,
        ih true, ih false]

/-! ## The markers of the assembled string -/

theorem count_format_str (x : Char) : ((format_str x).getD []).count '%' = 0 := by
  by_cases h : x ∈ style_characters
  · have hall : ∀ y ∈ style_characters, ((format_str y).getD []).count '%' = 0 := by decide
    exact hall x h
  · rw [format_str_none x h]
    rfl

theorem count_assembled (l : List Char) :
    ∀ st, (assembled st l).count '%' = placeholder_count st l + (if st then 1 else 0) := by
  have hn : NORMAL.count '%' = 0 := by decide
  induction l with
  | nil => intro st; cases st <;> decide
  | cons x l ih =>
    intro st
    cases st
    · by_cases hx : x = '%'
      · subst hx
        rw [assembled_marker, List.count_append, hn, ih]
        simp [placeholder_count]
      · rw [assembled_false_cons, if_neg hx, List.count_cons, ih]
        simp [placeholder_count, hx]
    · by_cases hx : is_conversion x = true
      · have hxp : x ≠ '%' := by
          rintro rfl
          rw [percent_not_conversion] at hx
          exact Bool.false_ne_true hx
        rw [assembled_true_conversion _ _ hx, List.count_cons, List.count_cons,
          List.count_append, hn, ih]
        simp [placeholder_count, hx, hxp]
      · rw [assembled_true_directive _ _ (by simpa using hx), List.count_append,
          count_format_str, ih]
        simp [placeholder_count, hx]

theorem markers_converted_nil : markers_converted [] := by
  intro a b h
  cases a <;> simp at h

theorem markers_converted_cons (x : Char) (out : List Char) (hx : x ≠ '%')
    (h : markers_converted out) : markers_converted (x :: out) := by
  intro a b hab
  cases a with
  | nil =>
    simp only [List.nil_append, List.cons.injEq] at hab
    exact absurd hab.1 hx
  | cons y a =>
    simp only [List.cons_append, List.cons.injEq] at hab
    exact h a b hab.2

theorem markers_converted_append (e out : List Char) (he : '%' ∉ e)
    (h : markers_converted out) : markers_converted (e ++ out) := by
  induction e with
  | nil => exact h
  | cons x e ih =>
    have hx : x ≠ '%' := fun hx => he (by simp [hx])
    have he2 : '%' ∉ e := fun h2 => he (by simp [h2])
    exact markers_converted_cons x _ hx (ih he2)

theorem markers_converted_marker (c : Char) (out : List Char) (hc : is_conversion c = true)
    (h : markers_converted out) : markers_converted ('%' :: c :: out) := by
  have hcp : c ≠ '%' := by
    rintro rfl
    rw [percent_not_conversion] at hc
    exact Bool.false_ne_true hc
  intro a b hab
  cases a with
  | nil =>
    simp only [List.nil_append, List.cons.injEq, true_and] at hab
    exact ⟨c, out, hab.symm, hc⟩
  | cons y a =>
    simp only [List.cons_append, List.cons.injEq] at hab
    exact markers_converted_cons c out hcp h a b hab.2

theorem percent_not_mem_format_str (x : Char) : '%' ∉ (format_str x).getD [] := by
  by_cases h : x ∈ style_characters
  · have hall : ∀ y ∈ style_characters, '%' ∉ (format_str y).getD [] := by decide
    exact hall x h
  · rw [format_str_none x h]
    simp

theorem markers_converted_assembled (l : List Char) :
    ∀ st, (st = true → ∃ c ∈ l, is_conversion c = true) →
      (∀ a b, l = a ++ '%' :: b → ∃ c ∈ b, is_conversion c = true) →
      markers_converted (assembled st l) := by
  have hn : '%' ∉ NORMAL := by decide
  induction l with
  | nil =>
    intro st h1 _
    cases st
    · exact markers_converted_nil
    · obtain ⟨c, hc, _⟩ := h1 rfl
      simp at hc
  | cons x l ih =>
    intro st h1 h2
    have h2l : ∀ a b, l = a ++ '%' :: b → ∃ c ∈ b, is_conversion c = true := by
      intro a b hab
      exact h2 (x :: a) b (by rw [hab]; rfl)
    cases st
    · by_cases hx : x = '%'
      · subst hx
        rw [assembled_marker]
        exact markers_converted_append _ _ hn (ih true (fun _ => h2 [] l rfl) h2l)
      · rw [assembled_false_cons, if_neg hx]
        exact markers_converted_cons _ _ hx (ih false (by simp) h2l)
    · by_cases hx : is_conversion x = true
      · rw [assembled_true_conversion _ _ hx]
        exact markers_converted_marker _ _ hx
          (markers_converted_append _ _ hn (ih false (by simp) h2l))
      · rw [assembled_true_directive _ _ (by simpa using hx)]
        refine markers_converted_append _ _ (percent_not_mem_format_str x) (ih true ?_ h2l)
        intro _
        obtain ⟨c, hc, hcc⟩ := h1 rfl
        rcases List.mem_cons.1 hc with rfl | hc
        · exact absurd hcc hx
        · exact ⟨c, hc, hcc⟩

theorem marker_followed_of_last (t : List Char) (c : Char) (hl : t.getLast? = some c)
    (hc : c = 's' ∨ c = 'c' ∨ c = 'd') :
    ∀ a b, t = a ++ '%' :: b → ∃ c ∈ b, c = 's' ∨ c = 'c' ∨ c = 'd' := by
  intro a b hab
  subst hab
  cases b with
  | nil =>
    rw [show a ++ ['%'] = a ++ ['%'] from rfl, List.getLast?_concat] at hl
    have hcp : c = '%' := (Option.some.inj hl).symm
    subst hcp
    revert hc
    decide
  | cons y b =>
    rw [List.getLast?_append_of_ne_nil _ (by simp), List.getLast?_cons_cons] at hl
    exact ⟨c, List.mem_of_getLast?_eq_some hl, hc⟩

/-! ## C8: `getformats` on a placeholder without directives -/

/-- C8, as the code has it: on a marker immediately followed by a conversion
character, `getformats` called with the offset at 0 leaves the offset at 1
(the marker itself is counted) and writes exactly the reset sequence. -/
theorem C8_getformats_no_directives (c : Char) (rest : List Char)
    (hc : c = 's' ∨ c = 'c' ∨ c = 'd') :
    getformats ('%' :: c :: rest) 0 = ("\x1b[0m".toList, 1) := by
  have hcc : is_conversion c = true := (is_conversion_iff c).2 hc
  rw [getformats, getformats_loop_eq, ← NORMAL_eq]
  simp [run_esc, run_len, percent_not_conversion, hcc, format_str_percent]

/-- C8 amended, at the input "%s\n". -/
theorem C8_getformats_no_directives_witness :
    getformats "%s\n".toList 0 = ("\x1b[0m".toList, 1) :=
  C8_getformats_no_directives 's' "\n".toList (by decide)

/-- C8 as stated fails: on "%s" the offset reported is 1, not 0. -/
theorem C8_counterexample :
    getformats "%s".toList 0 = ("\x1b[0m".toList, 1)
      ∧ (getformats "%s".toList 0).2 ≠ 0 := by
  decide

/-! ## C10: `get_current_type` -/

theorem charAt_eq_headD (s : List Char) (pos : Nat) : charAt s pos = (s.drop pos).headD NUL := by
  simp [charAt]

theorem drop_succ_of_drop_cons (s : List Char) (pos : Nat) (x : Char) (t : List Char)
    (h : s.drop pos = x :: t) : s.drop (pos + 1) = t := by
  have h2 : s.drop (pos + 1) = (s.drop pos).drop 1 := by
    rw [List.drop_drop]
  rw [h2, h]
  rfl

theorem drop_add_of_drop_append (s : List Char) (pos : Nat) (a l : List Char)
    (h : s.drop pos = a ++ l) : s.drop (pos + a.length) = l := by
  have h2 : s.drop (pos + a.length) = (s.drop pos).drop a.length := by
    rw [List.drop_drop]
  rw [h2, h, List.drop_left]

theorem not_standard_of (x : Char) (h1 : is_conversion x = false) (h2 : x ≠ NUL) :
    is_standard_format x = false := by
  rw [← Bool.not_eq_true, is_standard_format_iff]
  rintro (h | h)
  · rw [h1] at h
    exact Bool.false_ne_true h
  · exact h2 h

theorem get_current_type_while_eq (s tail : List Char) :
    ∀ (r : List Char) (pos fuel : Nat), s.drop pos = r ++ tail →
      (∀ x ∈ r, is_standard_format x = false) →
      is_standard_format (tail.headD NUL) = true →
      get_current_type_while s (r.length + fuel) pos (charAt s pos)
        = some (pos + r.length, tail.headD NUL) := by
  intro r
  induction r with
  | nil =>
    intro pos fuel hd _ ht
    have hc : charAt s pos = tail.headD NUL := by rw [charAt_eq_headD, hd]; rfl
    rw [hc]
    simp only [List.length_nil, Nat.zero_add, Nat.add_zero]
    cases fuel <;> rw [get_current_type_while, ht] <;> rfl
  | cons x r ih =>
    intro pos fuel hd hr ht
    have hx : is_standard_format x = false := hr x (by simp)
    have hr2 : ∀ y ∈ r, is_standard_format y = false := fun y hy => hr y (by simp [hy])
    have hc : charAt s pos = x := by rw [charAt_eq_headD, hd]; rfl
    have hd2 : s.drop (pos + 1) = r ++ tail := drop_succ_of_drop_cons s pos x _ hd
    rw [hc, show (x :: r).length + fuel = (r.length + fuel) + 1 by simp; omega,
      get_current_type_while]
    simp only [hx, Bool.not_false, if_true]
    rw [ih (pos + 1) fuel hd2 hr2 ht]
    simp
    omega

theorem get_current_type_loop_literal (s l : List Char) :
    ∀ (a : List Char) (pos fuel : Nat), s.drop pos = a ++ l → '%' ∉ a → NUL ∉ a →
      get_current_type_loop s (a.length + fuel) pos (charAt s pos)
        = get_current_type_loop s fuel (pos + a.length) (charAt s (pos + a.length)) := by
  intro a
  induction a with
  | nil => intro pos fuel _ _ _; simp
  | cons x a ih =>
    intro pos fuel hd hp hn
    have hx1 : x ≠ '%' := fun h => hp (by simp [h])
    have hx2 : x ≠ NUL := fun h => hn (by simp [h])
    have hp2 : '%' ∉ a := fun h => hp (by simp [h])
    have hn2 : NUL ∉ a := fun h => hn (by simp [h])
    have hc : charAt s pos = x := by rw [charAt_eq_headD, hd]; rfl
    have hd2 : s.drop (pos + 1) = a ++ l := drop_succ_of_drop_cons s pos x _ hd
    rw [hc, show (x :: a).length + fuel = (a.length + fuel) + 1 by simp; omega,
      get_current_type_loop]
    simp only [hx1, hx2, if_false]
    rw [ih (pos + 1) fuel hd2 hp2 hn2]
    simp [Nat.add_assoc, Nat.add_comm 1]

theorem length_of_drop_eq (s : List Char) (pos : Nat) (l : List Char) (hpos : pos ≤ s.length)
    (h : s.drop pos = l) : s.length = pos + l.length := by
  have := congrArg List.length h
  simp at this
  omega

theorem get_current_type_no_marker (s : List Char) (pos : Nat) (hs : NUL ∉ s)
    (hpos : pos ≤ s.length) (h : '%' ∉ s.drop pos) :
    get_current_type s pos = some (NUL, s.length) := by
  have hlen := length_of_drop_eq s pos _ hpos rfl
  have hn : NUL ∉ s.drop pos := fun h2 => hs (List.mem_of_mem_drop h2)
  have hd : s.drop pos = s.drop pos ++ [] := by simp
  rw [get_current_type, show s.length + 1 = (s.drop pos).length + (pos + 1) by omega,
    get_current_type_loop_literal s [] (s.drop pos) pos (pos + 1) hd h hn]
  have hc : charAt s (pos + (s.drop pos).length) = NUL := by
    rw [charAt_eq_headD, drop_add_of_drop_append s pos _ [] hd]
    rfl
  rw [hc, get_current_type_loop, if_pos rfl, ← hlen]

theorem get_current_type_marker (s : List Char) (pos : Nat) (a r tail : List Char)
    (hs : NUL ∉ s) (hpos : pos ≤ s.length)
    (hd : s.drop pos = a ++ '%' :: (r ++ tail)) (ha : '%' ∉ a)
    (hr : ∀ x ∈ r, is_conversion x = false)
    (ht : is_standard_format (tail.headD NUL) = true) :
    get_current_type s pos = some (tail.headD NUL, pos + a.length + r.length + 2) := by
  have hlen := length_of_drop_eq s pos _ hpos hd
  have hn : NUL ∉ s.drop pos := fun h2 => hs (List.mem_of_mem_drop h2)
  rw [hd] at hn
  have hna : NUL ∉ a := fun h2 => hn (by simp [h2])
  have hd2 : s.drop (pos + a.length) = ('%' :: r) ++ tail :=
    drop_add_of_drop_append s pos a _ hd
  have hr2 : ∀ x ∈ '%' :: r, is_standard_format x = false := by
    intro x hx
    have hmem : x ∈ a ++ '%' :: (r ++ tail) := by
      rcases List.mem_cons.1 hx with h | h
      · simp [h]
      · simp [h]
    have hxn : x ≠ NUL := fun h2 => hn (h2 ▸ hmem)
    rcases List.mem_cons.1 hx with rfl | hx
    · exact not_standard_of _ percent_not_conversion hxn
    · exact not_standard_of _ (hr x hx) hxn
  have hc : charAt s (pos + a.length) = '%' := by rw [charAt_eq_headD, hd2]; rfl
  simp only [List.length_append, List.length_cons] at hlen
  rw [get_current_type, show s.length + 1 = a.length + (s.length + 1 - a.length) by omega,
    get_current_type_loop_literal s _ a pos _ hd ha hna,
    show s.length + 1 - a.length = (s.length - a.length) + 1 by omega, get_current_type_loop]
  have hw := get_current_type_while_eq s tail ('%' :: r) (pos + a.length)
    (s.length + 1 - (r.length + 1)) hd2 hr2 ht
  rw [show ('%' :: r).length + (s.length + 1 - (r.length + 1)) = s.length + 1 by
    simp; omega] at hw
  rw [hc] at hw ⊢
  have h1 : ('%' : Char) ≠ NUL := by decide
  simp only [h1, if_false, if_true, hw]
  simp
  omega

theorem marker_cases (l : List Char) :
    '%' ∉ l
    ∨ (∃ a r c rest, l = a ++ '%' :: (r ++ c :: rest) ∧ '%' ∉ a
        ∧ (∀ x ∈ r, is_conversion x = false) ∧ is_conversion c = true)
    ∨ (∃ a r, l = a ++ '%' :: r ∧ '%' ∉ a ∧ ∀ x ∈ r, is_conversion x = false) := by
  have run_cases : ∀ b : List Char, (∀ x ∈ b, is_conversion x = false)
      ∨ ∃ r c rest, b = r ++ c :: rest ∧ (∀ x ∈ r, is_conversion x = false)
          ∧ is_conversion c = true := by
    intro b
    induction b with
    | nil => left; simp
    | cons y b ih =>
      by_cases hy : is_conversion y = true
      · right; exact ⟨[], y, b, rfl, by simp, hy⟩
      · have hy2 : is_conversion y = false := by simpa using hy
        rcases ih with h | ⟨r, c, rest, hb, hr, hc⟩
        · left
          intro x hx
          rcases List.mem_cons.1 hx with rfl | hx
          · exact hy2
          · exact h x hx
        · right
          refine ⟨y :: r, c, rest, by rw [hb]; rfl, ?_, hc⟩
          intro x hx
          rcases List.mem_cons.1 hx with rfl | hx
          · exact hy2
          · exact hr x hx
  induction l with
  | nil => left; simp
  | cons y l ih =>
    by_cases hy : y = '%'
    · subst hy
      rcases run_cases l with h | ⟨r, c, rest, hb, hr, hc⟩
      · right; right; exact ⟨[], l, rfl, by simp, h⟩
      · right; left; exact ⟨[], r, c, rest, by rw [hb]; rfl, by simp, hr, hc⟩
    · rcases ih with h | ⟨a, r, c, rest, hl, ha, hr, hc⟩ | ⟨a, r, hl, ha, hr⟩
      · left
        intro h2
        rcases List.mem_cons.1 h2 with h3 | h3
        · exact hy h3.symm
        · exact h h3
      · right; left
        refine ⟨y :: a, r, c, rest, by rw [hl]; rfl, ?_, hr, hc⟩
        intro h2
        rcases List.mem_cons.1 h2 with h3 | h3
        · exact hy h3.symm
        · exact ha h3
      · right; right
        refine ⟨y :: a, r, by rw [hl]; rfl, ?_, hr⟩
        intro h2
        rcases List.mem_cons.1 h2 with h3 | h3
        · exact hy h3.symm
        · exact ha h3

theorem placeholder_conversions_literal (a l : List Char) (ha : '%' ∉ a) :
    placeholder_conversions false (a ++ l) = placeholder_conversions false l := by
  induction a with
  | nil => rfl
  | cons x a ih =>
    have hx : x ≠ '%' := fun h => ha (by simp [h])
    have ha2 : '%' ∉ a := fun h => ha (by simp [h])
    rw [List.cons_append, placeholder_conversions, if_neg hx, ih ha2]

theorem placeholder_conversions_terminated (r rest : List Char) (c : Char)
    (hr : ∀ x ∈ r, is_conversion x = false) (hc : is_conversion c = true) :
    placeholder_conversions true (r ++ c :: rest) = c :: placeholder_conversions false rest := by
  induction r with
  | nil => rw [List.nil_append, placeholder_conversions, if_pos hc]
  | cons x r ih =>
    have hx : is_conversion x = false := hr x (by simp)
    have hr2 : ∀ y ∈ r, is_conversion y = false := fun y hy => hr y (by simp [hy])
    rw [List.cons_append, placeholder_conversions, if_neg (by simp [hx]), ih hr2]

theorem placeholder_conversions_unterminated (r : List Char)
    (hr : ∀ x ∈ r, is_conversion x = false) :
    ∀ st, placeholder_conversions st r = [] ∨ st = false := by
  induction r with
  | nil => intro st; left; cases st <;> rfl
  | cons x r ih =>
    intro st
    have hx : is_conversion x = false := hr x (by simp)
    have hr2 : ∀ y ∈ r, is_conversion y = false := fun y hy => hr y (by simp [hy])
    cases st
    · right; rfl
    · left
      rw [placeholder_conversions, if_neg (by simp [hx])]
      rcases ih hr2 true with h | h
      · exact h
      · exact absurd h (by decide)

theorem placeholder_conversions_run (r : List Char) (hr : ∀ x ∈ r, is_conversion x = false) :
    placeholder_conversions true r = [] := by
  rcases placeholder_conversions_unterminated r hr true with h | h
  · exact h
  · exact absurd h (by decide)

theorem placeholder_conversions_no_marker (a : List Char) (ha : '%' ∉ a) :
    placeholder_conversions false a = [] := by
  have := placeholder_conversions_literal a [] ha
  rw [List.append_nil] at this
  rw [this]
  rfl

theorem get_current_type_walk_eq (s : List Char) (hs : NUL ∉ s) :
    ∀ fuel pos, pos ≤ s.length → s.length - pos < fuel →
      get_current_type_walk s fuel pos = some (placeholder_conversions false (s.drop pos)) := by
  intro fuel
  induction fuel with
  | zero => intro pos _ h; omega
  | succ fuel ih =>
    intro pos hpos hfuel
    rw [get_current_type_walk]
    rcases marker_cases (s.drop pos) with h | ⟨a, r, c, rest, hd, ha, hr, hc⟩ | ⟨a, r, hd, ha, hr⟩
    · rw [get_current_type_no_marker s pos hs hpos h, placeholder_conversions_no_marker _ h]
      simp
    · have hstd : is_standard_format ((c :: rest).headD NUL) = true :=
        (is_standard_format_iff c).2 (Or.inl hc)
      have hcn : c ≠ NUL := by
        rintro rfl
        revert hc
        decide
      have hlen := length_of_drop_eq s pos _ hpos hd
      simp only [List.length_append, List.length_cons] at hlen
      have hd3 : s.drop pos = (a ++ '%' :: (r ++ [c])) ++ rest := by rw [hd]; simp
      have hd4 := drop_add_of_drop_append s pos _ rest hd3
      have hl4 : pos + (a ++ '%' :: (r ++ [c])).length = pos + a.length + r.length + 2 := by
        simp
        omega
      rw [hl4] at hd4
      rw [get_current_type_marker s pos a r (c :: rest) hs hpos hd ha hr hstd]
      simp only [List.headD_cons, hcn, if_false]
      rw [ih _ (by omega) (by omega), hd4, hd, placeholder_conversions_literal _ _ ha,
        placeholder_conversions, if_pos rfl, placeholder_conversions_terminated r rest c hr hc]
      rfl
    · have hstd : is_standard_format (([] : List Char).headD NUL) = true := by decide
      have hd2 : s.drop pos = a ++ '%' :: (r ++ []) := by rw [hd]; simp
      rw [get_current_type_marker s pos a r [] hs hpos hd2 ha hr hstd, hd,
        placeholder_conversions_literal _ _ ha, placeholder_conversions, if_pos rfl,
        placeholder_conversions_run r hr]
      simp

/-- C10, as the code has it.  With the cursor at index `pos` of a string:
when no marker stands at or after the cursor, `get_current_type` returns the
terminator and leaves the cursor on the terminator; when the first marker at
or after the cursor has a conversion character after it, the first such
character is returned and the cursor is left immediately after it; when that
marker has no conversion character after it, the terminator is returned (and
the cursor is left one past the terminator).  Calling it repeatedly until it
returns the terminator yields the conversion characters of the placeholders
of the template, left to right. -/
theorem C10_get_current_type (s : List Char) (pos : Nat) (hs : '\x00' ∉ s)
    (hpos : pos ≤ s.length) :
    ('%' ∉ s.drop pos → get_current_type s pos = some ('\x00', s.length))
    ∧ (∀ a r c rest, s.drop pos = a ++ '%' :: r ++ c :: rest → '%' ∉ a →
        (∀ x ∈ r, x ≠ 's' ∧ x ≠ 'c' ∧ x ≠ 'd') → (c = 's' ∨ c = 'c' ∨ c = 'd') →
        get_current_type s pos = some (c, pos + a.length + r.length + 2)
          ∧ s.drop (pos + a.length + r.length + 2) = rest)
    ∧ (∀ a r, s.drop pos = a ++ '%' :: r → '%' ∉ a →
        (∀ x ∈ r, x ≠ 's' ∧ x ≠ 'c' ∧ x ≠ 'd') →
        get_current_type s pos = some ('\x00', s.length + 1))
    ∧ get_current_type_walk s (s.length + 1) 0 = some (placeholder_conversions false s) := by
  have hs2 : NUL ∉ s := hs
  refine ⟨fun h => get_current_type_no_marker s pos hs2 hpos h, ?_, ?_, ?_⟩
  · intro a r c rest hd ha hr hc
    have hr2 : ∀ x ∈ r, is_conversion x = false := fun x hx => not_conversion_of_ne x (hr x hx)
    have hcc : is_conversion c = true := (is_conversion_iff c).2 hc
    have hstd : is_standard_format ((c :: rest).headD NUL) = true :=
      (is_standard_format_iff c).2 (Or.inl hcc)
    have hd2 : s.drop pos = a ++ '%' :: (r ++ c :: rest) := by rw [hd]; simp
    have hd3 : s.drop pos = (a ++ '%' :: (r ++ [c])) ++ rest := by rw [hd]; simp
    have hd4 := drop_add_of_drop_append s pos _ rest hd3
    have hl4 : pos + (a ++ '%' :: (r ++ [c])).length = pos + a.length + r.length + 2 := by
      simp
      omega
    rw [hl4] at hd4
    exact ⟨get_current_type_marker s pos a r (c :: rest) hs2 hpos hd2 ha hr2 hstd, hd4⟩
  · intro a r hd ha hr
    have hr2 : ∀ x ∈ r, is_conversion x = false := fun x hx => not_conversion_of_ne x (hr x hx)
    have hstd : is_standard_format (([] : List Char).headD NUL) = true := by decide
    have hd2 : s.drop pos = a ++ '%' :: (r ++ []) := by rw [hd]; simp
    have hlen := length_of_drop_eq s pos _ hpos hd
    simp only [List.length_append, List.length_cons] at hlen
    rw [get_current_type_marker s pos a r [] hs2 hpos hd2 ha hr2 hstd]
    simp only [List.headD_nil, Option.some.injEq, Prod.mk.injEq]
    exact ⟨rfl, by omega⟩
  · have := get_current_type_walk_eq s hs2 (s.length + 1) 0 (by omega) (by omega)
    simpa using this

/-- C10 amended, on the template "ab%RRs%d%U": from index 0 the call returns
's' and leaves the cursor at 6, from 6 it returns 'd' and leaves it at 8, from
8 it meets a marker without conversion character and returns the terminator
with the cursor at 11, one past the terminator; from index 9 of "ab%RRs%dxy",
where no marker follows, it returns the terminator with the cursor on it.  The
repeated calls yield 's', 'd'. -/
theorem C10_get_current_type_witness :
    get_current_type "ab%RRs%d%U".toList 0 = some ('s', 6)
    ∧ get_current_type "ab%RRs%d%U".toList 6 = some ('d', 8)
    ∧ get_current_type "ab%RRs%d%U".toList 8 = some ('\x00', 11)
    ∧ get_current_type "ab%RRs%dxy".toList 9 = some ('\x00', 10)
    ∧ get_current_type_walk "ab%RRs%d%U".toList 11 0 = some ['s', 'd'] :=
  ⟨((C10_get_current_type "ab%RRs%d%U".toList 0 (by decide) (by decide)).2.1
      "ab".toList "RR".toList 's' "%d%U".toList rfl (by decide) (by decide) (by decide)).1,
    ((C10_get_current_type "ab%RRs%d%U".toList 6 (by decide) (by decide)).2.1
      [] [] 'd' "%U".toList rfl (by decide) (by decide) (by decide)).1,
    (C10_get_current_type "ab%RRs%d%U".toList 8 (by decide) (by decide)).2.2.1
      [] "U".toList rfl (by decide) (by decide),
    (C10_get_current_type "ab%RRs%dxy".toList 9 (by decide) (by decide)).1 (by decide),
    (C10_get_current_type "ab%RRs%d%U".toList 0 (by decide) (by decide)).2.2.2⟩

/-- C10 as stated fails: in "ab%R" a marker stands after the cursor at index
0, yet the call returns the terminator, which is none of s, c, d. -/
theorem C10_counterexample :
    '%' ∈ "ab%R".toList.drop 0
      ∧ get_current_type "ab%R".toList 0 = some ('\x00', 5)
      ∧ ¬ ∃ c pos, get_current_type "ab%R".toList 0 = some (c, pos)
            ∧ (c = 's' ∨ c = 'c' ∨ c = 'd') := by
  refine ⟨by decide, by decide, ?_⟩
  rintro ⟨c, pos, h, hc⟩
  have h2 : get_current_type "ab%R".toList 0 = some ('\x00', 5) := by decide
  rw [h2] at h
  have h3 : c = '\x00' := by
    have := Option.some.inj h
    exact (congrArg Prod.fst this).symm
  subst h3
  revert hc
  decide

/-! ## C14: the length of the accumulated escape string -/

/-- C14 fails for the placeholder "%IDURGYBMCWs": its directive run uses each
of the ten style characters once, and `getformats` accumulates the seed and
ten escape sequences, 4 + 3 * 4 + 7 * 5 = 51 characters, more than the
5 * TOTAL_OPTIONS = 50 of its comment and of the `tmp` buffer. -/
theorem C14_accumulator_exceeds_bound :
    "IDURGYBMCW".toList.Nodup
      ∧ (∀ x ∈ "IDURGYBMCW".toList, x ∈ style_characters)
      ∧ (getformats "%IDURGYBMCWs".toList 0).1
          = ("\x1b[0m\x1b[3m\x1b[1m\x1b[4m\x1b[31m\x1b[32m\x1b[33m\x1b[34m\x1b[35m"
              ++ "\x1b[36m\x1b[37m").toList
      ∧ (getformats "%IDURGYBMCWs".toList 0).1.length = 51
      ∧ ¬ ((getformats "%IDURGYBMCWs".toList 0).1.length ≤ 5 * TOTAL_OPTIONS) := by
  decide

/-! ## The length of a directive run -/

theorem run_len_eq_takeWhile (l : List Char) :
    run_len l = (l.takeWhile (fun c => !is_conversion c)).length := by
  induction l with
  | nil => rfl
  | cons x l ih =>
    by_cases hx : is_conversion x = true
    · simp [run_len, List.takeWhile_cons, hx]
    · simp [run_len, List.takeWhile_cons, hx, ih]

theorem run_len_le_length (l : List Char) : run_len l ≤ l.length := by
  induction l with
  | nil => simp [run_len]
  | cons x l ih =>
    by_cases hx : is_conversion x = true
    · simp [run_len, hx]
    · simp [run_len, hx, ih]

theorem charAt_run_len (l : List Char) :
    (run_len l < l.length ∧ is_conversion (charAt l (run_len l)) = true)
      ∨ (run_len l = l.length ∧ charAt l (run_len l) = NUL) := by
  induction l with
  | nil => right; exact ⟨rfl, rfl⟩
  | cons x l ih =>
    by_cases hx : is_conversion x = true
    · left
      simp [run_len, hx, charAt]
    · have e : run_len (x :: l) = run_len l + 1 := by simp [run_len, hx]
      have e2 : charAt (x :: l) (run_len l + 1) = charAt l (run_len l) := by
        simp [charAt]
      rw [e, e2]
      rcases ih with ⟨h1, h2⟩ | ⟨h1, h2⟩
      · left; exact ⟨by simp; omega, h2⟩
      · right; exact ⟨by simp; omega, h2⟩

/-! ## The assembly of a concatenation -/

theorem inside_placeholder_false_cons (c : Char) (rest : List Char) :
    inside_placeholder false (c :: rest)
      = if c = '%' then inside_placeholder true rest else inside_placeholder false rest := by
  rw [inside_placeholder]

theorem inside_placeholder_true_cons (c : Char) (rest : List Char) :
    inside_placeholder true (c :: rest)
      = if is_conversion c then inside_placeholder false rest
        else inside_placeholder true rest := by
  rw [inside_placeholder]

theorem inside_placeholder_append (x y : List Char) :
    ∀ st, inside_placeholder st (x ++ y) = inside_placeholder (inside_placeholder st x) y := by
  induction x with
  | nil => intro st; cases st <;> rfl
  | cons c x ih =>
    intro st
    cases st
    · rw [List.cons_append, inside_placeholder_false_cons, inside_placeholder_false_cons]
      split <;> exact ih _
    · rw [List.cons_append, inside_placeholder_true_cons, inside_placeholder_true_cons]
      split <;> exact ih _

theorem inside_placeholder_marker (y : List Char) :
    ∀ st, inside_placeholder st ('%' :: y) = inside_placeholder true y := by
  intro st
  cases st
  · simp [inside_placeholder]
  · simp [inside_placeholder, percent_not_conversion]

theorem inside_placeholder_no_marker (a : List Char) (ha : '%' ∉ a) :
    inside_placeholder false a = false := by
  induction a with
  | nil => rfl
  | cons c a ih =>
    have hc : c ≠ '%' := fun h => ha (by simp [h])
    have ha2 : '%' ∉ a := fun h => ha (by simp [h])
    simp only [inside_placeholder, hc, if_false, ih ha2]

theorem inside_placeholder_run (r : List Char) (hr : ∀ x ∈ r, is_conversion x = false) :
    inside_placeholder true r = true := by
  induction r with
  | nil => rfl
  | cons c r ih =>
    have hc : is_conversion c = false := hr c (by simp)
    have hr2 : ∀ y ∈ r, is_conversion y = false := fun y hy => hr y (by simp [hy])
    simp only [inside_placeholder, hc, Bool.false_eq_true, if_false, ih hr2]

theorem inside_placeholder_converted (a : List Char) (ha : '%' ∉ a)
    (hc : ∃ c ∈ a, is_conversion c = true) : inside_placeholder true a = false := by
  induction a with
  | nil =>
    obtain ⟨c, hc1, _⟩ := hc
    simp at hc1
  | cons x a ih =>
    have ha2 : '%' ∉ a := fun h => ha (by simp [h])
    by_cases hx : is_conversion x = true
    · simp only [inside_placeholder, hx, if_true]
      exact inside_placeholder_no_marker a ha2
    · simp only [inside_placeholder, hx, if_false]
      apply ih ha2
      obtain ⟨c, hc1, hc2⟩ := hc
      rcases List.mem_cons.1 hc1 with rfl | hc1
      · exact absurd hc2 hx
      · exact ⟨c, hc1, hc2⟩

theorem inside_placeholder_true_cases (l : List Char) :
    ∀ st, inside_placeholder st l = true →
      (st = true ∧ ∀ c ∈ l, is_conversion c = false)
        ∨ ∃ x y, l = x ++ '%' :: y ∧ ∀ c ∈ y, is_conversion c = false := by
  induction l with
  | nil =>
    intro st h
    left
    exact ⟨by simpa [inside_placeholder] using h, by simp⟩
  | cons c l ih =>
    intro st h
    cases st
    · by_cases hc : c = '%'
      · subst hc
        simp only [inside_placeholder, if_true] at h
        rcases ih true h with ⟨_, h2⟩ | ⟨x, y, hl, hy⟩
        · right; exact ⟨[], l, rfl, h2⟩
        · right; exact ⟨'%' :: x, y, by rw [hl]; rfl, hy⟩
      · simp only [inside_placeholder, hc, if_false] at h
        rcases ih false h with ⟨h1, _⟩ | ⟨x, y, hl, hy⟩
        · exact absurd h1 (by decide)
        · right; exact ⟨c :: x, y, by rw [hl]; rfl, hy⟩
    · by_cases hc : is_conversion c = true
      · simp only [inside_placeholder, hc, if_true] at h
        rcases ih false h with ⟨h1, _⟩ | ⟨x, y, hl, hy⟩
        · exact absurd h1 (by decide)
        · right; exact ⟨c :: x, y, by rw [hl]; rfl, hy⟩
      · simp only [inside_placeholder, hc, if_false] at h
        rcases ih true h with ⟨_, h2⟩ | ⟨x, y, hl, hy⟩
        · left
          refine ⟨rfl, ?_⟩
          intro z hz
          rcases List.mem_cons.1 hz with rfl | hz
          · simpa using hc
          · exact h2 z hz
        · right; exact ⟨c :: x, y, by rw [hl]; rfl, hy⟩

/-- A template in which every marker has a conversion character after it
ends outside a placeholder. -/
theorem inside_placeholder_of_terminated (t : List Char)
    (h : ∀ a b, t = a ++ '%' :: b → ∃ c ∈ b, is_conversion c = true) :
    inside_placeholder false t = false := by
  cases hi : inside_placeholder false t with
  | false => rfl
  | true =>
    exfalso
    rcases inside_placeholder_true_cases t false hi with ⟨h1, _⟩ | ⟨x, y, hl, hy⟩
    · exact absurd h1 (by decide)
    · obtain ⟨c, hc1, hc2⟩ := h x y hl
      rw [hy c hc1] at hc2
      exact Bool.false_ne_true hc2

/-- A template with a marker that has no conversion character after it ends
inside a placeholder. -/
theorem inside_placeholder_of_unterminated (a b : List Char)
    (hb : ∀ c ∈ b, is_conversion c = false) :
    inside_placeholder false (a ++ '%' :: b) = true := by
  rw [inside_placeholder_append, inside_placeholder_marker, inside_placeholder_run b hb]

theorem assembled_append (l b : List Char) :
    ∀ st, inside_placeholder st l = false →
      assembled st (l ++ b) = assembled st l ++ assembled false b := by
  induction l with
  | nil =>
    intro st h
    have hst : st = false := by simpa [inside_placeholder] using h
    subst hst
    simp [assembled]
  | cons c l ih =>
    intro st h
    cases st
    · by_cases hc : c = '%'
      · subst hc
        simp only [inside_placeholder, if_true] at h
        rw [List.cons_append, assembled_marker, assembled_marker, ih true h, List.append_assoc]
      · simp only [inside_placeholder, hc, if_false] at h
        rw [List.cons_append, assembled_false_cons, assembled_false_cons, if_neg hc, if_neg hc,
          ih false h]
        rfl
    · by_cases hc : is_conversion c = true
      · simp only [inside_placeholder, hc, if_true] at h
        rw [List.cons_append, assembled_true_conversion _ _ hc, assembled_true_conversion _ _ hc,
          ih false h]
        simp
      · simp only [inside_placeholder, hc, if_false] at h
        have hc2 : is_conversion c = false := by simpa using hc
        rw [List.cons_append, assembled_true_directive _ _ hc2, assembled_true_directive _ _ hc2,
          ih true h, List.append_assoc]

/-! ## C12: the value of `get_str_length` -/

theorem charAt_of_length_le (s : List Char) (i : Nat) (h : s.length ≤ i) : charAt s i = NUL := by
  unfold charAt
  exact List.getD_eq_default _ _ h

theorem NUL_standard : is_standard_format NUL = true := by decide

theorem lt_length_of_not_standard (s : List Char) (i : Nat)
    (h : is_standard_format (charAt s i) = false) : i < s.length := by
  by_contra hlt
  rw [charAt_of_length_le s i (by omega), NUL_standard] at h
  exact Bool.noConfusion h

theorem get_str_length_while_eq (s tail : List Char) :
    ∀ (r : List Char) (pos fuel count : Nat), s.drop pos = r ++ tail →
      (∀ x ∈ r, is_standard_format x = false) →
      is_standard_format (tail.headD NUL) = true →
      get_str_length_while s (r.length + fuel) pos (charAt s pos) count
        = some (pos + r.length, tail.headD NUL, count + 5 * r.length) := by
  intro r
  induction r with
  | nil =>
    intro pos fuel count hd _ ht
    have hc : charAt s pos = tail.headD NUL := by rw [charAt_eq_headD, hd]; rfl
    rw [hc]
    simp only [List.length_nil, Nat.zero_add, Nat.add_zero, Nat.mul_zero]
    cases fuel <;> rw [get_str_length_while, ht] <;> rfl
  | cons x r ih =>
    intro pos fuel count hd hr ht
    have hx : is_standard_format x = false := hr x (by simp)
    have hr2 : ∀ y ∈ r, is_standard_format y = false := fun y hy => hr y (by simp [hy])
    have hc : charAt s pos = x := by rw [charAt_eq_headD, hd]; rfl
    have hd2 : s.drop (pos + 1) = r ++ tail := drop_succ_of_drop_cons s pos x _ hd
    rw [hc, show (x :: r).length + fuel = (r.length + fuel) + 1 by simp; omega,
      get_str_length_while]
    simp only [hx, Bool.not_false, if_true]
    rw [ih (pos + 1) fuel (count + 5) hd2 hr2 ht]
    simp only [List.length_cons, Option.some.injEq, Prod.mk.injEq, true_and]
    omega

theorem take_run_len_not_conversion (l : List Char) :
    ∀ x ∈ l.take (run_len l), is_conversion x = false := by
  induction l with
  | nil => simp [run_len]
  | cons c l ih =>
    by_cases hc : is_conversion c = true
    · simp [run_len, hc]
    · have e : run_len (c :: l) = run_len l + 1 := by simp [run_len, hc]
      rw [e, List.take_succ_cons]
      intro x hx
      rcases List.mem_cons.1 hx with rfl | hx
      · simpa using hc
      · exact ih x hx

theorem standard_at_run_len (l : List Char) :
    is_standard_format ((l.drop (run_len l)).headD NUL) = true := by
  rw [← charAt_eq_headD, is_standard_format_iff]
  rcases charAt_run_len l with ⟨_, h⟩ | ⟨_, h⟩
  · exact Or.inl h
  · exact Or.inr h

theorem reserved_true_eq (l : List Char) :
    reserved true l = 5 * run_len l + 2 + reserved false (l.drop (run_len l + 1)) := by
  induction l with
  | nil => simp [reserved, run_len]
  | cons c l ih =>
    by_cases hc : is_conversion c = true
    · have e1 : reserved true (c :: l) = reserved false l + 2 := by
        rw [reserved, if_pos hc]
      have e2 : run_len (c :: l) = 0 := by rw [run_len, if_pos hc]
      rw [e1, e2]
      simp only [Nat.mul_zero, Nat.zero_add, List.drop_succ_cons, List.drop_zero]
      omega
    · have e1 : reserved true (c :: l) = reserved true l + 5 := by
        rw [reserved, if_neg hc]
      have e2 : run_len (c :: l) = run_len l + 1 := by rw [run_len, if_neg hc]
      rw [e1, e2, ih, List.drop_succ_cons]
      omega

theorem terminated_of_inside_placeholder (t : List Char)
    (h : inside_placeholder false t = false) :
    ∀ a b, t = a ++ '%' :: b → ∃ c ∈ b, c = 's' ∨ c = 'c' ∨ c = 'd' := by
  intro a b hab
  by_contra hne
  have hb : ∀ c ∈ b, is_conversion c = false := by
    intro c hc
    cases hcc : is_conversion c with
    | false => rfl
    | true => exact absurd ⟨c, hc, (is_conversion_iff c).1 hcc⟩ hne
  rw [hab, inside_placeholder_of_unterminated a b hb] at h
  exact Bool.noConfusion h

/-- The loop of `get_str_length`, started at index `i` with enough fuel, adds
to `count` what the automaton reserves for the rest of the template. -/
theorem get_str_length_loop_eq (str : List Char) (hs : NUL ∉ str) :
    ∀ fuel i count, str.length ≤ i + fuel →
      get_str_length_loop str fuel i count = some (count + reserved false (str.drop i)) := by
  intro fuel
  induction fuel with
  | zero =>
    intro i count h
    have hi : ¬ i < str.length := by omega
    simp [get_str_length_loop, hi, List.drop_eq_nil_of_le (Nat.le_of_not_lt hi), reserved]
  | succ fuel ih =>
    intro i count h
    by_cases hi : i < str.length
    · rw [get_str_length_loop]
      simp only [hi, if_true]
      have hd := drop_eq_charAt_cons str i hi
      by_cases hc : '%' = charAt str i
      · simp only [hc, if_true]
        rw [← hc] at hd
        obtain ⟨rest, hrest⟩ : ∃ rest, str.drop (i + 1) = rest := ⟨_, rfl⟩
        rw [hrest] at hd
        have hn : NUL ∉ str.drop i := fun h2 => hs (List.mem_of_mem_drop h2)
        rw [hd] at hn
        have hd2 : str.drop i
            = ('%' :: rest.take (run_len rest)) ++ rest.drop (run_len rest) := by
          rw [hd, List.cons_append, List.take_append_drop]
        have hlen : ('%' :: rest.take (run_len rest)).length = run_len rest + 1 := by
          simp [List.length_take, Nat.min_eq_left (run_len_le_length rest)]
        have hr : ∀ x ∈ '%' :: rest.take (run_len rest), is_standard_format x = false := by
          intro x hx
          have hmem : x ∈ '%' :: rest := by
            rcases List.mem_cons.1 hx with h1 | h1
            · simp [h1]
            · exact List.mem_cons_of_mem _ (List.mem_of_mem_take h1)
          have hxn : x ≠ NUL := fun h2 => hn (h2 ▸ hmem)
          rcases List.mem_cons.1 hx with rfl | hx
          · exact not_standard_of _ percent_not_conversion hxn
          · exact not_standard_of _ (take_run_len_not_conversion rest x hx) hxn
        have hlr : rest.length + 1 = str.length - i := by
          have := congrArg List.length hd
          simp at this
          omega
        have hw := get_str_length_while_eq str (rest.drop (run_len rest))
          ('%' :: rest.take (run_len rest)) i (str.length + 1 - (run_len rest + 1)) count
          hd2 hr (standard_at_run_len rest)
        have hrl := run_len_le_length rest
        rw [hlen, show run_len rest + 1 + (str.length + 1 - (run_len rest + 1)) = str.length + 1
          by omega] at hw
        rw [hw]
        simp only []
        rw [ih _ _ (by omega)]
        have e4 : str.drop (i + (run_len rest + 1) + 1) = rest.drop (run_len rest + 1) := by
          rw [← hrest, List.drop_drop]
          congr 1
          omega
        rw [e4, hd, reserved, if_pos rfl, reserved_true_eq rest]
        simp only [Option.some.injEq]
        omega
      · simp only [hc, if_false]
        rw [ih _ _ (by omega), hd, reserved, if_neg (fun h2 => hc h2.symm)]
        simp only [Option.some.injEq]
        omega
    · simp [get_str_length_loop, hi, List.drop_eq_nil_of_le (Nat.le_of_not_lt hi), reserved]

theorem reserved_eq_counts (l : List Char) :
    ∀ st, reserved st l
      = literal_count st l + 5 * directive_count st l + 7 * placeholder_count st l
        + (if st then 2 else 0) := by
  induction l with
  | nil => intro st; cases st <;> rfl
  | cons c l ih =>
    intro st
    cases st
    · by_cases hc : c = '%'
      · simp only [reserved, literal_count, directive_count, placeholder_count, hc, if_true,
          ih true]
        simp
        omega
      · simp only [reserved, literal_count, directive_count, placeholder_count, hc, if_false,
          ih false]
        simp
        omega
    · by_cases hc : is_conversion c = true
      · simp only [reserved, literal_count, directive_count, placeholder_count, hc, if_true,
          ih false]
        simp
      · simp only [reserved, literal_count, directive_count, placeholder_count, hc, if_false,
          ih true]
        simp
        omega

/-- Value of `get_str_length` on every C string. -/
theorem get_str_length_eq (t : List Char) (hs : NUL ∉ t) :
    get_str_length t
      = some (literal_count false t
          + (5 * (directive_count false t + placeholder_count false t)
              + 2 * placeholder_count false t) + 4) := by
  rw [get_str_length, get_str_length_loop_eq t hs _ _ _ (by omega), List.drop_zero,
    reserved_eq_counts]
  simp only [Option.map_some', Option.some.injEq]
  simp
  omega

/-- C12, as the code has it: on a template whose placeholders are all
terminated, `get_str_length` is the number of literal characters, plus for
every placeholder 5 for its marker, 5 for each directive character and 2 for
its conversion character, plus 4. -/
theorem C12_get_str_length_value (t : List Char) (hs : '\x00' ∉ t)
    (_h : ∀ a b, t = a ++ '%' :: b → ∃ c ∈ b, c = 's' ∨ c = 'c' ∨ c = 'd') :
    get_str_length t
      = some (literal_count false t
          + (5 * (directive_count false t + placeholder_count false t)
              + 2 * placeholder_count false t) + 4) :=
  get_str_length_eq t hs

/-- C12 amended, at "hello %Rs\n": 7 literal characters, one placeholder with
one directive character, 7 + (5 * 2 + 2) + 4 = 23. -/
theorem C12_get_str_length_value_witness :
    get_str_length "hello %Rs\n".toList = some (7 + (5 * (1 + 1) + 2 * 1) + 4) :=
  C12_get_str_length_value "hello %Rs\n".toList (by decide)
    (terminated_of_inside_placeholder "hello %Rs\n".toList (by decide))

/-- C12 as stated fails: "hello %Rs\n" has 7 literal characters and one
placeholder with one directive character, so the stated value is
7 + (5 * 1 + 1) + 4 = 17, while `get_str_length` returns 23. -/
theorem C12_counterexample :
    literal_count false "hello %Rs\n".toList = 7
      ∧ directive_count false "hello %Rs\n".toList = 1
      ∧ placeholder_count false "hello %Rs\n".toList = 1
      ∧ get_str_length "hello %Rs\n".toList = some 23
      ∧ get_str_length "hello %Rs\n".toList ≠ some (7 + (5 * 1 + 1) + 4) := by
  decide

/-! ## The characters after the markers of the assembled string -/

theorem after_markers_cons_ne (x : Char) (out : List Char) (hx : x ≠ '%') :
    after_markers (x :: out) = after_markers out := by
  rw [after_markers, if_neg hx]

theorem after_markers_marker (out : List Char) :
    after_markers ('%' :: out) = out.take 1 ++ after_markers out := by
  rw [after_markers, if_pos rfl]

theorem after_markers_append (e out : List Char) (he : '%' ∉ e) :
    after_markers (e ++ out) = after_markers out := by
  induction e with
  | nil => rfl
  | cons x e ih =>
    have hx : x ≠ '%' := fun h => he (by simp [h])
    have he2 : '%' ∉ e := fun h => he (by simp [h])
    rw [List.cons_append, after_markers_cons_ne _ _ hx, ih he2]

theorem conversion_ne_percent (c : Char) (hc : is_conversion c = true) : c ≠ '%' := by
  rintro rfl
  rw [percent_not_conversion] at hc
  exact Bool.false_ne_true hc

theorem after_markers_assembled (l : List Char) :
    ∀ st, after_markers (assembled st l)
      = placeholder_conversions st l
          ++ (if inside_placeholder st l then ['\x1b'] else []) := by
  have hn : '%' ∉ NORMAL := by decide
  induction l with
  | nil => intro st; cases st <;> decide
  | cons c l ih =>
    intro st
    cases st
    · by_cases hc : c = '%'
      · subst hc
        rw [assembled_marker, after_markers_append _ _ hn, ih true, placeholder_conversions,
          if_pos rfl, inside_placeholder_false_cons, if_pos rfl]
      · rw [assembled_false_cons, if_neg hc, after_markers_cons_ne _ _ hc, ih false,
          placeholder_conversions, if_neg hc, inside_placeholder_false_cons, if_neg hc]
    · by_cases hc : is_conversion c = true
      · rw [assembled_true_conversion _ _ hc, after_markers_marker,
          after_markers_cons_ne _ _ (conversion_ne_percent c hc),
          after_markers_append _ _ hn, ih false, placeholder_conversions, if_pos hc,
          inside_placeholder_true_cons, if_pos hc]
        rfl
      · rw [assembled_true_directive _ _ (by simpa using hc),
          after_markers_append _ _ (percent_not_mem_format_str c), ih true,
          placeholder_conversions, if_neg hc, inside_placeholder_true_cons, if_neg hc]

theorem length_placeholder_conversions (l : List Char) :
    ∀ st, (placeholder_conversions st l).length + (if inside_placeholder st l then 1 else 0)
      = placeholder_count st l + (if st then 1 else 0) := by
  induction l with
  | nil => intro st; cases st <;> rfl
  | cons c l ih =>
    intro st
    cases st
    · by_cases hc : c = '%'
      · subst hc
        rw [placeholder_conversions, if_pos rfl, inside_placeholder_false_cons, if_pos rfl,
          placeholder_count, if_pos rfl, ih true]
        simp
      · rw [placeholder_conversions, if_neg hc, inside_placeholder_false_cons, if_neg hc,
          placeholder_count, if_neg hc, ih false]
    · by_cases hc : is_conversion c = true
      · rw [placeholder_conversions, if_pos hc, inside_placeholder_true_cons, if_pos hc,
          placeholder_count, if_pos hc, List.length_cons]
        have := ih false
        simp only [Bool.false_eq_true, if_false, Nat.add_zero] at this
        simp only [if_true]
        omega
      · rw [placeholder_conversions, if_neg hc, inside_placeholder_true_cons, if_neg hc,
          placeholder_count, if_neg hc, ih true]

/-! ## C13: the argument length -/

theorem int_to_decimal_length (v : Int) (h1 : -2147483648 ≤ v) (h2 : v ≤ 2147483647) :
    (int_to_decimal v).length ≤ 11 := by
  unfold int_to_decimal
  by_cases hv : v < 0
  · rw [if_pos hv, List.length_cons]
    have hlt : v.natAbs < 10 ^ 10 := by omega
    have := Nat.toDigitsCore_length 10 (by decide) (v.natAbs + 1) v.natAbs 10 hlt (by decide)
    unfold Nat.toDigits
    omega
  · rw [if_neg hv]
    have hlt : v.toNat < 10 ^ 10 := by omega
    have := Nat.toDigitsCore_length 10 (by decide) (v.toNat + 1) v.toNat 10 hlt (by decide)
    unfold Nat.toDigits
    omega

theorem int_to_decimal_take (v : Int) (h1 : -2147483648 ≤ v) (h2 : v ≤ 2147483647) :
    (int_to_decimal v).take 19 = int_to_decimal v :=
  List.take_of_length_le (by have := int_to_decimal_length v h1 h2; omega)

theorem conversion_ne_NUL (c : Char) (hc : is_conversion c = true) : c ≠ NUL := by
  rintro rfl
  revert hc
  decide

theorem pprintf_value_arg_loop_eq (t : List Char) (hs : NUL ∉ t) :
    ∀ fuel pos args arg_len, pos ≤ t.length → t.length - pos < fuel →
      args_match (placeholder_conversions false (t.drop pos)) args →
      pprintf_value_arg_loop t fuel pos args arg_len
        = some (arg_len + (args.map arg_length).sum) := by
  intro fuel
  induction fuel with
  | zero => intro pos _ _ _ h; omega
  | succ fuel ih =>
    intro pos args arg_len hpos hfuel hm
    rw [pprintf_value_arg_loop]
    rcases marker_cases (t.drop pos) with h | ⟨a, r, c, rest, hd, ha, hr, hc⟩ | ⟨a, r, hd, ha, hr⟩
    · rw [get_current_type_no_marker t pos hs hpos h]
      rw [placeholder_conversions_no_marker _ h] at hm
      cases args with
      | nil => simp [NUL]
      | cons x args => exact absurd hm (by simp [args_match])
    · have hstd : is_standard_format ((c :: rest).headD NUL) = true :=
        (is_standard_format_iff c).2 (Or.inl hc)
      have hcn : c ≠ NUL := conversion_ne_NUL c hc
      have hlen := length_of_drop_eq t pos _ hpos hd
      simp only [List.length_append, List.length_cons] at hlen
      have hd3 : t.drop pos = (a ++ '%' :: (r ++ [c])) ++ rest := by rw [hd]; simp
      have hd4 := drop_add_of_drop_append t pos _ rest hd3
      have hl4 : pos + (a ++ '%' :: (r ++ [c])).length = pos + a.length + r.length + 2 := by
        simp
        omega
      rw [hl4] at hd4
      rw [hd, placeholder_conversions_literal _ _ ha, placeholder_conversions, if_pos rfl,
        placeholder_conversions_terminated r rest c hr hc] at hm
      rw [get_current_type_marker t pos a r (c :: rest) hs hpos hd ha hr hstd]
      simp only [List.headD_cons]
      have hcn2 : ¬ '\x00' = c := fun h2 => hcn h2.symm
      rw [← hd4] at hm
      cases args with
      | nil => exact absurd hm (by simp [args_match])
      | cons x args =>
        obtain ⟨hx, hm2⟩ := hm
        have hrec := fun n => ih (pos + a.length + r.length + 2) args n (by omega) (by omega) hm2
        cases x with
        | str s0 =>
          have hk : c = 's' := hx
          subst hk
          simp only [hcn2, if_false, if_true]
          rw [hrec]
          simp [arg_length, Nat.add_assoc]
        | chr c0 =>
          have hk : c = 'c' := hx
          subst hk
          have e1 : ¬ 's' = 'c' := by decide
          simp only [hcn2, e1, if_false, if_true]
          rw [hrec]
          simp [arg_length, Nat.add_assoc]
        | int v =>
          obtain ⟨hk, hv1, hv2⟩ := hx
          subst hk
          have e1 : ¬ 's' = 'd' := by decide
          have e2 : ¬ 'c' = 'd' := by decide
          simp only [hcn2, e1, e2, if_false, if_true]
          rw [hrec, int_to_decimal_take v hv1 hv2]
          simp [arg_length, Nat.add_assoc]
    · have hstd : is_standard_format (([] : List Char).headD NUL) = true := by decide
      have hd2 : t.drop pos = a ++ '%' :: (r ++ []) := by rw [hd]; simp
      rw [get_current_type_marker t pos a r [] hs hpos hd2 ha hr hstd]
      rw [hd, placeholder_conversions_literal _ _ ha, placeholder_conversions, if_pos rfl,
        placeholder_conversions_run r hr] at hm
      cases args with
      | nil => simp [NUL]
      | cons x args => exact absurd hm (by simp [args_match])

/-- C13: for a template and an argument list that matches the conversions of
its placeholders (a string for s, a character for c, a 32-bit int for d), the
argument length that `pprintf_value` computes is the sum over the arguments,
left to right, of the length of a string, 1 for a character and the length of
the decimal representation of an int; that representation has at most 11
characters, so the 20-byte buffer of `snprintf` holds it whole. -/
theorem C13_argument_length (t : List Char) (args : List Arg) (hs : '\x00' ∉ t)
    (hm : args_match (placeholder_conversions false t) args) :
    pprintf_value_arg_len t args = some ((args.map arg_length).sum)
      ∧ ∀ v : Int, -2147483648 ≤ v → v ≤ 2147483647 →
          (int_to_decimal v).length ≤ 11 ∧ (int_to_decimal v).take 19 = int_to_decimal v := by
  refine ⟨?_, fun v h1 h2 => ⟨int_to_decimal_length v h1 h2, int_to_decimal_take v h1 h2⟩⟩
  have := pprintf_value_arg_loop_eq t hs (t.length + 1) 0 args 0 (by omega) (by omega)
    (by rw [List.drop_zero]; exact hm)
  rw [pprintf_value_arg_len, this]
  simp

/-- C13 at `pprintf("%Rs has %d items, grade %Uc\n", "cart", -2147483648, 'B')`:
4 + 11 + 1 = 16. -/
theorem C13_argument_length_witness :
    pprintf_value_arg_len "%Rs has %d items, grade %Uc\n".toList
        [Arg.str "cart".toList, Arg.int (-2147483648), Arg.chr 'B'] = some 16 :=
  ((C13_argument_length "%Rs has %d items, grade %Uc\n".toList
      [Arg.str "cart".toList, Arg.int (-2147483648), Arg.chr 'B'] (by decide)
      (by
        have hk : placeholder_conversions false "%Rs has %d items, grade %Uc\n".toList
            = ['s', 'd', 'c'] := by decide
        rw [hk]
        simp [args_match, arg_matches])).1).trans (by decide)

/-! ## The loops with their reads: results, termination and bounds -/

theorem not_NUL_lt_length (s : List Char) (i : Nat) (h : charAt s i ≠ NUL) : i < s.length := by
  by_contra hlt
  exact h (charAt_of_length_le s i (by omega))

theorem get_str_length_while_reads_spec (str : List Char) :
    ∀ fuel i count reads, str.length ≤ i + fuel →
      ∃ i' R,
        get_str_length_while_reads str fuel i (charAt str i) count reads
            = some (i', charAt str i', count + 5 * (i' - i), reads ++ R)
          ∧ get_str_length_while str fuel i (charAt str i) count
            = some (i', charAt str i', count + 5 * (i' - i))
          ∧ i ≤ i' ∧ (i ≤ str.length → i' ≤ str.length)
          ∧ ∀ idx ∈ R, idx ≤ str.length := by
  intro fuel
  induction fuel with
  | zero =>
    intro i count reads h
    have hc : charAt str i = NUL := charAt_of_length_le str i (by omega)
    refine ⟨i, [], ?_, ?_, le_refl _, fun h2 => h2, by simp⟩
    · rw [get_str_length_while_reads, hc, NUL_standard]
      simp
    · rw [get_str_length_while, hc, NUL_standard]
      simp
  | succ fuel ih =>
    intro i count reads h
    by_cases hstd : is_standard_format (charAt str i) = true
    · refine ⟨i, [], ?_, ?_, le_refl _, fun h2 => h2, by simp⟩
      · rw [get_str_length_while_reads, hstd]
        simp
      · rw [get_str_length_while, hstd]
        simp
    · have hstd2 : is_standard_format (charAt str i) = false := by simpa using hstd
      have hi : i < str.length := lt_length_of_not_standard str i hstd2
      obtain ⟨i', R, h1, h2, h3, h4, h5⟩ := ih (i + 1) (count + 5) (reads ++ [i + 1]) (by omega)
      have hcount : count + 5 + 5 * (i' - (i + 1)) = count + 5 * (i' - i) := by omega
      refine ⟨i', [i + 1] ++ R, ?_, ?_, by omega, fun _ => h4 (by omega), ?_⟩
      · rw [get_str_length_while_reads, hstd2]
        simp only [Bool.not_false, if_true]
        rw [h1, hcount, List.append_assoc]
      · rw [get_str_length_while, hstd2]
        simp only [Bool.not_false, if_true]
        rw [h2, hcount]
      · intro idx hidx
        rcases List.mem_append.1 hidx with hx | hx
        · simp at hx
          omega
        · exact h5 idx hx

theorem get_str_length_loop_reads_spec (str : List Char) :
    ∀ fuel i count reads, str.length ≤ i + fuel →
      ∃ count' R,
        get_str_length_loop_reads str fuel i count reads = some (count', reads ++ R)
          ∧ get_str_length_loop str fuel i count = some count'
          ∧ ∀ idx ∈ R, idx ≤ str.length := by
  intro fuel
  induction fuel with
  | zero =>
    intro i count reads h
    have hi : ¬ i < str.length := by omega
    refine ⟨count, [], ?_, ?_, by simp⟩
    · rw [get_str_length_loop_reads, if_neg hi, List.append_nil]
    · rw [get_str_length_loop, if_neg hi]
  | succ fuel ih =>
    intro i count reads h
    by_cases hi : i < str.length
    · by_cases hc : '%' = charAt str i
      · obtain ⟨i', R1, h1, h2, h3, _, h5⟩ :=
          get_str_length_while_reads_spec str (str.length + 1) i count (reads ++ [i]) (by omega)
        obtain ⟨count', R2, g1, g2, g3⟩ :=
          ih (i' + 1) (count + 5 * (i' - i) + 1 + 1) (reads ++ [i] ++ R1) (by omega)
        refine ⟨count', [i] ++ R1 ++ R2, ?_, ?_, ?_⟩
        · rw [get_str_length_loop_reads, if_pos hi]
          simp only [hc, if_true]
          rw [h1]
          simp only []
          rw [g1]
          simp [List.append_assoc]
        · rw [get_str_length_loop, if_pos hi]
          simp only [hc, if_true]
          rw [h2]
          simp only []
          rw [g2]
        · intro idx hidx
          rcases List.mem_append.1 hidx with hx | hx
          · rcases List.mem_append.1 hx with hy | hy
            · simp at hy
              omega
            · exact h5 idx hy
          · exact g3 idx hx
      · obtain ⟨count', R2, g1, g2, g3⟩ := ih (i + 1) (count + 1) (reads ++ [i]) (by omega)
        refine ⟨count', [i] ++ R2, ?_, ?_, ?_⟩
        · rw [get_str_length_loop_reads, if_pos hi]
          simp only [hc, if_false]
          rw [g1, List.append_assoc]
        · rw [get_str_length_loop, if_pos hi]
          simp only [hc, if_false]
          rw [g2]
        · intro idx hidx
          rcases List.mem_append.1 hidx with hx | hx
          · simp at hx
            omega
          · exact g3 idx hx
    · refine ⟨count, [], ?_, ?_, by simp⟩
      · rw [get_str_length_loop_reads, if_neg hi, List.append_nil]
      · rw [get_str_length_loop, if_neg hi]

theorem get_current_type_while_reads_spec (str : List Char) :
    ∀ fuel pos reads, str.length ≤ pos + fuel →
      ∃ pos' R,
        get_current_type_while_reads str fuel pos (charAt str pos) reads
            = some (pos', charAt str pos', reads ++ R)
          ∧ get_current_type_while str fuel pos (charAt str pos) = some (pos', charAt str pos')
          ∧ pos ≤ pos' ∧ (pos ≤ str.length → pos' ≤ str.length)
          ∧ ∀ idx ∈ R, idx ≤ str.length := by
  intro fuel
  induction fuel with
  | zero =>
    intro pos reads h
    have hc : charAt str pos = NUL := charAt_of_length_le str pos (by omega)
    refine ⟨pos, [], ?_, ?_, le_refl _, fun h2 => h2, by simp⟩
    · rw [get_current_type_while_reads, hc, NUL_standard]
      simp
    · rw [get_current_type_while, hc, NUL_standard]
      simp
  | succ fuel ih =>
    intro pos reads h
    by_cases hstd : is_standard_format (charAt str pos) = true
    · refine ⟨pos, [], ?_, ?_, le_refl _, fun h2 => h2, by simp⟩
      · rw [get_current_type_while_reads, hstd]
        simp
      · rw [get_current_type_while, hstd]
        simp
    · have hstd2 : is_standard_format (charAt str pos) = false := by simpa using hstd
      have hi : pos < str.length := lt_length_of_not_standard str pos hstd2
      obtain ⟨pos', R, h1, h2, h3, h4, h5⟩ := ih (pos + 1) (reads ++ [pos + 1]) (by omega)
      refine ⟨pos', [pos + 1] ++ R, ?_, ?_, by omega, fun _ => h4 (by omega), ?_⟩
      · rw [get_current_type_while_reads, hstd2]
        simp only [Bool.not_false, if_true]
        rw [h1, List.append_assoc]
      · rw [get_current_type_while, hstd2]
        simp only [Bool.not_false, if_true]
        rw [h2]
      · intro idx hidx
        rcases List.mem_append.1 hidx with hx | hx
        · simp at hx
          omega
        · exact h5 idx hx

theorem get_current_type_loop_reads_spec (str : List Char) :
    ∀ fuel pos reads, 0 < fuel → str.length < pos + fuel →
      ∃ c pos' R,
        get_current_type_loop_reads str fuel pos (charAt str pos) reads
            = some (c, pos', reads ++ R)
          ∧ get_current_type_loop str fuel pos (charAt str pos) = some (c, pos')
          ∧ (c ≠ NUL → pos < pos' ∧ pos' ≤ str.length)
          ∧ ∀ idx ∈ R, idx ≤ str.length := by
  intro fuel
  induction fuel with
  | zero => intro pos reads h; omega
  | succ fuel ih =>
    intro pos reads _ h
    by_cases hn : charAt str pos = NUL
    · refine ⟨NUL, pos, [], ?_, ?_, fun h2 => absurd rfl h2, by simp⟩
      · rw [get_current_type_loop_reads, hn, if_pos rfl, List.append_nil]
      · rw [get_current_type_loop, hn, if_pos rfl]
    · have hi : pos < str.length := not_NUL_lt_length str pos hn
      by_cases hp : charAt str pos = '%'
      · obtain ⟨pos', R, h1, h2, h3, h4, h5⟩ :=
          get_current_type_while_reads_spec str (str.length + 1) pos reads (by omega)
        refine ⟨charAt str pos', pos' + 1, R, ?_, ?_, ?_, h5⟩
        · rw [get_current_type_loop_reads, if_neg hn, if_pos hp, h1]
        · rw [get_current_type_loop, if_neg hn, if_pos hp, h2]
        · intro hc
          have := not_NUL_lt_length str pos' hc
          omega
      · obtain ⟨c, pos', R, h1, h2, h3, h4⟩ :=
          ih (pos + 1) (reads ++ [pos + 1]) (by omega) (by omega)
        refine ⟨c, pos', [pos + 1] ++ R, ?_, ?_, ?_, ?_⟩
        · rw [get_current_type_loop_reads, if_neg hn, if_neg hp, h1, List.append_assoc]
        · rw [get_current_type_loop, if_neg hn, if_neg hp, h2]
        · intro hc
          have := h3 hc
          omega
        · intro idx hidx
          rcases List.mem_append.1 hidx with hx | hx
          · simp at hx
            omega
          · exact h4 idx hx

theorem get_current_type_reads_spec (str : List Char) (pos : Nat) (reads : List Nat)
    (hpos : pos ≤ str.length) :
    ∃ c pos' R,
      get_current_type_reads str pos reads = some (c, pos', reads ++ R)
        ∧ get_current_type str pos = some (c, pos')
        ∧ (c ≠ NUL → pos < pos' ∧ pos' ≤ str.length)
        ∧ ∀ idx ∈ R, idx ≤ str.length := by
  obtain ⟨c, pos', R, h1, h2, h3, h4⟩ :=
    get_current_type_loop_reads_spec str (str.length + 1) pos (reads ++ [pos])
      (by omega) (by omega)
  refine ⟨c, pos', [pos] ++ R, ?_, h2, h3, ?_⟩
  · rw [get_current_type_reads, h1, List.append_assoc]
  · intro idx hidx
    rcases List.mem_append.1 hidx with hx | hx
    · simp at hx
      omega
    · exact h4 idx hx

theorem get_current_type_walk_reads_spec (str : List Char) :
    ∀ fuel pos reads, pos ≤ str.length → str.length < pos + fuel →
      ∃ kinds R,
        get_current_type_walk_reads str fuel pos reads = some (kinds, reads ++ R)
          ∧ get_current_type_walk str fuel pos = some kinds
          ∧ ∀ idx ∈ R, idx ≤ str.length := by
  intro fuel
  induction fuel with
  | zero => intro pos reads hpos h; omega
  | succ fuel ih =>
    intro pos reads hpos h
    obtain ⟨c, pos', R, h1, h2, h3, h4⟩ := get_current_type_reads_spec str pos reads hpos
    by_cases hc : c = NUL
    · refine ⟨[], R, ?_, ?_, h4⟩
      · rw [get_current_type_walk_reads, h1]
        simp only [hc, if_true]
      · rw [get_current_type_walk, h2]
        simp only [hc, if_true]
    · obtain ⟨hlt, hle⟩ := h3 hc
      obtain ⟨kinds, R2, g1, g2, g3⟩ := ih pos' (reads ++ R) hle (by omega)
      refine ⟨c :: kinds, R ++ R2, ?_, ?_, ?_⟩
      · rw [get_current_type_walk_reads, h1]
        simp only [hc, if_false]
        rw [g1]
        simp [List.append_assoc]
      · rw [get_current_type_walk, h2]
        simp only [hc, if_false]
        rw [g2]
        rfl
      · intro idx hidx
        rcases List.mem_append.1 hidx with hx | hx
        · exact h4 idx hx
        · exact g3 idx hx

theorem getformats_loop_reads_spec (l : List Char) :
    ∀ format offset idx reads,
      ∃ R,
        getformats_loop_reads l format offset idx reads
            = ((getformats_loop l format offset).1, (getformats_loop l format offset).2,
                reads ++ R)
          ∧ ∀ j ∈ R, j < idx + l.length := by
  induction l with
  | nil =>
    intro format offset idx reads
    exact ⟨[], by simp [getformats_loop_reads, getformats_loop], by simp⟩
  | cons c l ih =>
    intro format offset idx reads
    by_cases hb : (is_standard_format c && c != NUL) = true
    · refine ⟨[idx], ?_, ?_⟩
      · rw [getformats_loop_reads, getformats_loop]
        simp only [hb, if_true]
      · intro j hj
        simp at hj
        simp
        omega
    · obtain ⟨R, h1, h2⟩ := ih
        (match format_str c with
          | some s => format ++ s
          | none => format) (offset + 1) (idx + 1) (reads ++ [idx])
      refine ⟨[idx] ++ R, ?_, ?_⟩
      · rw [getformats_loop_reads, getformats_loop]
        simp only [hb, Bool.false_eq_true, if_false]
        rw [h1, List.append_assoc]
      · intro j hj
        rcases List.mem_append.1 hj with hx | hx
        · simp at hx
          simp
          omega
        · have := h2 j hx
          simp
          omega

theorem pprintf_value_loop_reads_spec (str : List Char) :
    ∀ fuel i results reads, str.length ≤ i + fuel →
      ∃ out R,
        pprintf_value_loop_reads str fuel i results reads = some (out, reads ++ R)
          ∧ pprintf_value_loop str fuel i results = some out
          ∧ ∀ idx ∈ R, idx ≤ str.length := by
  intro fuel
  induction fuel with
  | zero =>
    intro i results reads h
    have hi : ¬ i < str.length := by omega
    refine ⟨results, [], ?_, ?_, by simp⟩
    · rw [pprintf_value_loop_reads, if_neg hi, List.append_nil]
    · rw [pprintf_value_loop, if_neg hi]
  | succ fuel ih =>
    intro i results reads h
    by_cases hi : i < str.length
    · by_cases hc : charAt str i = '%'
      · obtain ⟨R1, h1, h2⟩ := getformats_loop_reads_spec (str.drop i) NORMAL 0 i (reads ++ [i])
        have hoff : (getformats_loop (str.drop i) NORMAL 0).2 ≤ str.length - i := by
          rw [getformats_loop_eq]
          have := run_len_le_length (str.drop i)
          simp only [List.length_drop] at this
          simpa using this
        obtain ⟨out, R2, g1, g2, g3⟩ :=
          ih (i + (getformats_loop (str.drop i) NORMAL 0).2 + 1)
            (results ++ (getformats_loop (str.drop i) NORMAL 0).1 ++ ['%']
              ++ (str.drop (i + (getformats_loop (str.drop i) NORMAL 0).2)).take 1 ++ NORMAL)
            (reads ++ [i] ++ R1 ++ [i + (getformats_loop (str.drop i) NORMAL 0).2])
            (by omega)
        refine ⟨out, [i] ++ R1 ++ [i + (getformats_loop (str.drop i) NORMAL 0).2] ++ R2,
          ?_, ?_, ?_⟩
        · rw [pprintf_value_loop_reads, if_pos hi]
          simp only [hc, if_true, getformats_reads, h1]
          rw [g1]
          simp [List.append_assoc]
        · rw [pprintf_value_loop, if_pos hi]
          simp only [hc, if_true, getformats]
          rw [g2]
        · intro idx hidx
          simp only [List.mem_append, List.mem_singleton] at hidx
          have hlen : (str.drop i).length = str.length - i := List.length_drop i str
          rcases hidx with ((hx | hx) | hx) | hx
          · omega
          · have := h2 idx hx
            omega
          · omega
          · exact g3 idx hx
      · obtain ⟨out, R2, g1, g2, g3⟩ :=
          ih (i + 1) (results ++ (str.drop i).take 1) (reads ++ [i] ++ [i]) (by omega)
        refine ⟨out, [i] ++ [i] ++ R2, ?_, ?_, ?_⟩
        · rw [pprintf_value_loop_reads, if_pos hi]
          simp only [hc, if_false]
          rw [g1]
          simp [List.append_assoc]
        · rw [pprintf_value_loop, if_pos hi]
          simp only [hc, if_false]
          rw [g2]
        · intro idx hidx
          simp only [List.mem_append, List.mem_singleton] at hidx
          rcases hidx with (hx | hx) | hx
          · omega
          · omega
          · exact g3 idx hx
    · refine ⟨results, [], ?_, ?_, by simp⟩
      · rw [pprintf_value_loop_reads, if_neg hi, List.append_nil]
      · rw [pprintf_value_loop, if_neg hi]

/-! ## C18: the reads stay inside the string -/

/-- C18: on every template of length n, `get_str_length`, the
`get_current_type` calls of the argument loop and the assembly loop return,
with the values of the functions without log, and every index at which they
read the template is at most n, the index of the terminator. -/
theorem C18_reads_in_bounds (t : List Char) :
    (∃ n R, get_str_length_reads t = some (n, R) ∧ get_str_length t = some n
        ∧ ∀ idx ∈ R, idx ≤ t.length)
      ∧ (∃ kinds R, get_current_type_walk_reads t (t.length + 1) 0 [] = some (kinds, R)
        ∧ get_current_type_walk t (t.length + 1) 0 = some kinds
        ∧ ∀ idx ∈ R, idx ≤ t.length)
      ∧ (∃ out R, pprintf_value_reads t = some (out, R) ∧ pprintf_value t = some out
        ∧ ∀ idx ∈ R, idx ≤ t.length) := by
  refine ⟨?_, ?_, ?_⟩
  · obtain ⟨n, R, h1, h2, h3⟩ := get_str_length_loop_reads_spec t t.length 0 0 [] (by omega)
    refine ⟨n + 4, R, ?_, ?_, h3⟩
    · rw [get_str_length_reads, h1]
      simp
    · rw [get_str_length, h2]
      rfl
  · obtain ⟨kinds, R, h1, h2, h3⟩ :=
      get_current_type_walk_reads_spec t (t.length + 1) 0 [] (by omega) (by omega)
    exact ⟨kinds, R, by simpa using h1, h2, h3⟩
  · obtain ⟨out, R, h1, h2, h3⟩ := pprintf_value_loop_reads_spec t t.length 0 [] [] (by omega)
    exact ⟨out, R, by simpa [pprintf_value_reads] using h1, h2, h3⟩

/-- The reads on "a%R", a template of length 3 whose placeholder is not
terminated: each walk reads the terminator at index 3 and nothing after it. -/
theorem reads_unterminated_example :
    get_str_length_reads "a%R".toList = some (17, [0, 1, 2, 3])
      ∧ get_current_type_walk_reads "a%R".toList 4 0 [] = some ([], [0, 1, 2, 3])
      ∧ pprintf_value_reads "a%R".toList = some ("a\x1b[0m\x1b[31m%\x1b[0m".toList,
          [0, 0, 1, 1, 2, 3]) := by
  decide

/-! ## The escape sequences and the resets of the assembled string -/

theorem style_escape_facts :
    ∀ q ∈ escape_table, q.2.head? = some '\x1b' ∧ '\x1b' ∉ q.2.tail ∧ 3 ≤ q.2.length
      ∧ q.2.take 3 ≠ NORMAL.take 3 := by
  decide

theorem style_escape_prefix_free :
    ∀ q1 ∈ escape_table, ∀ q2 ∈ escape_table, q2.2.take q1.2.length = q1.2 → q1.2 = q2.2 := by
  decide

theorem format_str_mem_escape_table :
    ∀ d ∈ style_characters, (d, (format_str d).getD []) ∈ escape_table := by
  decide

theorem no_style_leak_nil : no_style_leak [] := by
  intro x e y X hxy hX
  have h3 := (style_escape_facts (X, e) hX).2.2.1
  have := congrArg List.length hxy
  simp at this
  simp only at h3
  omega

theorem no_style_leak_cons (c0 : Char) (out : List Char) (hc : c0 ≠ '\x1b')
    (h : no_style_leak out) : no_style_leak (c0 :: out) := by
  intro x e y X hxy hX
  cases x with
  | nil =>
    exfalso
    have hh := (style_escape_facts (X, e) hX).1
    simp only at hh
    cases e with
    | nil => simp at hh
    | cons e0 e' =>
      simp only [List.head?_cons, Option.some.injEq] at hh
      simp only [List.nil_append, List.cons_append, List.cons.injEq] at hxy
      exact hc (hxy.1.trans hh)
  | cons x0 x' =>
    simp only [List.cons_append, List.cons.injEq] at hxy
    exact h x' e y X hxy.2 hX

theorem no_style_leak_append (seg out : List Char) (hseg : '\x1b' ∉ seg)
    (h : no_style_leak out) : no_style_leak (seg ++ out) := by
  induction seg with
  | nil => exact h
  | cons c0 seg ih =>
    have hc : c0 ≠ '\x1b' := fun h2 => hseg (by simp [h2])
    have hs2 : '\x1b' ∉ seg := fun h2 => hseg (by simp [h2])
    exact no_style_leak_cons c0 _ hc (ih hs2)

theorem no_style_leak_escape (s out : List Char) (hhead : s.head? = some '\x1b')
    (htail : '\x1b' ∉ s.tail)
    (h0 : ∀ e y X, s ++ out = e ++ y → (X, e) ∈ escape_table → followed_by_reset y)
    (h : no_style_leak out) : no_style_leak (s ++ out) := by
  cases s with
  | nil => simp at hhead
  | cons s0 s' =>
    intro x e y X hxy hX
    cases x with
    | nil => exact h0 e y X (by simpa using hxy) hX
    | cons x0 x' =>
      simp only [List.cons_append, List.cons.injEq] at hxy
      exact no_style_leak_append s' out htail h x' e y X hxy.2 hX

theorem no_style_leak_normal (out : List Char) (h : no_style_leak out) :
    no_style_leak (NORMAL ++ out) := by
  refine no_style_leak_escape NORMAL out (by decide) (by decide) ?_ h
  intro e y X hxy hX
  exfalso
  obtain ⟨_, _, h3, h4⟩ := style_escape_facts (X, e) hX
  simp only at h3 h4
  have := congrArg (List.take 3) hxy
  rw [List.take_append_of_le_length h3, List.take_append_of_le_length (by decide)] at this
  exact h4 this.symm

theorem append_eq_of_prefix_free (e s y out : List Char) (X Y : Char)
    (hX : (X, e) ∈ escape_table) (hY : (Y, s) ∈ escape_table) (h : s ++ out = e ++ y) :
    e = s ∧ y = out := by
  have hes : e = s := by
    by_cases hl : e.length ≤ s.length
    · have := congrArg (List.take e.length) h
      rw [List.take_append_of_le_length hl, List.take_append_of_le_length (le_refl _),
        List.take_length] at this
      exact style_escape_prefix_free (X, e) hX (Y, s) hY this
    · have := congrArg (List.take s.length) h
      rw [List.take_append_of_le_length (le_refl _), List.take_length,
        List.take_append_of_le_length (by omega)] at this
      exact (style_escape_prefix_free (Y, s) hY (X, e) hX this.symm).symm
  subst hes
  exact ⟨rfl, (List.append_cancel_left h).symm⟩

theorem followed_by_reset_assembled (l : List Char) : followed_by_reset (assembled true l) := by
  induction l with
  | nil =>
    refine ⟨[], [], [], ?_, Or.inl rfl⟩
    rw [← NORMAL_eq]
    simp [assembled, escapes_of]
  | cons d l ih =>
    by_cases hd : is_conversion d = true
    · refine ⟨[], [d], assembled false l, ?_, Or.inr ⟨d, rfl, (is_conversion_iff d).1 hd⟩⟩
      rw [assembled_true_conversion _ _ hd, ← NORMAL_eq]
      simp [escapes_of]
    · obtain ⟨r, c, z, hy, hc⟩ := ih
      refine ⟨d :: r, c, z, ?_, hc⟩
      have e : escapes_of (d :: r) = (escape_table.lookup d).getD [] ++ escapes_of r := by
        simp [escapes_of]
      rw [assembled_true_directive _ _ (by simpa using hd), hy, e, format_str_eq_lookup]
      simp only [List.append_assoc]

theorem no_style_leak_assembled (l : List Char) (hl : '\x1b' ∉ l) :
    ∀ st, no_style_leak (assembled st l) := by
  induction l with
  | nil =>
    intro st
    cases st
    · exact no_style_leak_nil
    · have e : assembled true [] = '%' :: (NORMAL ++ []) := by simp [assembled]
      rw [e]
      exact no_style_leak_cons _ _ (by decide) (no_style_leak_normal _ no_style_leak_nil)
  | cons c l ih =>
    have hc : c ≠ '\x1b' := fun h2 => hl (by simp [h2])
    have hl2 : '\x1b' ∉ l := fun h2 => hl (by simp [h2])
    intro st
    cases st
    · by_cases hp : c = '%'
      · subst hp
        rw [assembled_marker]
        exact no_style_leak_normal _ (ih hl2 true)
      · rw [assembled_false_cons, if_neg hp]
        exact no_style_leak_cons _ _ hc (ih hl2 false)
    · by_cases hcv : is_conversion c = true
      · rw [assembled_true_conversion _ _ hcv]
        exact no_style_leak_cons _ _ (by decide)
          (no_style_leak_cons _ _ hc (no_style_leak_normal _ (ih hl2 false)))
      · rw [assembled_true_directive _ _ (by simpa using hcv)]
        by_cases hst : c ∈ style_characters
        · have hmem := format_str_mem_escape_table c hst
          obtain ⟨h1, h2, _, _⟩ := style_escape_facts _ hmem
          refine no_style_leak_escape _ _ h1 h2 ?_ (ih hl2 true)
          intro e y X hxy hX
          obtain ⟨_, hy⟩ := append_eq_of_prefix_free e _ y _ X c hX hmem hxy
          rw [hy]
          exact followed_by_reset_assembled l
        · rw [format_str_none c hst]
          exact ih hl2 true

theorem last_escape_assembled (l : List Char) (hl : '\x1b' ∉ l) :
    (∃ x z, assembled true l = x ++ NORMAL ++ z ∧ '\x1b' ∉ z)
      ∧ ('\x1b' ∈ assembled false l →
          ∃ x z, assembled false l = x ++ NORMAL ++ z ∧ '\x1b' ∉ z) := by
  induction l with
  | nil =>
    refine ⟨⟨['%'], [], by simp [assembled], by simp⟩, ?_⟩
    intro h
    simp [assembled] at h
  | cons c l ih =>
    have hc : c ≠ '\x1b' := fun h2 => hl (by simp [h2])
    have hl2 : '\x1b' ∉ l := fun h2 => hl (by simp [h2])
    obtain ⟨⟨xt, zt, ht, hzt⟩, hf⟩ := ih hl2
    constructor
    · by_cases hcv : is_conversion c = true
      · rw [assembled_true_conversion _ _ hcv]
        by_cases hin : '\x1b' ∈ assembled false l
        · obtain ⟨x, z, h1, h2⟩ := hf hin
          exact ⟨'%' :: c :: (NORMAL ++ x), z, by rw [h1]; simp, h2⟩
        · exact ⟨['%', c], assembled false l, by simp, hin⟩
      · rw [assembled_true_directive _ _ (by simpa using hcv), ht]
        exact ⟨(format_str c).getD [] ++ xt, zt, by simp, hzt⟩
    · by_cases hp : c = '%'
      · subst hp
        intro _
        rw [assembled_marker, ht]
        exact ⟨NORMAL ++ xt, zt, by simp, hzt⟩
      · rw [assembled_false_cons, if_neg hp]
        intro h
        have hin : '\x1b' ∈ assembled false l := by
          rcases List.mem_cons.1 h with h2 | h2
          · exact absurd h2.symm hc
          · exact h2
        obtain ⟨x, z, h1, h2⟩ := hf hin
        exact ⟨c :: x, z, by rw [h1]; simp, h2⟩

/-! ## The functions with their buffers: when they return, and what -/

theorem run_esc_eq_escapes_of (l : List Char) :
    run_esc l = escapes_of (l.take (run_len l)) := by
  induction l with
  | nil => rfl
  | cons c l ih =>
    by_cases hc : is_conversion c = true
    · rw [run_esc, if_pos hc, run_len, if_pos hc]
      rfl
    · rw [run_esc, if_neg hc, run_len, if_neg hc, List.take_succ_cons, ih, format_str_eq_lookup]
      simp [escapes_of]

theorem getformats_loop_heap_eq (l : List Char) :
    ∀ format offset, (format ++ run_esc l).length + 1 ≤ 5 * TOTAL_OPTIONS + 1 →
      getformats_loop_heap l format offset = some (format ++ run_esc l, offset + run_len l) := by
  induction l with
  | nil => intro format offset _; simp [getformats_loop_heap, run_esc, run_len]
  | cons c rest ih =>
    intro format offset h
    rw [getformats_loop_heap, break_eq_is_conversion]
    by_cases hc : is_conversion c = true
    · simp [hc, run_esc, run_len]
    · have e1 : run_esc (c :: rest) = (format_str c).getD [] ++ run_esc rest := by
        rw [run_esc, if_neg hc]
      have e2 : run_len (c :: rest) = run_len rest + 1 := by rw [run_len, if_neg hc]
      rw [e1] at h
      rw [if_neg hc, e1, e2]
      cases hf : format_str c with
      | none =>
        rw [hf] at h
        simp only [Option.getD_none, List.nil_append] at h ⊢
        rw [ih format (offset + 1) h]
        simp [Nat.add_assoc, Nat.add_comm]
      | some s =>
        rw [hf] at h
        simp only [Option.getD_some] at h ⊢
        have hfit : format.length + s.length + 1 ≤ 5 * TOTAL_OPTIONS + 1 := by
          simp only [List.length_append] at h
          omega
        simp only [strcat_heap, hfit, if_true]
        rw [ih (format ++ s) (offset + 1) (by simpa [List.append_assoc] using h)]
        simp [Nat.add_assoc, Nat.add_comm]

theorem placeholder_runs_some (l : List Char) :
    ∀ r0, placeholder_runs (some r0) l
      = (r0 ++ l.take (run_len l)) :: placeholder_runs none (l.drop (run_len l + 1)) := by
  induction l with
  | nil => intro r0; simp [placeholder_runs, run_len]
  | cons c l ih =>
    intro r0
    by_cases hc : is_conversion c = true
    · rw [placeholder_runs, if_pos hc, run_len, if_pos hc]
      simp
    · rw [placeholder_runs, if_neg hc, run_len, if_neg hc, ih, List.take_succ_cons,
        List.drop_succ_cons]
      simp

theorem placeholder_runs_marker (rest : List Char) :
    placeholder_runs none ('%' :: rest)
      = rest.take (run_len rest) :: placeholder_runs none (rest.drop (run_len rest + 1)) := by
  rw [placeholder_runs, if_pos rfl, placeholder_runs_some]
  rfl

theorem assembled_marker_eq (rest : List Char) :
    assembled false ('%' :: rest)
      = NORMAL ++ run_esc rest ++ ['%'] ++ (rest.drop (run_len rest)).take 1 ++ NORMAL
        ++ assembled false (rest.drop (run_len rest + 1)) := by
  rw [assembled_marker, assembled_true_eq]
  simp [List.append_assoc]

/-- The assembly loop with its buffers, started at index `i` with enough
fuel, returns the string that the assembly denotes when every accumulated
string and the whole string fit their buffers. -/
theorem pprintf_value_loop_heap_eq (str : List Char) (size : Nat) :
    ∀ fuel i results, str.length ≤ i + fuel →
      (∀ r ∈ placeholder_runs none (str.drop i),
        (NORMAL ++ escapes_of r).length < 5 * TOTAL_OPTIONS) →
      results.length + (assembled false (str.drop i)).length + 1 ≤ size →
      pprintf_value_loop_heap str size fuel i results
        = some (results ++ assembled false (str.drop i)) := by
  intro fuel
  induction fuel with
  | zero =>
    intro i results h _ _
    have hi : ¬ i < str.length := by omega
    simp [pprintf_value_loop_heap, hi, List.drop_eq_nil_of_le (Nat.le_of_not_lt hi), assembled]
  | succ fuel ih =>
    intro i results h hacc hfit
    by_cases hi : i < str.length
    · rw [pprintf_value_loop_heap, if_pos hi]
      have hd := drop_eq_charAt_cons str i hi
      by_cases hc : charAt str i = '%'
      · rw [if_pos hc]
        rw [hc] at hd
        obtain ⟨rest, hrest⟩ : ∃ rest, str.drop (i + 1) = rest := ⟨_, rfl⟩
        rw [hrest] at hd
        rw [hd, placeholder_runs_marker] at hacc
        rw [hd, assembled_marker_eq] at hfit
        have hrun := hacc (rest.take (run_len rest)) (by simp)
        rw [← run_esc_eq_escapes_of] at hrun
        have hg : getformats_heap (str.drop i) 0
            = some (NORMAL ++ run_esc rest, run_len rest + 1) := by
          rw [hd, getformats_heap, getformats_loop_heap_eq]
          · simp [run_len, run_esc, percent_not_conversion, format_str_percent]
          · simp only [run_esc, percent_not_conversion, format_str_percent, Bool.false_eq_true,
              if_false, Option.getD_none, List.nil_append]
            omega
        have e3 : str.drop (i + (run_len rest + 1)) = rest.drop (run_len rest) := by
          rw [← hrest, List.drop_drop]
          congr 1
          omega
        have e4 : str.drop (i + (run_len rest + 1) + 1) = rest.drop (run_len rest + 1) := by
          rw [← hrest, List.drop_drop]
          congr 1
          omega
        rw [hg]
        simp only [hrun, if_true, e3]
        simp only [List.length_append, List.length_singleton] at hfit
        have h1 : results.length + (NORMAL ++ run_esc rest).length + 1 ≤ size := by
          simp only [List.length_append]
          omega
        have h2 : (results ++ (NORMAL ++ run_esc rest)).length + ['%'].length + 1 ≤ size := by
          simp only [List.length_append, List.length_singleton]
          omega
        have h3 : (results ++ (NORMAL ++ run_esc rest) ++ ['%']).length
            + ((rest.drop (run_len rest)).take 1).length + 1 ≤ size := by
          simp only [List.length_append, List.length_singleton]
          omega
        have h4 : (results ++ (NORMAL ++ run_esc rest) ++ ['%']
            ++ (rest.drop (run_len rest)).take 1).length + NORMAL.length + 1 ≤ size := by
          simp only [List.length_append, List.length_singleton]
          omega
        simp only [strcat_heap, h1, h2, h3, h4, if_true]
        rw [ih _ _ (by omega)]
        · rw [e4, hd, assembled_marker_eq]
          simp [List.append_assoc]
        · rw [e4]
          intro r hr
          exact hacc r (List.mem_cons_of_mem _ hr)
        · rw [e4]
          simp only [List.length_append, List.length_singleton]
          omega
      · rw [if_neg hc]
        have e1 : assembled false (str.drop i) = charAt str i :: assembled false (str.drop (i + 1)) := by
          rw [hd, assembled_false_cons, if_neg hc]
        have e2 : (str.drop i).take 1 = [charAt str i] := by rw [hd]; rfl
        rw [e1] at hfit
        simp only [List.length_cons] at hfit
        have h1 : results.length + [charAt str i].length + 1 ≤ size := by
          simp only [List.length_singleton]
          omega
        rw [e2]
        simp only [strcat_heap, h1, if_true]
        rw [ih _ _ (by omega), e1]
        · simp
        · have hp : placeholder_runs none (str.drop i)
              = placeholder_runs none (str.drop (i + 1)) := by
            conv_lhs => rw [hd]
            rw [placeholder_runs, if_neg hc]
          rw [← hp]
          exact hacc
        · simp only [List.length_append, List.length_singleton]
          omega
    · simp [pprintf_value_loop_heap, hi, List.drop_eq_nil_of_le (Nat.le_of_not_lt hi), assembled]

/-- When no buffer is overrun, `pprintf_value` with its buffers returns the
string that the assembly denotes. -/
theorem pprintf_value_heap_eq (t : List Char) (args : List Arg) (out : List Char)
    (hacc : accumulators_fit t) (hfit : results_fit t args) (hout : pprintf_value t = some out) :
    pprintf_value_heap t args = some out := by
  obtain ⟨out2, size, h1, h2, h3⟩ := hfit
  rw [pprintf_value_eq] at h1 hout
  have e1 : out2 = assembled false t := (Option.some.inj h1).symm
  have e2 : out = assembled false t := (Option.some.inj hout).symm
  subst e1
  rw [pprintf_value_heap, h2]
  simp only []
  rw [pprintf_value_loop_heap_eq t size t.length 0 [] (by omega)]
  · simp [e2]
  · rw [List.drop_zero, NORMAL_eq]
    exact hacc
  · rw [List.drop_zero]
    simpa using h3

theorem getformats_loop_heap_some (l : List Char) :
    ∀ format offset f o, getformats_loop_heap l format offset = some (f, o) →
      format.length + 1 ≤ 5 * TOTAL_OPTIONS + 1 →
      f = format ++ run_esc l ∧ o = offset + run_len l
        ∧ f.length + 1 ≤ 5 * TOTAL_OPTIONS + 1 := by
  induction l with
  | nil =>
    intro format offset f o h h0
    simp only [getformats_loop_heap, Option.some.injEq, Prod.mk.injEq] at h
    obtain ⟨rfl, rfl⟩ := h
    exact ⟨by simp [run_esc], by simp [run_len], h0⟩
  | cons c rest ih =>
    intro format offset f o h h0
    rw [getformats_loop_heap, break_eq_is_conversion] at h
    by_cases hc : is_conversion c = true
    · rw [if_pos hc] at h
      simp only [Option.some.injEq, Prod.mk.injEq] at h
      obtain ⟨rfl, rfl⟩ := h
      exact ⟨by simp [run_esc, hc], by simp [run_len, hc], h0⟩
    · have e1 : run_esc (c :: rest) = (format_str c).getD [] ++ run_esc rest := by
        rw [run_esc, if_neg hc]
      have e2 : run_len (c :: rest) = run_len rest + 1 := by rw [run_len, if_neg hc]
      rw [if_neg hc] at h
      rw [e1, e2]
      cases hf : format_str c with
      | none =>
        rw [hf] at h
        simp only [] at h
        obtain ⟨h1, h2, h3⟩ := ih format (offset + 1) f o h h0
        refine ⟨by simpa using h1, by omega, h3⟩
      | some s =>
        rw [hf] at h
        simp only [strcat_heap] at h
        by_cases hfit : format.length + s.length + 1 ≤ 5 * TOTAL_OPTIONS + 1
        · rw [if_pos hfit] at h
          simp only [] at h
          obtain ⟨h1, h2, h3⟩ := ih (format ++ s) (offset + 1) f o h
            (by simpa using hfit)
          refine ⟨by simpa [List.append_assoc] using h1, by omega, h3⟩
        · rw [if_neg hfit] at h
          simp at h

theorem strcat_heap_some (size : Nat) (dest src out : List Char)
    (h : strcat_heap size dest src = some out) :
    out = dest ++ src ∧ dest.length + src.length + 1 ≤ size := by
  unfold strcat_heap at h
  by_cases hfit : dest.length + src.length + 1 ≤ size
  · rw [if_pos hfit] at h
    exact ⟨(Option.some.inj h).symm, hfit⟩
  · rw [if_neg hfit] at h
    simp at h

/-- When the assembly loop with its buffers returns, it returns the string
that the assembly denotes, every accumulated string left `tmp` its terminator,
and the string fits `results`. -/
theorem pprintf_value_loop_heap_some (str : List Char) (size : Nat) :
    ∀ fuel i results out, pprintf_value_loop_heap str size fuel i results = some out →
      out = results ++ assembled false (str.drop i)
        ∧ (∀ r ∈ placeholder_runs none (str.drop i),
            (NORMAL ++ escapes_of r).length < 5 * TOTAL_OPTIONS)
        ∧ (results.length + 1 ≤ size → out.length + 1 ≤ size) := by
  intro fuel
  induction fuel with
  | zero =>
    intro i results out h
    rw [pprintf_value_loop_heap] at h
    by_cases hi : i < str.length
    · rw [if_pos hi] at h
      simp at h
    · rw [if_neg hi] at h
      have e := (Option.some.inj h).symm
      subst e
      rw [List.drop_eq_nil_of_le (Nat.le_of_not_lt hi)]
      simp [assembled, placeholder_runs]
  | succ fuel ih =>
    intro i results out h
    rw [pprintf_value_loop_heap] at h
    by_cases hi : i < str.length
    · rw [if_pos hi] at h
      have hd := drop_eq_charAt_cons str i hi
      by_cases hc : charAt str i = '%'
      · rw [if_pos hc] at h
        rw [hc] at hd
        obtain ⟨rest, hrest⟩ : ∃ rest, str.drop (i + 1) = rest := ⟨_, rfl⟩
        rw [hrest] at hd
        cases hg : getformats_heap (str.drop i) 0 with
        | none =>
          rw [hg] at h
          simp at h
        | some p =>
          obtain ⟨tmp, offset⟩ := p
          rw [hg] at h
          simp only [] at h
          rw [hd, getformats_heap] at hg
          obtain ⟨g1, g2, _⟩ := getformats_loop_heap_some _ _ _ _ _ hg (by decide)
          have e1 : run_esc ('%' :: rest) = run_esc rest := by
            simp [run_esc, percent_not_conversion, format_str_percent]
          have e2 : run_len ('%' :: rest) = run_len rest + 1 := by
            simp [run_len, percent_not_conversion]
          rw [e1] at g1
          rw [e2, Nat.zero_add] at g2
          subst g1 g2
          by_cases ht : (NORMAL ++ run_esc rest).length < 5 * TOTAL_OPTIONS
          · rw [if_pos ht] at h
            have e3 : str.drop (i + (run_len rest + 1)) = rest.drop (run_len rest) := by
              rw [← hrest, List.drop_drop]
              congr 1
              omega
            have e4 : str.drop (i + (run_len rest + 1) + 1) = rest.drop (run_len rest + 1) := by
              rw [← hrest, List.drop_drop]
              congr 1
              omega
            rw [e3] at h
            cases h1 : strcat_heap size results (NORMAL ++ run_esc rest) with
            | none => rw [h1] at h; simp at h
            | some r1 =>
              rw [h1] at h
              simp only [] at h
              obtain ⟨rfl, _⟩ := strcat_heap_some _ _ _ _ h1
              cases h2 : strcat_heap size (results ++ (NORMAL ++ run_esc rest)) ['%'] with
              | none => rw [h2] at h; simp at h
              | some r2 =>
                rw [h2] at h
                simp only [] at h
                obtain ⟨rfl, _⟩ := strcat_heap_some _ _ _ _ h2
                cases h3 : strcat_heap size (results ++ (NORMAL ++ run_esc rest) ++ ['%'])
                    ((rest.drop (run_len rest)).take 1) with
                | none => rw [h3] at h; simp at h
                | some r3 =>
                  rw [h3] at h
                  simp only [] at h
                  obtain ⟨rfl, _⟩ := strcat_heap_some _ _ _ _ h3
                  cases h4 : strcat_heap size (results ++ (NORMAL ++ run_esc rest) ++ ['%']
                      ++ (rest.drop (run_len rest)).take 1) NORMAL with
                  | none => rw [h4] at h; simp at h
                  | some r4 =>
                    rw [h4] at h
                    simp only [] at h
                    obtain ⟨rfl, hfit4⟩ := strcat_heap_some _ _ _ _ h4
                    obtain ⟨k1, k2, k3⟩ := ih _ _ _ h
                    rw [e4] at k1 k2
                    refine ⟨?_, ?_, fun _ => k3 (by simpa using hfit4)⟩
                    · rw [k1, hd, assembled_marker_eq]
                      simp [List.append_assoc]
                    · rw [hd, placeholder_runs_marker]
                      intro r hr
                      rcases List.mem_cons.1 hr with rfl | hr
                      · rw [← run_esc_eq_escapes_of]
                        exact ht
                      · exact k2 r hr
          · rw [if_neg ht] at h
            simp at h
      · rw [if_neg hc] at h
        have e2 : (str.drop i).take 1 = [charAt str i] := by rw [hd]; rfl
        rw [e2] at h
        cases h1 : strcat_heap size results [charAt str i] with
        | none => rw [h1] at h; simp at h
        | some r1 =>
          rw [h1] at h
          simp only [] at h
          obtain ⟨rfl, hfit1⟩ := strcat_heap_some _ _ _ _ h1
          obtain ⟨k1, k2, k3⟩ := ih _ _ _ h
          have hp : placeholder_runs none (str.drop i)
              = placeholder_runs none (str.drop (i + 1)) := by
            conv_lhs => rw [hd]
            rw [placeholder_runs, if_neg hc]
          refine ⟨?_, ?_, fun _ => k3 (by simpa using hfit1)⟩
          · rw [k1]
            conv_rhs => rw [hd]
            rw [assembled_false_cons, if_neg hc]
            simp
          · rw [hp]
            exact k2
    · rw [if_neg hi] at h
      have e := (Option.some.inj h).symm
      subst e
      rw [List.drop_eq_nil_of_le (Nat.le_of_not_lt hi)]
      simp [assembled, placeholder_runs]

/-- `pprintf_value` with its buffers returns a string exactly when no buffer
is overrun, and then it is the string that the assembly denotes. -/
theorem pprintf_value_heap_eq_some_iff (t : List Char) (args : List Arg) (out : List Char) :
    pprintf_value_heap t args = some out
      ↔ accumulators_fit t ∧ results_fit t args ∧ pprintf_value t = some out := by
  constructor
  · intro h
    rw [pprintf_value_heap] at h
    cases hsz : pprintf_value_results_size t args with
    | none => rw [hsz] at h; simp at h
    | some size =>
      rw [hsz] at h
      simp only [] at h
      obtain ⟨k1, k2, k3⟩ := pprintf_value_loop_heap_some t size _ _ _ _ h
      rw [List.drop_zero] at k1 k2
      rw [List.nil_append] at k1
      have hsize : 1 ≤ size := by
        unfold pprintf_value_results_size at hsz
        split at hsz
        · have := Option.some.inj hsz
          omega
        · simp at hsz
      have hout : pprintf_value t = some out := by rw [pprintf_value_eq, k1]
      refine ⟨?_, ⟨out, size, hout, hsz, k3 (by simpa using hsize)⟩, hout⟩
      intro r hr
      rw [← NORMAL_eq]
      exact k2 r hr
  · rintro ⟨h1, h2, h3⟩
    exact pprintf_value_heap_eq t args out h1 h2 h3


/-- The assembled string fits `results` when it fits the size computed for
the template and the arguments. -/
theorem results_fit_of_size (t : List Char) (args : List Arg) (size : Nat)
    (h1 : pprintf_value_results_size t args = some size)
    (h2 : (assembled false t).length + 1 ≤ size) : results_fit t args :=
  ⟨assembled false t, size, pprintf_value_eq t, h1, h2⟩

theorem take_run_len_eq_takeWhile (l : List Char) :
    l.take (run_len l) = l.takeWhile (fun c => !is_conversion c) := by
  induction l with
  | nil => rfl
  | cons c l ih =>
    by_cases hc : is_conversion c = true
    · rw [run_len, if_pos hc]
      simp [List.takeWhile, hc]
    · rw [run_len, if_neg hc, List.take_succ_cons, ih]
      simp [List.takeWhile, hc]

theorem placeholder_runs_append (a b : List Char) :
    ∀ st : Option (List Char), inside_placeholder st.isSome a = false →
      placeholder_runs st (a ++ b) = placeholder_runs st a ++ placeholder_runs none b := by
  induction a with
  | nil =>
    intro st h
    cases st with
    | none => simp [placeholder_runs]
    | some r => simp [inside_placeholder] at h
  | cons c a ih =>
    intro st h
    cases st with
    | none =>
      simp only [Option.isSome_none] at h
      rw [inside_placeholder_false_cons] at h
      by_cases hc : c = '%'
      · rw [if_pos hc] at h
        simp only [List.cons_append, placeholder_runs, if_pos hc]
        exact ih (some []) h
      · rw [if_neg hc] at h
        simp only [List.cons_append, placeholder_runs, if_neg hc]
        exact ih none h
    | some r =>
      simp only [Option.isSome_some] at h
      rw [inside_placeholder_true_cons] at h
      by_cases hc : is_conversion c = true
      · rw [if_pos hc] at h
        simp only [List.cons_append, placeholder_runs, if_pos hc]
        exact congrArg (List.cons r) (ih none h)
      · rw [if_neg hc] at h
        simp only [List.cons_append, placeholder_runs, if_neg hc]
        exact ih (some (r ++ [c])) h

/-! ## C4: the conversion characters of the returned string

For C2, C4, C6, C7, C9, C15, C17 and C19 the theorem whose name ends in `_heap`
states the property of the claim for the templates that the source assembles
within its buffers, and the theorem that carries the number of the claim
evaluates the source at a template on which a buffer is overrun. -/

/-- The property of C4 where no buffer is overrun: when every accumulated
string fits `format` and `tmp` and the assembled string fits `results`,
`pprintf_value` returns a string whose conversion characters s, c, d are
those of the template, in the same order and number. -/
theorem conversion_characters_preserved_heap (t : List Char) (args : List Arg)
    (hacc : accumulators_fit t) (hfit : results_fit t args) :
    ∃ out, pprintf_value_heap t args = some out
      ∧ out.filter is_conversion = t.filter is_conversion :=
  ⟨assembled false t, pprintf_value_heap_eq t args _ hacc hfit (pprintf_value_eq t),
    filter_assembled t false⟩

/-- The property of C4 at `pprintf("a%Rs b%d", "hi", 42)`: the buffer has 33
bytes for 28 characters. -/
theorem conversion_characters_preserved_heap_example :
    ∃ out, pprintf_value_heap "a%Rs b%d".toList [Arg.str "hi".toList, Arg.int 42] = some out
      ∧ out.filter is_conversion = "a%Rs b%d".toList.filter is_conversion :=
  conversion_characters_preserved_heap "a%Rs b%d".toList [Arg.str "hi".toList, Arg.int 42]
    (by decide) (results_fit_of_size _ _ 33 (by decide) (by decide))

/-- C4 fails on the code at `pprintf("%s%d%c%s", "", 7, 'x', "")`: the
conversion characters of the template are s, d, c, s, but the buffer
`results` has 37 bytes, the assembly writes 40 characters and a terminator,
and `pprintf_value` returns no string. -/
theorem C4_results_overrun :
    "%s%d%c%s".toList.filter is_conversion = ['s', 'd', 'c', 's']
      ∧ pprintf_value_results_size "%s%d%c%s".toList
        [Arg.str [], Arg.int 7, Arg.chr 'x', Arg.str []] = some 37
      ∧ (pprintf_value "%s%d%c%s".toList).map List.length = some 40
      ∧ pprintf_value_heap "%s%d%c%s".toList
        [Arg.str [], Arg.int 7, Arg.chr 'x', Arg.str []] = none := by
  decide

/-! ## C6: unrecognized directive characters -/

/-- The property of C6 where no buffer is overrun: a character x that stands
in the directive run of a placeholder (a marker precedes it with no
conversion character in between) and is neither a style character nor a
conversion character can be deleted without changing the returned string,
when the template with x and the template without x are both assembled
within their buffers. -/
theorem unrecognized_directive_ignored_heap (p r1 b : List Char) (x : Char) (args : List Arg)
    (hr1 : ∀ y ∈ r1, y ≠ 's' ∧ y ≠ 'c' ∧ y ≠ 'd') (hx : x ∉ style_characters)
    (hxc : x ≠ 's' ∧ x ≠ 'c' ∧ x ≠ 'd')
    (hacc1 : accumulators_fit (p ++ '%' :: r1 ++ x :: b))
    (hfit1 : results_fit (p ++ '%' :: r1 ++ x :: b) args)
    (hacc2 : accumulators_fit (p ++ '%' :: r1 ++ b))
    (hfit2 : results_fit (p ++ '%' :: r1 ++ b) args) :
    ∃ out, pprintf_value_heap (p ++ '%' :: r1 ++ x :: b) args = some out
      ∧ pprintf_value_heap (p ++ '%' :: r1 ++ b) args = some out := by
  have hr2 : ∀ y ∈ r1, is_conversion y = false := fun y hy => not_conversion_of_ne y (hr1 y hy)
  refine ⟨assembled false (p ++ '%' :: r1 ++ b), ?_,
    pprintf_value_heap_eq _ args _ hacc2 hfit2 (pprintf_value_eq _)⟩
  apply pprintf_value_heap_eq _ args _ hacc1 hfit1
  rw [pprintf_value_eq]
  have h1 : p ++ '%' :: r1 ++ x :: b = p ++ '%' :: (r1 ++ x :: b) := by simp
  have h2 : p ++ '%' :: r1 ++ b = p ++ '%' :: (r1 ++ b) := by simp
  rw [h1, h2, assembled_delete p r1 b x hr2 hx (not_conversion_of_ne x hxc)]

/-- The property of C6 at `pprintf("a%RxUs!", "hi")` and `pprintf("a%RUs!", "hi")`
(x deleted), and with the marker itself as the unrecognized character,
`pprintf("%%d", 7)` and `pprintf("%d", 7)`. -/
theorem unrecognized_directive_ignored_heap_example :
    (∃ out, pprintf_value_heap "a%RxUs!".toList [Arg.str "hi".toList] = some out
      ∧ pprintf_value_heap "a%RUs!".toList [Arg.str "hi".toList] = some out)
    ∧ (∃ out, pprintf_value_heap "%%d".toList [Arg.int 7] = some out
      ∧ pprintf_value_heap "%d".toList [Arg.int 7] = some out) :=
  ⟨unrecognized_directive_ignored_heap "a".toList "R".toList "Us!".toList 'x'
      [Arg.str "hi".toList] (by decide) (by decide) (by decide)
      (by decide) (results_fit_of_size _ _ 33 (by decide) (by decide))
      (by decide) (results_fit_of_size _ _ 28 (by decide) (by decide)),
    unrecognized_directive_ignored_heap [] [] "d".toList '%' [Arg.int 7]
      (by decide) (by decide) (by decide)
      (by decide) (results_fit_of_size _ _ 20 (by decide) (by decide))
      (by decide) (results_fit_of_size _ _ 15 (by decide) (by decide))⟩

/-- C6 fails on the code at `pprintf("%d%d%d%xd", 1, 2, 3, 4)`: the
unrecognized character x adds 5 bytes to the buffer `results`, which has 44
bytes for 41, and the string is returned; with x deleted,
`pprintf("%d%d%d%d", 1, 2, 3, 4)` has 39 bytes for the same 41 and returns no
string. -/
theorem C6_deletion_overruns_results :
    'x' ∉ style_characters
      ∧ pprintf_value_results_size "%d%d%d%xd".toList
        [Arg.int 1, Arg.int 2, Arg.int 3, Arg.int 4] = some 44
      ∧ (pprintf_value_heap "%d%d%d%xd".toList
          [Arg.int 1, Arg.int 2, Arg.int 3, Arg.int 4]).map List.length = some 40
      ∧ pprintf_value_results_size "%d%d%d%d".toList
        [Arg.int 1, Arg.int 2, Arg.int 3, Arg.int 4] = some 39
      ∧ pprintf_value_heap "%d%d%d%d".toList
        [Arg.int 1, Arg.int 2, Arg.int 3, Arg.int 4] = none := by
  decide

/-! ## C7: the returned string as a standard format template -/

/-- The property of C7 where no buffer is overrun: when every marker of the
template has a conversion character somewhere after it, `pprintf_value`
returns a string in which every marker is immediately followed by a
conversion character, and which has as many markers as the template has
placeholders. -/
theorem valid_format_template_heap (t : List Char) (args : List Arg)
    (h : ∀ a b, t = a ++ '%' :: b → ∃ c ∈ b, c = 's' ∨ c = 'c' ∨ c = 'd')
    (hacc : accumulators_fit t) (hfit : results_fit t args) :
    ∃ out, pprintf_value_heap t args = some out
      ∧ (∀ a b, out = a ++ '%' :: b → ∃ c rest, b = c :: rest ∧ (c = 's' ∨ c = 'c' ∨ c = 'd'))
      ∧ out.count '%' = placeholder_count false t := by
  refine ⟨assembled false t, pprintf_value_heap_eq t args _ hacc hfit (pprintf_value_eq t),
    ?_, ?_⟩
  · have hm := markers_converted_assembled t false (by simp)
      (fun a b hab => by
        obtain ⟨c, hc, hcc⟩ := h a b hab
        exact ⟨c, hc, (is_conversion_iff c).2 hcc⟩)
    intro a b hab
    obtain ⟨c, rest, hb, hc⟩ := hm a b hab
    exact ⟨c, rest, hb, (is_conversion_iff c).1 hc⟩
  · rw [count_assembled]
    simp

/-- The property of C7 at `pprintf("a%Rs %%d%c", "x", 5, 'c')`: three
placeholders, three markers in the returned string, each followed by its
conversion character; the buffer has 43 bytes for 38. -/
theorem valid_format_template_heap_example :
    ∃ out, pprintf_value_heap "a%Rs %%d%c".toList
        [Arg.str "x".toList, Arg.int 5, Arg.chr 'c'] = some out
      ∧ (∀ a b, out = a ++ '%' :: b → ∃ c rest, b = c :: rest ∧ (c = 's' ∨ c = 'c' ∨ c = 'd'))
      ∧ out.count '%' = placeholder_count false "a%Rs %%d%c".toList :=
  valid_format_template_heap "a%Rs %%d%c".toList [Arg.str "x".toList, Arg.int 5, Arg.chr 'c']
    (marker_followed_of_last "a%Rs %%d%c".toList 'c' (by decide) (by decide))
    (by decide) (results_fit_of_size _ _ 43 (by decide) (by decide))

/-- C7 fails on the code at `pprintf("%s%s%s", "", "", "")`, a template whose
three placeholders are all terminated: the buffer `results` has 28 bytes, the
assembly writes 30 characters and a terminator, and `pprintf_value` returns
no string. -/
theorem C7_terminated_overruns_results :
    inside_placeholder false "%s%s%s".toList = false
      ∧ placeholder_count false "%s%s%s".toList = 3
      ∧ pprintf_value_results_size "%s%s%s".toList [Arg.str [], Arg.str [], Arg.str []]
        = some 28
      ∧ (pprintf_value "%s%s%s".toList).map List.length = some 30
      ∧ pprintf_value_heap "%s%s%s".toList [Arg.str [], Arg.str [], Arg.str []] = none := by
  decide

/-! ## C11: the argument walk and the assembly walk -/

/-- C11, as the code has it, for a template that is assembled without
overrunning a buffer.  When its placeholders are all terminated, the kinds
returned by the repeated `get_current_type` calls are as many as the markers
of the returned string, and they are, in order, the characters that follow
these markers.  When a placeholder is not terminated, the assembly loop emits
one marker more than the walk returns kinds: the last marker is followed by
the reset sequence, not by a conversion character. -/
theorem C11_walks_agree (t : List Char) (args : List Arg) (hs : '\x00' ∉ t)
    (hacc : accumulators_fit t) (hfit : results_fit t args) :
    ∃ out kinds, pprintf_value_heap t args = some out
      ∧ get_current_type_walk t (t.length + 1) 0 = some kinds
      ∧ ((∀ a b, t = a ++ '%' :: b → ∃ c ∈ b, c = 's' ∨ c = 'c' ∨ c = 'd') →
          kinds.length = out.count '%' ∧ after_markers out = kinds)
      ∧ ((∃ a b, t = a ++ '%' :: b ∧ ∀ c ∈ b, c ≠ 's' ∧ c ≠ 'c' ∧ c ≠ 'd') →
          kinds.length + 1 = out.count '%' ∧ after_markers out = kinds ++ ['\x1b']) := by
  have hw := get_current_type_walk_eq t hs (t.length + 1) 0 (by omega) (by omega)
  rw [List.drop_zero] at hw
  have hl := length_placeholder_conversions t false
  have hc := count_assembled t false
  have ha := after_markers_assembled t false
  simp only [Bool.false_eq_true, if_false, Nat.add_zero] at hl hc
  refine ⟨assembled false t, placeholder_conversions false t,
    pprintf_value_heap_eq t args _ hacc hfit (pprintf_value_eq t), hw, ?_, ?_⟩
  · intro h
    have hin := inside_placeholder_of_terminated t (fun a b hab => by
      obtain ⟨c, hc1, hc2⟩ := h a b hab
      exact ⟨c, hc1, (is_conversion_iff c).2 hc2⟩)
    rw [hin] at hl ha
    simp only [Bool.false_eq_true, if_false, Nat.add_zero, List.append_nil] at hl ha
    exact ⟨by rw [hc, hl], ha⟩
  · rintro ⟨a, b, hab, hb⟩
    have hin : inside_placeholder false t = true := by
      rw [hab]
      exact inside_placeholder_of_unterminated a b
        (fun c hc1 => not_conversion_of_ne c (hb c hc1))
    rw [hin] at hl ha
    simp only [if_true] at hl ha
    exact ⟨by rw [hc, hl], ha⟩

/-- C11 amended, at `pprintf("a%Rs%%d", "hi", 7)`, whose placeholders are
terminated, and at `pprintf("a%Rs%U", "hi")`, whose last placeholder is not. -/
theorem C11_walks_agree_witness :
    (∃ out kinds, pprintf_value_heap "a%Rs%%d".toList [Arg.str "hi".toList, Arg.int 7]
        = some out
      ∧ get_current_type_walk "a%Rs%%d".toList 8 0 = some kinds
      ∧ kinds.length = out.count '%' ∧ after_markers out = kinds)
    ∧ (∃ out kinds, pprintf_value_heap "a%Rs%U".toList [Arg.str "hi".toList] = some out
      ∧ get_current_type_walk "a%Rs%U".toList 7 0 = some kinds
      ∧ kinds.length + 1 = out.count '%' ∧ after_markers out = kinds ++ ['\x1b']) := by
  obtain ⟨o1, k1, h1, h2, h3, _⟩ := C11_walks_agree "a%Rs%%d".toList
    [Arg.str "hi".toList, Arg.int 7] (by decide) (by decide)
    (results_fit_of_size _ _ 35 (by decide) (by decide))
  obtain ⟨o2, k2, g1, g2, _, g4⟩ := C11_walks_agree "a%Rs%U".toList
    [Arg.str "hi".toList] (by decide) (by decide)
    (results_fit_of_size _ _ 34 (by decide) (by decide))
  exact ⟨⟨o1, k1, h1, h2, h3 (terminated_of_inside_placeholder _ (by decide))⟩,
    ⟨o2, k2, g1, g2, g4 ⟨"a%Rs".toList, "U".toList, rfl, by decide⟩⟩⟩

/-- C11 as stated fails on a template with a placeholder that is not
terminated: for `pprintf("abc%")` the walk returns no kind, while the
returned string holds one marker. -/
theorem C11_counterexample :
    get_current_type_walk "abc%".toList 5 0 = some []
      ∧ pprintf_value_heap "abc%".toList [] = some "abc\x1b[0m%\x1b[0m".toList
      ∧ ([] : List Char).length ≠ "abc\x1b[0m%\x1b[0m".toList.count '%' := by
  decide

/-! ## C15: the offset reported by `getformats` -/

/-- The property of C15 where `format` is not overrun: on an input that starts
at a marker and whose accumulated string (the reset seed and the escape
sequences of the characters before the first conversion character) has at
most `5*TOTAL_OPTIONS` characters, `getformats` called with the offset at 0
leaves it at the number of characters from the marker (included) up to the
first conversion character or the end of the string; the offset is at least
1, and the character at the offset is the conversion character of the
placeholder, or the terminator when the placeholder is not terminated. -/
theorem getformats_offset_heap (rest : List Char)
    (hfit : ("\x1b[0m".toList
        ++ escapes_of (rest.takeWhile (fun c => !is_conversion c))).length
          ≤ 5 * TOTAL_OPTIONS) :
    ∃ acc off, getformats_heap ('%' :: rest) 0 = some (acc, off)
      ∧ off = (('%' :: rest).takeWhile (fun c => !is_conversion c)).length
      ∧ 1 ≤ off
      ∧ ((off < ('%' :: rest).length ∧ is_conversion (charAt ('%' :: rest) off) = true)
          ∨ (off = ('%' :: rest).length ∧ charAt ('%' :: rest) off = '\x00')) := by
  have h1 : run_len ('%' :: rest) = run_len rest + 1 := by
    simp [run_len, percent_not_conversion]
  have h2 : run_esc ('%' :: rest) = run_esc rest := by
    simp [run_esc, percent_not_conversion, format_str_percent]
  have h3 : getformats_heap ('%' :: rest) 0
      = some (NORMAL ++ run_esc ('%' :: rest), 0 + run_len ('%' :: rest)) := by
    rw [getformats_heap]
    apply getformats_loop_heap_eq
    rw [h2, run_esc_eq_escapes_of, take_run_len_eq_takeWhile, NORMAL_eq]
    omega
  refine ⟨_, _, h3, ?_, by omega, ?_⟩
  · rw [Nat.zero_add]
    exact run_len_eq_takeWhile _
  · rw [Nat.zero_add]
    exact charAt_run_len ('%' :: rest)

/-- The property of C15 at the example of the source comment: "%DBUs" gives 4,
and the character at index 4 is the conversion character s. -/
theorem getformats_offset_heap_example :
    ∃ acc off, getformats_heap "%DBUs".toList 0 = some (acc, off)
      ∧ off = ("%DBUs".toList.takeWhile (fun c => !is_conversion c)).length
      ∧ 1 ≤ off
      ∧ ((off < "%DBUs".toList.length ∧ is_conversion (charAt "%DBUs".toList off) = true)
          ∨ (off = "%DBUs".toList.length ∧ charAt "%DBUs".toList off = '\x00')) :=
  getformats_offset_heap "DBUs".toList (by decide)

/-- C15 fails on the code at the input "%RRRRRRRRRRs": the claim puts the
offset at 11, but the accumulated string has 54 characters, `strcat` writes
past the 51 bytes of `format`, and `getformats` leaves no defined offset. -/
theorem C15_getformats_overruns_format :
    ("%RRRRRRRRRRs".toList.takeWhile (fun c => !is_conversion c)).length = 11
      ∧ ("\x1b[0m".toList ++ escapes_of "RRRRRRRRRR".toList).length = 54
      ∧ getformats_heap "%RRRRRRRRRRs".toList 0 = none := by
  decide

/-! ## C17: assembling a concatenation -/

/-- The property of C17 where no buffer is overrun: when a holds no marker, or
the last marker of a is followed within a by a conversion character, and a
with its arguments, b with its arguments and `a ++ b` with the arguments of
both are each assembled within their buffers, the string returned for
`a ++ b` is the string returned for a followed by the string returned for
b. -/
theorem concatenation_heap (a b : List Char) (argsA argsB : List Arg)
    (h : '%' ∉ a ∨ ∃ a1 a2, a = a1 ++ '%' :: a2 ∧ '%' ∉ a2
          ∧ ∃ c ∈ a2, c = 's' ∨ c = 'c' ∨ c = 'd')
    (hacca : accumulators_fit a) (hfita : results_fit a argsA)
    (haccb : accumulators_fit b) (hfitb : results_fit b argsB)
    (hfitab : results_fit (a ++ b) (argsA ++ argsB)) :
    ∃ oa ob, pprintf_value_heap a argsA = some oa ∧ pprintf_value_heap b argsB = some ob
      ∧ pprintf_value_heap (a ++ b) (argsA ++ argsB) = some (oa ++ ob) := by
  have hin : inside_placeholder false a = false := by
    rcases h with h | ⟨a1, a2, ha, ha2, c, hc1, hc2⟩
    · exact inside_placeholder_no_marker a h
    · rw [ha, inside_placeholder_append, inside_placeholder_marker]
      exact inside_placeholder_converted a2 ha2 ⟨c, hc1, (is_conversion_iff c).2 hc2⟩
  have haccab : accumulators_fit (a ++ b) := by
    intro r hr
    rw [placeholder_runs_append a b none hin, List.mem_append] at hr
    rcases hr with hr | hr
    · exact hacca r hr
    · exact haccb r hr
  refine ⟨assembled false a, assembled false b,
    pprintf_value_heap_eq a argsA _ hacca hfita (pprintf_value_eq a),
    pprintf_value_heap_eq b argsB _ haccb hfitb (pprintf_value_eq b), ?_⟩
  apply pprintf_value_heap_eq _ _ _ haccab hfitab
  rw [pprintf_value_eq, assembled_append a b false hin]

/-- The property of C17 at a = "x%Rs" with "hi", b = "%d!" with 7 (the last
marker of a is followed by s) and at a = "hi ", b = "%Uc" with 'z' (a holds no
marker). -/
theorem concatenation_heap_example :
    (∃ oa ob, pprintf_value_heap "x%Rs".toList [Arg.str "hi".toList] = some oa
      ∧ pprintf_value_heap "%d!".toList [Arg.int 7] = some ob
      ∧ pprintf_value_heap ("x%Rs".toList ++ "%d!".toList)
          ([Arg.str "hi".toList] ++ [Arg.int 7]) = some (oa ++ ob))
    ∧ (∃ oa ob, pprintf_value_heap "hi ".toList [] = some oa
      ∧ pprintf_value_heap "%Uc".toList [Arg.chr 'z'] = some ob
      ∧ pprintf_value_heap ("hi ".toList ++ "%Uc".toList) ([] ++ [Arg.chr 'z'])
          = some (oa ++ ob)) :=
  ⟨concatenation_heap "x%Rs".toList "%d!".toList [Arg.str "hi".toList] [Arg.int 7]
      (Or.inr ⟨"x".toList, "Rs".toList, rfl, by decide, 's', by decide, Or.inl rfl⟩)
      (by decide) (results_fit_of_size _ _ 22 (by decide) (by decide))
      (by decide) (results_fit_of_size _ _ 16 (by decide) (by decide))
      (results_fit_of_size _ _ 31 (by decide) (by decide)),
    concatenation_heap "hi ".toList "%Uc".toList [] [Arg.chr 'z'] (Or.inl (by decide))
      (by decide) (results_fit_of_size _ _ 10 (by decide) (by decide))
      (by decide) (results_fit_of_size _ _ 20 (by decide) (by decide))
      (results_fit_of_size _ _ 23 (by decide) (by decide))⟩

/-- C17 fails on the code at a = b = "%d%d", which ends outside a placeholder:
`pprintf("%d%d", 1, 2)` has 23 bytes for 21 and returns its string of 20
characters, while `pprintf("%d%d%d%d", 1, 2, 1, 2)` has 39 bytes for 41 and
returns no string. -/
theorem C17_concatenation_overruns_results :
    inside_placeholder false "%d%d".toList = false
      ∧ (pprintf_value_heap "%d%d".toList [Arg.int 1, Arg.int 2]).map List.length = some 20
      ∧ pprintf_value_results_size "%d%d".toList [Arg.int 1, Arg.int 2] = some 23
      ∧ pprintf_value_results_size ("%d%d".toList ++ "%d%d".toList)
          ([Arg.int 1, Arg.int 2] ++ [Arg.int 1, Arg.int 2]) = some 39
      ∧ pprintf_value_heap ("%d%d".toList ++ "%d%d".toList)
          ([Arg.int 1, Arg.int 2] ++ [Arg.int 1, Arg.int 2]) = none := by
  decide

/-! ## C19: styling does not leak past a placeholder -/

/-- The property of C19 where no buffer is overrun: when a template without
ESC character is assembled within its buffers, every style escape sequence
of the returned string is followed by further escape sequences of the same
placeholder, the marker, at most one conversion character and then the reset
sequence, so by a reset before any literal character; and if the string
holds an ESC character at all, its last escape sequence is the reset. -/
theorem no_style_leak_heap (t : List Char) (args : List Arg) (ht : '\x1b' ∉ t)
    (hacc : accumulators_fit t) (hfit : results_fit t args) :
    ∃ out, pprintf_value_heap t args = some out
      ∧ (∀ x e y X, out = x ++ e ++ y → (X, e) ∈ escape_table → followed_by_reset y)
      ∧ ('\x1b' ∈ out → ∃ x z, out = x ++ "\x1b[0m".toList ++ z ∧ '\x1b' ∉ z) := by
  refine ⟨assembled false t, pprintf_value_heap_eq t args _ hacc hfit (pprintf_value_eq t),
    no_style_leak_assembled t ht false, ?_⟩
  rw [← NORMAL_eq]
  exact (last_escape_assembled t ht).2

/-- The property of C19 at `pprintf("a%DRs b%c", "hi", 'z')`: the returned string
is "a" ESC[0m ESC[1m ESC[31m "%s" ESC[0m " b" ESC[0m "%c" ESC[0m; what follows
the bold sequence is the red sequence, "%s" and the reset, and the string
ends with a reset. -/
theorem no_style_leak_heap_example :
    ∃ out, pprintf_value_heap "a%DRs b%c".toList [Arg.str "hi".toList, Arg.chr 'z'] = some out
      ∧ (∀ x e y X, out = x ++ e ++ y → (X, e) ∈ escape_table → followed_by_reset y)
      ∧ ('\x1b' ∈ out → ∃ x z, out = x ++ "\x1b[0m".toList ++ z ∧ '\x1b' ∉ z) :=
  no_style_leak_heap "a%DRs b%c".toList [Arg.str "hi".toList, Arg.chr 'z'] (by decide)
    (by decide) (results_fit_of_size _ _ 37 (by decide) (by decide))

/-- C19 fails on the code at `pprintf("%IDURGYBMCWs%DDDDRRRRRRs", "a", "b")`, a
template without ESC character: the first placeholder accumulates 51
characters and the second 50, more than the 49 that leave `tmp` its
terminator, so `strcat(results, tmp)` reads past `tmp` and `pprintf_value`
returns no defined string. -/
theorem C19_accumulators_overrun :
    '\x1b' ∉ "%IDURGYBMCWs%DDDDRRRRRRs".toList
      ∧ (placeholder_runs none "%IDURGYBMCWs%DDDDRRRRRRs".toList).map
          (fun r => ("\x1b[0m".toList ++ escapes_of r).length) = [51, 50]
      ∧ getformats_heap "%IDURGYBMCWs%DDDDRRRRRRs".toList 0 = none
      ∧ pprintf_value_heap "%IDURGYBMCWs%DDDDRRRRRRs".toList
          [Arg.str "a".toList, Arg.str "b".toList] = none := by
  decide

/-! ## C2, C9: one placeholder, with the buffers -/

theorem escape_length_le (x : Char) : ((escape_table.lookup x).getD []).length ≤ 5 := by
  by_cases hx : x ∈ style_characters
  · have hall : ∀ y ∈ style_characters, ((escape_table.lookup y).getD []).length ≤ 5 := by
      decide
    exact hall x hx
  · rw [lookup_none x hx]
    simp

theorem escapes_of_length_le (r : List Char) : (escapes_of r).length ≤ 5 * r.length := by
  induction r with
  | nil => simp [escapes_of]
  | cons x r ih =>
    have hx := escape_length_le x
    have e : escapes_of (x :: r) = (escape_table.lookup x).getD [] ++ escapes_of r := by
      simp [escapes_of]
    rw [e, List.length_append, List.length_cons]
    omega

theorem reserved_literal (a l : List Char) (ha : '%' ∉ a) :
    reserved false (a ++ l) = a.length + reserved false l := by
  induction a with
  | nil => simp
  | cons x a ih =>
    have hx : x ≠ '%' := fun h => ha (by simp [h])
    have ha2 : '%' ∉ a := fun h => ha (by simp [h])
    rw [List.cons_append, reserved, if_neg hx, ih ha2, List.length_cons]
    omega

theorem reserved_no_marker (a : List Char) (ha : '%' ∉ a) : reserved false a = a.length := by
  have h := reserved_literal a [] ha
  rw [List.append_nil] at h
  rw [h]
  simp [reserved]

theorem reserved_run (r l : List Char) (hr : ∀ x ∈ r, is_conversion x = false) :
    reserved true (r ++ l) = 5 * r.length + reserved true l := by
  induction r with
  | nil => simp
  | cons x r ih =>
    have hx : ¬ is_conversion x = true := by simp [hr x (by simp)]
    have hr2 : ∀ y ∈ r, is_conversion y = false := fun y hy => hr y (by simp [hy])
    rw [List.cons_append, reserved, if_neg hx, ih hr2, List.length_cons]
    omega

theorem placeholder_runs_no_marker (a : List Char) (ha : '%' ∉ a) :
    placeholder_runs none a = [] := by
  induction a with
  | nil => rfl
  | cons x a ih =>
    have hx : x ≠ '%' := fun h => ha (by simp [h])
    have ha2 : '%' ∉ a := fun h => ha (by simp [h])
    rw [placeholder_runs, if_neg hx, ih ha2]

theorem placeholder_runs_run (r l : List Char) (hr : ∀ x ∈ r, is_conversion x = false) :
    ∀ r0, placeholder_runs (some r0) (r ++ l) = placeholder_runs (some (r0 ++ r)) l := by
  induction r with
  | nil => intro r0; simp
  | cons x r ih =>
    intro r0
    have hx : ¬ is_conversion x = true := by simp [hr x (by simp)]
    have hr2 : ∀ y ∈ r, is_conversion y = false := fun y hy => hr y (by simp [hy])
    rw [List.cons_append, placeholder_runs, if_neg hx, ih hr2]
    simp

/-- The size of `results` for a template and a matching argument list. -/
theorem pprintf_value_results_size_eq (t : List Char) (args : List Arg) (hs : NUL ∉ t)
    (hm : args_match (placeholder_conversions false t) args) :
    pprintf_value_results_size t args
      = some (reserved false t + 4 + (args.map arg_length).sum + 1 + 2) := by
  have h1 : get_str_length t = some (reserved false t + 4) := by
    rw [get_str_length, get_str_length_loop_eq t hs _ _ _ (by omega), List.drop_zero]
    simp
  have h2 : pprintf_value_arg_len t args = some ((args.map arg_length).sum) := by
    rw [pprintf_value_arg_len, pprintf_value_arg_loop_eq t hs (t.length + 1) 0 args 0
      (by omega) (by omega) (by rw [List.drop_zero]; exact hm)]
    simp
  rw [pprintf_value_results_size, h1, h2]

/-- A template with one terminated placeholder, with the buffers: when the
accumulated string of the placeholder leaves `tmp` its terminator, the
buffer `results` is large enough and the assembled string is returned. -/
theorem pprintf_value_heap_terminated (pre r suf : List Char) (c : Char) (args : List Arg)
    (hr : ∀ x ∈ r, is_conversion x = false) (hc : is_conversion c = true)
    (hpre : '%' ∉ pre) (hsuf : '%' ∉ suf)
    (hs : NUL ∉ pre ++ '%' :: r ++ c :: suf) (hm : args_match [c] args)
    (hacc : ("\x1b[0m".toList ++ escapes_of r).length < 5 * TOTAL_OPTIONS) :
    pprintf_value_heap (pre ++ '%' :: r ++ c :: suf) args
      = some (pre ++ "\x1b[0m".toList ++ escapes_of r ++ ['%', c] ++ "\x1b[0m".toList ++ suf) := by
  have h1 : pre ++ '%' :: r ++ c :: suf = pre ++ '%' :: (r ++ c :: suf) := by simp
  have hout : assembled false (pre ++ '%' :: r ++ c :: suf)
      = pre ++ "\x1b[0m".toList ++ escapes_of r ++ ['%', c] ++ "\x1b[0m".toList ++ suf := by
    rw [h1, assembled_literal _ _ hpre, assembled_marker,
      assembled_run_terminated r suf c hr hc, assembled_no_marker suf hsuf, ← NORMAL_eq]
    simp
  have hk : placeholder_conversions false (pre ++ '%' :: r ++ c :: suf) = [c] := by
    rw [h1, placeholder_conversions_literal _ _ hpre, placeholder_conversions, if_pos rfl,
      placeholder_conversions_terminated r suf c hr hc, placeholder_conversions_no_marker suf hsuf]
  have hruns : placeholder_runs none (pre ++ '%' :: r ++ c :: suf) = [r] := by
    rw [h1, placeholder_runs_append pre _ none (inside_placeholder_no_marker pre hpre),
      placeholder_runs_no_marker pre hpre, List.nil_append, placeholder_runs, if_pos rfl,
      placeholder_runs_run r _ hr, List.nil_append, placeholder_runs, if_pos hc,
      placeholder_runs_no_marker suf hsuf]
  have hres : reserved false (pre ++ '%' :: r ++ c :: suf)
      = pre.length + (5 * r.length + (suf.length + 2) + 5) := by
    rw [h1, reserved_literal _ _ hpre, reserved, if_pos rfl, reserved_run r _ hr, reserved,
      if_pos hc, reserved_no_marker suf hsuf]
  have hsize := pprintf_value_results_size_eq _ args hs (by rw [hk]; exact hm)
  apply pprintf_value_heap_eq _ args _ _ _ (by rw [pprintf_value_eq, hout])
  · intro r2 hr2
    rw [hruns, List.mem_singleton] at hr2
    rw [hr2]
    exact hacc
  · refine results_fit_of_size _ _ _ hsize ?_
    have he := escapes_of_length_le r
    rw [hout, hres]
    simp only [List.length_append, List.length_cons, List.length_nil, String.toList]
    simp only [List.length_append] at hacc
    omega

/-- A template that ends in a placeholder without conversion character, with
the buffers and no argument: when the accumulated string of the placeholder
leaves `tmp` its terminator, the assembled string is returned. -/
theorem pprintf_value_heap_unterminated (pre r : List Char)
    (hr : ∀ x ∈ r, is_conversion x = false) (hpre : '%' ∉ pre)
    (hs : NUL ∉ pre ++ '%' :: r)
    (hacc : ("\x1b[0m".toList ++ escapes_of r).length < 5 * TOTAL_OPTIONS) :
    pprintf_value_heap (pre ++ '%' :: r) []
      = some (pre ++ "\x1b[0m".toList ++ escapes_of r ++ ['%'] ++ "\x1b[0m".toList) := by
  have hout : assembled false (pre ++ '%' :: r)
      = pre ++ "\x1b[0m".toList ++ escapes_of r ++ ['%'] ++ "\x1b[0m".toList := by
    rw [assembled_literal _ _ hpre, assembled_marker, assembled_run_unterminated r hr,
      ← NORMAL_eq]
    simp
  have hk : placeholder_conversions false (pre ++ '%' :: r) = [] := by
    rw [placeholder_conversions_literal _ _ hpre, placeholder_conversions, if_pos rfl,
      placeholder_conversions_run r hr]
  have hruns : placeholder_runs none (pre ++ '%' :: r) = [r] := by
    rw [placeholder_runs_append pre _ none (inside_placeholder_no_marker pre hpre),
      placeholder_runs_no_marker pre hpre, List.nil_append, placeholder_runs, if_pos rfl]
    have h := placeholder_runs_run r [] hr []
    rw [List.append_nil, List.nil_append] at h
    rw [h]
    rfl
  have hres : reserved false (pre ++ '%' :: r) = pre.length + (5 * r.length + 2 + 5) := by
    have h := reserved_run r [] hr
    rw [List.append_nil] at h
    rw [reserved_literal _ _ hpre, reserved, if_pos rfl, h]
    rfl
  have hsize := pprintf_value_results_size_eq _ [] hs (by rw [hk]; trivial)
  apply pprintf_value_heap_eq _ [] _ _ _ (by rw [pprintf_value_eq, hout])
  · intro r2 hr2
    rw [hruns, List.mem_singleton] at hr2
    rw [hr2]
    exact hacc
  · refine results_fit_of_size _ _ _ hsize ?_
    have he := escapes_of_length_le r
    rw [hout, hres]
    simp only [List.length_append, List.length_cons, List.length_nil, String.toList]
    simp only [List.length_append] at hacc
    omega

/-- The property of C2 where no buffer is overrun: a template
`pre ++ "%" ++ r ++ c ++ suf`, r free of conversion characters, c a
conversion character, no marker in the literal text, called with one
argument of the type of c, is assembled to
`pre ++ ESC[0m ++ E(r) ++ "%" ++ c ++ ESC[0m ++ suf`, E(r) being the escape
sequences of the style characters of r in order, with repetition, when the
accumulated string `ESC[0m ++ E(r)` has fewer than `5*TOTAL_OPTIONS`
characters, so that it fits `format` and leaves `tmp` its terminator. -/
theorem directive_run_placeholder_heap (pre r suf : List Char) (c : Char) (args : List Arg)
    (hr : ∀ x ∈ r, x ≠ 's' ∧ x ≠ 'c' ∧ x ≠ 'd') (hc : c = 's' ∨ c = 'c' ∨ c = 'd')
    (hpre : '%' ∉ pre) (hsuf : '%' ∉ suf)
    (hs : '\x00' ∉ pre ++ '%' :: r ++ c :: suf) (hm : args_match [c] args)
    (hacc : ("\x1b[0m".toList ++ escapes_of r).length < 5 * TOTAL_OPTIONS) :
    pprintf_value_heap (pre ++ '%' :: r ++ c :: suf) args
      = some (pre ++ "\x1b[0m".toList ++ escapes_of r ++ ['%', c] ++ "\x1b[0m".toList ++ suf) :=
  pprintf_value_heap_terminated pre r suf c args
    (fun x hx => not_conversion_of_ne x (hr x hx)) ((is_conversion_iff c).2 hc) hpre hsuf hs hm hacc

/-- The property of C2 at the two templates the specification gives:
`pprintf("%DUc", 'z')` and `pprintf("%d apples", 3)`. -/
theorem directive_run_placeholder_heap_example :
    pprintf_value_heap "%DUc".toList [Arg.chr 'z'] = some "\x1b[0m\x1b[1m\x1b[4m%c\x1b[0m".toList
    ∧ pprintf_value_heap "%d apples".toList [Arg.int 3]
        = some "\x1b[0m%d\x1b[0m apples".toList :=
  ⟨directive_run_placeholder_heap [] "DU".toList [] 'c' [Arg.chr 'z'] (by decide) (by decide)
      (by decide) (by decide) (by decide) (by simp [args_match, arg_matches]) (by decide),
    directive_run_placeholder_heap [] [] " apples".toList 'd' [Arg.int 3] (by decide) (by decide)
      (by decide) (by decide) (by decide) (by simp [args_match, arg_matches]) (by decide)⟩

/-- C2 fails on the code at `pprintf("%RRRRRRRRRRRs", "x")`, a run of eleven R:
the accumulated string `ESC[0m ++ E(r)` has 59 characters, `strcat` writes
past the 51 bytes of `format` and `strncpy` past the 50 bytes of `tmp`, and
`pprintf_value` returns no string, where the claim gives one of 65
characters. -/
theorem C2_run_overruns_accumulator :
    ("\x1b[0m".toList ++ escapes_of "RRRRRRRRRRR".toList).length = 59
      ∧ ("\x1b[0m".toList ++ escapes_of "RRRRRRRRRRR".toList ++ ['%', 's']
          ++ "\x1b[0m".toList).length = 65
      ∧ getformats_heap "%RRRRRRRRRRRs".toList 0 = none
      ∧ pprintf_value_heap "%RRRRRRRRRRRs".toList [Arg.str "x".toList] = none := by
  decide

/-- The property of C9 where no buffer is overrun: a template `pre ++ "%" ++ r`
whose placeholder is not terminated (no conversion character in r, no marker
in pre), called with no argument, is assembled to
`pre ++ ESC[0m ++ E(r) ++ "%" ++ ESC[0m` when the accumulated string
`ESC[0m ++ E(r)` has fewer than `5*TOTAL_OPTIONS` characters, so that it fits
`format` and leaves `tmp` its terminator. -/
theorem unterminated_placeholder_heap (pre r : List Char)
    (hpre : '%' ∉ pre) (hr : ∀ x ∈ r, x ≠ 's' ∧ x ≠ 'c' ∧ x ≠ 'd')
    (hs : '\x00' ∉ pre ++ '%' :: r)
    (hacc : ("\x1b[0m".toList ++ escapes_of r).length < 5 * TOTAL_OPTIONS) :
    pprintf_value_heap (pre ++ '%' :: r) []
      = some (pre ++ "\x1b[0m".toList ++ escapes_of r ++ ['%'] ++ "\x1b[0m".toList) :=
  pprintf_value_heap_unterminated pre r (fun x hx => not_conversion_of_ne x (hr x hx)) hpre hs hacc

/-- The property of C9 at `pprintf("abc%")` and `pprintf("x%RU")`. -/
theorem unterminated_placeholder_heap_example :
    pprintf_value_heap "abc%".toList [] = some "abc\x1b[0m%\x1b[0m".toList
    ∧ pprintf_value_heap "x%RU".toList [] = some "x\x1b[0m\x1b[31m\x1b[4m%\x1b[0m".toList :=
  ⟨unterminated_placeholder_heap "abc".toList [] (by decide) (by decide) (by decide) (by decide),
    unterminated_placeholder_heap "x".toList "RU".toList (by decide) (by decide) (by decide)
      (by decide)⟩

/-- C9 fails on the code at `pprintf("ab%RRRRRRRRRRR")`, a run of eleven R that
the end of the template cuts short: the accumulated string has 59
characters, more than `format` and `tmp` hold, and `pprintf_value` returns no
string, where the claim gives one of 66 characters. -/
theorem C9_run_overruns_accumulator :
    ("\x1b[0m".toList ++ escapes_of "RRRRRRRRRRR".toList).length = 59
      ∧ ("ab".toList ++ "\x1b[0m".toList ++ escapes_of "RRRRRRRRRRR".toList ++ ['%']
          ++ "\x1b[0m".toList).length = 66
      ∧ getformats_heap "%RRRRRRRRRRR".toList 0 = none
      ∧ pprintf_value_heap "ab%RRRRRRRRRRR".toList [] = none := by
  decide

/-! ## C1, C3 with the buffers -/

/-- The template of C1 with the buffers: one placeholder with one style
character, called with one argument of the type of its conversion. -/
theorem single_style_placeholder_heap (pre suf : List Char) (X c : Char) (e : List Char)
    (args : List Arg) (hX : (X, e) ∈ escape_table) (hc : c = 's' ∨ c = 'c' ∨ c = 'd')
    (hpre : '%' ∉ pre) (hsuf : '%' ∉ suf)
    (hs : '\x00' ∉ pre ++ '%' :: X :: c :: suf) (hm : args_match [c] args) :
    pprintf_value_heap (pre ++ '%' :: X :: c :: suf) args
      = some (pre ++ "\x1b[0m".toList ++ e ++ ['%', c] ++ "\x1b[0m".toList ++ suf) := by
  have hall : ∀ p ∈ escape_table, is_conversion p.1 = false ∧ escapes_of [p.1] = p.2
      ∧ ("\x1b[0m".toList ++ p.2).length < 5 * TOTAL_OPTIONS := by decide
  obtain ⟨h1, h2, h3⟩ := hall (X, e) hX
  have e1 : pre ++ '%' :: [X] ++ c :: suf = pre ++ '%' :: X :: c :: suf := by simp
  have h := pprintf_value_heap_terminated pre [X] suf c args
    (fun x hx => by rw [List.mem_singleton] at hx; rw [hx]; exact h1)
    ((is_conversion_iff c).2 hc) hpre hsuf (by rw [e1]; exact hs) hm (by rw [h2]; exact h3)
  rw [h2, e1] at h
  exact h

/-- The template of C3 with the buffers: a template without marker and
without NUL character, called with no argument, is returned unchanged. -/
theorem no_placeholder_unchanged_heap (t : List Char) (ht : '%' ∉ t) (hs : '\x00' ∉ t) :
    pprintf_value_heap t [] = some t := by
  have hk : placeholder_conversions false t = [] := placeholder_conversions_no_marker t ht
  have hsize := pprintf_value_results_size_eq t [] hs (by rw [hk]; trivial)
  apply pprintf_value_heap_eq t [] t _ _
    (by rw [pprintf_value_eq, assembled_no_marker t ht])
  · intro r hr
    rw [placeholder_runs_no_marker t ht] at hr
    simp at hr
  · refine results_fit_of_size _ _ _ hsize ?_
    rw [assembled_no_marker t ht, reserved_no_marker t ht]
    simp


/-! ## C16: termination and the values of the loop indices -/

theorem index_steps_nil (lo hi : Nat) : index_steps lo hi [] := by
  simp [index_steps]

theorem index_steps_append (lo mid hi : Nat) (R1 R2 : List Nat)
    (h1 : index_steps lo mid R1) (h2 : index_steps mid hi R2) (hlo : lo ≤ mid)
    (hhi : mid ≤ hi) : index_steps lo hi (R1 ++ R2) := by
  obtain ⟨p1, b1⟩ := h1
  obtain ⟨p2, b2⟩ := h2
  refine ⟨List.pairwise_append.2 ⟨p1, p2, fun a ha b hb => ?_⟩, fun j hj => ?_⟩
  · have := b1 a ha
    have := b2 b hb
    omega
  · rcases List.mem_append.1 hj with hj | hj
    · have := b1 j hj
      omega
    · have := b2 j hj
      omega

theorem index_steps_single (lo j : Nat) (h : lo < j) : index_steps lo j [j] := by
  refine ⟨List.pairwise_singleton _ _, fun k hk => ?_⟩
  rw [List.mem_singleton] at hk
  omega

theorem index_steps_cons (lo hi j : Nat) (R : List Nat) (h : lo < j) (hj : j ≤ hi)
    (hR : index_steps j hi R) : index_steps lo hi ([j] ++ R) :=
  index_steps_append lo j hi [j] R (index_steps_single lo j h) hR (by omega) hj

theorem index_steps_log (hi : Nat) (R : List Nat) (h : index_steps 0 hi R) :
    ([0] ++ R).Pairwise (fun a b => a < b) ∧ ∀ j ∈ [0] ++ R, j ≤ hi := by
  obtain ⟨p, b⟩ := h
  refine ⟨List.pairwise_append.2 ⟨List.pairwise_singleton _ _, p, fun a ha c hc => ?_⟩,
    fun j hj => ?_⟩
  · rw [List.mem_singleton] at ha
    have := b c hc
    omega
  · rcases List.mem_append.1 hj with hj | hj
    · rw [List.mem_singleton] at hj
      omega
    · exact (b j hj).2

theorem get_str_length_while_indices_spec (str : List Char) :
    ∀ fuel i count log, str.length ≤ i + fuel →
      ∃ i' R,
        get_str_length_while_indices str fuel i (charAt str i) count log
            = some (i', charAt str i', count + 5 * (i' - i), log ++ R)
          ∧ get_str_length_while str fuel i (charAt str i) count
            = some (i', charAt str i', count + 5 * (i' - i))
          ∧ i ≤ i' ∧ (i ≤ str.length → i' ≤ str.length)
          ∧ index_steps i i' R := by
  intro fuel
  induction fuel with
  | zero =>
    intro i count log h
    have hc : charAt str i = NUL := charAt_of_length_le str i (by omega)
    refine ⟨i, [], ?_, ?_, le_refl _, fun h2 => h2, index_steps_nil _ _⟩
    · rw [get_str_length_while_indices, hc, NUL_standard]
      simp
    · rw [get_str_length_while, hc, NUL_standard]
      simp
  | succ fuel ih =>
    intro i count log h
    by_cases hstd : is_standard_format (charAt str i) = true
    · refine ⟨i, [], ?_, ?_, le_refl _, fun h2 => h2, index_steps_nil _ _⟩
      · rw [get_str_length_while_indices, hstd]
        simp
      · rw [get_str_length_while, hstd]
        simp
    · have hstd2 : is_standard_format (charAt str i) = false := by simpa using hstd
      have hi : i < str.length := lt_length_of_not_standard str i hstd2
      obtain ⟨i', R, h1, h2, h3, h4, h5⟩ := ih (i + 1) (count + 5) (log ++ [i + 1]) (by omega)
      have hcount : count + 5 + 5 * (i' - (i + 1)) = count + 5 * (i' - i) := by omega
      refine ⟨i', [i + 1] ++ R, ?_, ?_, by omega, fun _ => h4 (by omega),
        index_steps_cons i i' (i + 1) R (by omega) h3 h5⟩
      · rw [get_str_length_while_indices, hstd2]
        simp only [Bool.not_false, if_true]
        rw [h1, hcount, List.append_assoc]
      · rw [get_str_length_while, hstd2]
        simp only [Bool.not_false, if_true]
        rw [h2, hcount]

theorem get_str_length_loop_indices_spec (str : List Char) :
    ∀ fuel i count log, str.length ≤ i + fuel →
      ∃ count' R,
        get_str_length_loop_indices str fuel i count log = some (count', log ++ R)
          ∧ get_str_length_loop str fuel i count = some count'
          ∧ index_steps i (str.length + 1) R := by
  intro fuel
  induction fuel with
  | zero =>
    intro i count log h
    have hi : ¬ i < str.length := by omega
    refine ⟨count, [], ?_, ?_, index_steps_nil _ _⟩
    · rw [get_str_length_loop_indices, if_neg hi, List.append_nil]
    · rw [get_str_length_loop, if_neg hi]
  | succ fuel ih =>
    intro i count log h
    by_cases hi : i < str.length
    · by_cases hc : '%' = charAt str i
      · obtain ⟨i', R1, h1, h2, h3, h4, h5⟩ :=
          get_str_length_while_indices_spec str (str.length + 1) i count log (by omega)
        have hi' := h4 (by omega)
        obtain ⟨count', R2, g1, g2, g3⟩ :=
          ih (i' + 1) (count + 5 * (i' - i) + 1 + 1) (log ++ R1 ++ [i' + 1]) (by omega)
        refine ⟨count', R1 ++ ([i' + 1] ++ R2), ?_, ?_, ?_⟩
        · rw [get_str_length_loop_indices, if_pos hi]
          simp only [hc, if_true]
          rw [h1]
          simp only []
          rw [g1]
          simp [List.append_assoc]
        · rw [get_str_length_loop, if_pos hi]
          simp only [hc, if_true]
          rw [h2]
          simp only []
          rw [g2]
        · exact index_steps_append i i' _ R1 _ h5
            (index_steps_cons i' _ (i' + 1) R2 (by omega) (by omega) g3) h3 (by omega)
      · obtain ⟨count', R2, g1, g2, g3⟩ := ih (i + 1) (count + 1) (log ++ [i + 1]) (by omega)
        refine ⟨count', [i + 1] ++ R2, ?_, ?_,
          index_steps_cons i _ (i + 1) R2 (by omega) (by omega) g3⟩
        · rw [get_str_length_loop_indices, if_pos hi]
          simp only [hc, if_false]
          rw [g1, List.append_assoc]
        · rw [get_str_length_loop, if_pos hi]
          simp only [hc, if_false]
          rw [g2]
    · refine ⟨count, [], ?_, ?_, index_steps_nil _ _⟩
      · rw [get_str_length_loop_indices, if_neg hi, List.append_nil]
      · rw [get_str_length_loop, if_neg hi]

theorem get_current_type_while_indices_spec (str : List Char) :
    ∀ fuel pos log, str.length ≤ pos + fuel →
      ∃ pos' R,
        get_current_type_while_indices str fuel pos (charAt str pos) log
            = some (pos', charAt str pos', log ++ R)
          ∧ get_current_type_while str fuel pos (charAt str pos) = some (pos', charAt str pos')
          ∧ pos ≤ pos' ∧ (pos ≤ str.length → pos' ≤ str.length)
          ∧ index_steps pos pos' R := by
  intro fuel
  induction fuel with
  | zero =>
    intro pos log h
    have hc : charAt str pos = NUL := charAt_of_length_le str pos (by omega)
    refine ⟨pos, [], ?_, ?_, le_refl _, fun h2 => h2, index_steps_nil _ _⟩
    · rw [get_current_type_while_indices, hc, NUL_standard]
      simp
    · rw [get_current_type_while, hc, NUL_standard]
      simp
  | succ fuel ih =>
    intro pos log h
    by_cases hstd : is_standard_format (charAt str pos) = true
    · refine ⟨pos, [], ?_, ?_, le_refl _, fun h2 => h2, index_steps_nil _ _⟩
      · rw [get_current_type_while_indices, hstd]
        simp
      · rw [get_current_type_while, hstd]
        simp
    · have hstd2 : is_standard_format (charAt str pos) = false := by simpa using hstd
      have hi : pos < str.length := lt_length_of_not_standard str pos hstd2
      obtain ⟨pos', R, h1, h2, h3, h4, h5⟩ := ih (pos + 1) (log ++ [pos + 1]) (by omega)
      refine ⟨pos', [pos + 1] ++ R, ?_, ?_, by omega, fun _ => h4 (by omega),
        index_steps_cons pos pos' (pos + 1) R (by omega) h3 h5⟩
      · rw [get_current_type_while_indices, hstd2]
        simp only [Bool.not_false, if_true]
        rw [h1, List.append_assoc]
      · rw [get_current_type_while, hstd2]
        simp only [Bool.not_false, if_true]
        rw [h2]

theorem get_current_type_loop_indices_spec (str : List Char) :
    ∀ fuel pos log, 0 < fuel → str.length < pos + fuel → pos ≤ str.length →
      ∃ c pos' R,
        get_current_type_loop_indices str fuel pos (charAt str pos) log
            = some (c, pos', log ++ R)
          ∧ get_current_type_loop str fuel pos (charAt str pos) = some (c, pos')
          ∧ (c ≠ NUL → pos < pos' ∧ pos' ≤ str.length)
          ∧ pos ≤ pos' ∧ pos' ≤ str.length + 1
          ∧ index_steps pos pos' R := by
  intro fuel
  induction fuel with
  | zero => intro pos log h; omega
  | succ fuel ih =>
    intro pos log _ h hpos
    by_cases hn : charAt str pos = NUL
    · refine ⟨NUL, pos, [], ?_, ?_, fun h2 => absurd rfl h2, le_refl _, by omega,
        index_steps_nil _ _⟩
      · rw [get_current_type_loop_indices, hn, if_pos rfl, List.append_nil]
      · rw [get_current_type_loop, hn, if_pos rfl]
    · have hi : pos < str.length := not_NUL_lt_length str pos hn
      by_cases hp : charAt str pos = '%'
      · obtain ⟨pos', R, h1, h2, h3, h4, h5⟩ :=
          get_current_type_while_indices_spec str (str.length + 1) pos log (by omega)
        have hpos' := h4 hpos
        refine ⟨charAt str pos', pos' + 1, R ++ [pos' + 1], ?_, ?_, ?_, by omega, by omega, ?_⟩
        · rw [get_current_type_loop_indices, if_neg hn, if_pos hp, h1]
          simp [List.append_assoc]
        · rw [get_current_type_loop, if_neg hn, if_pos hp, h2]
        · intro hc
          have := not_NUL_lt_length str pos' hc
          omega
        · exact index_steps_append pos pos' _ R _ h5 (index_steps_single pos' _ (by omega))
            h3 (by omega)
      · obtain ⟨c, pos', R, h1, h2, h3, h4, h5, h6⟩ :=
          ih (pos + 1) (log ++ [pos + 1]) (by omega) (by omega) (by omega)
        refine ⟨c, pos', [pos + 1] ++ R, ?_, ?_, ?_, by omega, h5,
          index_steps_cons pos pos' (pos + 1) R (by omega) h4 h6⟩
        · rw [get_current_type_loop_indices, if_neg hn, if_neg hp, h1, List.append_assoc]
        · rw [get_current_type_loop, if_neg hn, if_neg hp, h2]
        · intro hc
          have := h3 hc
          omega

theorem get_current_type_walk_indices_spec (str : List Char) :
    ∀ fuel pos log, pos ≤ str.length → str.length < pos + fuel →
      ∃ kinds R,
        get_current_type_walk_indices str fuel pos log = some (kinds, log ++ R)
          ∧ get_current_type_walk str fuel pos = some kinds
          ∧ index_steps pos (str.length + 1) R := by
  intro fuel
  induction fuel with
  | zero => intro pos log hpos h; omega
  | succ fuel ih =>
    intro pos log hpos h
    obtain ⟨c, pos', R, h1, h2, h3, h4, h5, h6⟩ :=
      get_current_type_loop_indices_spec str (str.length + 1) pos log (by omega) (by omega) hpos
    by_cases hc : c = NUL
    · refine ⟨[], R, ?_, ?_,
        index_steps_append pos pos' _ R [] h6 (index_steps_nil _ _) h4 h5 |> fun k => by
          simpa using k⟩
      · rw [get_current_type_walk_indices, get_current_type_indices, h1]
        simp only [hc, if_true]
      · rw [get_current_type_walk, get_current_type, h2]
        simp only [hc, if_true]
    · obtain ⟨hlt, hle⟩ := h3 hc
      obtain ⟨kinds, R2, g1, g2, g3⟩ := ih pos' (log ++ R) hle (by omega)
      refine ⟨c :: kinds, R ++ R2, ?_, ?_, index_steps_append pos pos' _ R R2 h6 g3 h4 h5⟩
      · rw [get_current_type_walk_indices, get_current_type_indices, h1]
        simp only [hc, if_false]
        rw [g1]
        simp [List.append_assoc]
      · rw [get_current_type_walk, get_current_type, h2]
        simp only [hc, if_false]
        rw [g2]
        rfl

theorem pprintf_value_loop_heap_indices_spec (str : List Char) (size : Nat) :
    ∀ fuel i results log out, pprintf_value_loop_heap str size fuel i results = some out →
      ∃ R, pprintf_value_loop_heap_indices str size fuel i results log = some (out, log ++ R)
        ∧ index_steps i (str.length + 1) R := by
  intro fuel
  induction fuel with
  | zero =>
    intro i results log out h
    rw [pprintf_value_loop_heap] at h
    by_cases hi : i < str.length
    · rw [if_pos hi] at h
      simp at h
    · rw [if_neg hi] at h
      refine ⟨[], ?_, index_steps_nil _ _⟩
      rw [pprintf_value_loop_heap_indices, if_neg hi, ← Option.some.inj h, List.append_nil]
  | succ fuel ih =>
    intro i results log out h
    rw [pprintf_value_loop_heap] at h
    by_cases hi : i < str.length
    · rw [if_pos hi] at h
      have hd := drop_eq_charAt_cons str i hi
      by_cases hc : charAt str i = '%'
      · rw [if_pos hc] at h
        rw [hc] at hd
        cases hg : getformats_heap (str.drop i) 0 with
        | none =>
          rw [hg] at h
          simp at h
        | some p =>
          obtain ⟨tmp, offset⟩ := p
          rw [hg] at h
          simp only [] at h
          have hg2 := hg
          rw [hd, getformats_heap] at hg2
          obtain ⟨_, g2, _⟩ := getformats_loop_heap_some _ _ _ _ _ hg2 (by decide)
          have e2 : run_len ('%' :: str.drop (i + 1)) = run_len (str.drop (i + 1)) + 1 := by
            simp [run_len, percent_not_conversion]
          have hle := run_len_le_length (str.drop (i + 1))
          rw [List.length_drop] at hle
          rw [e2, Nat.zero_add] at g2
          by_cases ht : tmp.length < 5 * TOTAL_OPTIONS
          · rw [if_pos ht] at h
            cases h1 : strcat_heap size results tmp with
            | none => rw [h1] at h; simp at h
            | some r1 =>
              rw [h1] at h
              simp only [] at h
              cases h2 : strcat_heap size r1 ['%'] with
              | none => rw [h2] at h; simp at h
              | some r2 =>
                rw [h2] at h
                simp only [] at h
                cases h3 : strcat_heap size r2 ((str.drop (i + offset)).take 1) with
                | none => rw [h3] at h; simp at h
                | some r3 =>
                  rw [h3] at h
                  simp only [] at h
                  cases h4 : strcat_heap size r3 NORMAL with
                  | none => rw [h4] at h; simp at h
                  | some r4 =>
                    rw [h4] at h
                    simp only [] at h
                    obtain ⟨R, k1, k2⟩ := ih (i + offset + 1) r4
                      (log ++ [i + offset, i + offset + 1]) out h
                    refine ⟨[i + offset] ++ ([i + offset + 1] ++ R), ?_, ?_⟩
                    · rw [pprintf_value_loop_heap_indices, if_pos hi, if_pos hc, hg]
                      simp only []
                      rw [if_pos ht, h1]
                      simp only []
                      rw [h2]
                      simp only []
                      rw [h3]
                      simp only []
                      rw [h4]
                      simp only []
                      rw [k1]
                      simp [List.append_assoc]
                    · exact index_steps_cons i _ (i + offset) _ (by omega) (by omega)
                        (index_steps_cons (i + offset) _ (i + offset + 1) R (by omega)
                          (by omega) k2)
          · rw [if_neg ht] at h
            simp at h
      · rw [if_neg hc] at h
        cases h1 : strcat_heap size results ((str.drop i).take 1) with
        | none => rw [h1] at h; simp at h
        | some r1 =>
          rw [h1] at h
          simp only [] at h
          obtain ⟨R, k1, k2⟩ := ih (i + 1) r1 (log ++ [i + 1]) out h
          refine ⟨[i + 1] ++ R, ?_,
            index_steps_cons i _ (i + 1) R (by omega) (by omega) k2⟩
          rw [pprintf_value_loop_heap_indices, if_pos hi, if_neg hc, h1]
          simp only []
          rw [k1, List.append_assoc]
    · rw [if_neg hi] at h
      refine ⟨[], ?_, index_steps_nil _ _⟩
      rw [pprintf_value_loop_heap_indices, if_neg hi, ← Option.some.inj h, List.append_nil]

/-- C16, as the code has it.  On every template `get_str_length` and the
repeated `get_current_type` calls return, and so does `pprintf_value` with
its assembly loop when no buffer is overrun.  The values that the index of
each loop takes (`i` of `get_str_length`, the cursor of the
`get_current_type` calls, `i` of the assembly loop), from the initial 0, are
each greater than the one before, and at most the length of the template
plus one. -/
theorem C16_termination (t : List Char) :
    (∃ n L, get_str_length_indices t = some (n, L) ∧ get_str_length t = some n
        ∧ L.Pairwise (fun a b => a < b) ∧ ∀ j ∈ L, j ≤ t.length + 1)
      ∧ (∃ kinds L, get_current_type_walk_indices t (t.length + 1) 0 [0] = some (kinds, L)
        ∧ get_current_type_walk t (t.length + 1) 0 = some kinds
        ∧ L.Pairwise (fun a b => a < b) ∧ ∀ j ∈ L, j ≤ t.length + 1)
      ∧ (∀ args, accumulators_fit t → results_fit t args →
          ∃ out L, pprintf_value_heap_indices t args = some (out, L)
            ∧ pprintf_value_heap t args = some out
            ∧ L.Pairwise (fun a b => a < b) ∧ ∀ j ∈ L, j ≤ t.length + 1) := by
  refine ⟨?_, ?_, ?_⟩
  · obtain ⟨count, R, h1, h2, h3⟩ := get_str_length_loop_indices_spec t t.length 0 0 [0] (by omega)
    obtain ⟨p, b⟩ := index_steps_log _ R h3
    exact ⟨count + 4, [0] ++ R, by rw [get_str_length_indices, h1]; rfl,
      by rw [get_str_length, h2]; rfl, p, b⟩
  · obtain ⟨kinds, R, h1, h2, h3⟩ :=
      get_current_type_walk_indices_spec t (t.length + 1) 0 [0] (by omega) (by omega)
    obtain ⟨p, b⟩ := index_steps_log _ R h3
    exact ⟨kinds, [0] ++ R, h1, h2, p, b⟩
  · intro args hacc hfit
    have hheap := pprintf_value_heap_eq t args _ hacc hfit (pprintf_value_eq t)
    have hheap2 := hheap
    rw [pprintf_value_heap] at hheap2
    cases hsz : pprintf_value_results_size t args with
    | none => rw [hsz] at hheap2; simp at hheap2
    | some size =>
      rw [hsz] at hheap2
      simp only [] at hheap2
      obtain ⟨R, k1, k2⟩ := pprintf_value_loop_heap_indices_spec t size _ 0 [] [0] _ hheap2
      obtain ⟨p, b⟩ := index_steps_log _ R k2
      refine ⟨assembled false t, [0] ++ R, ?_, hheap, p, b⟩
      rw [pprintf_value_heap_indices, hsz]
      exact k1

/-- C16 amended, at `pprintf("a%Rs%U", "hi")`, whose last placeholder is not
terminated: the three loops return, and their indices take the values 0 to
7, the length of the template plus one (the assembly loop steps over 2 and 3,
and over 5). -/
theorem C16_termination_witness :
    get_str_length_indices "a%Rs%U".toList = some (29, [0, 1, 2, 3, 4, 5, 6, 7])
      ∧ get_current_type_walk_indices "a%Rs%U".toList 7 0 [0]
          = some (['s'], [0, 1, 2, 3, 4, 5, 6, 7])
      ∧ (∃ out L, pprintf_value_heap_indices "a%Rs%U".toList [Arg.str "hi".toList]
            = some (out, L)
          ∧ pprintf_value_heap "a%Rs%U".toList [Arg.str "hi".toList] = some out
          ∧ L.Pairwise (fun a b => a < b) ∧ ∀ j ∈ L, j ≤ "a%Rs%U".toList.length + 1) :=
  ⟨by decide, by decide,
    (C16_termination "a%Rs%U".toList).2.2 [Arg.str "hi".toList] (by decide)
      (results_fit_of_size _ _ 34 (by decide) (by decide))⟩

/-- C16 as stated fails on a template with a placeholder that is not
terminated: on "ab%R", of length 4, the index of each of the three loops
reaches 5. -/
theorem C16_counterexample :
    "ab%R".toList.length = 4
      ∧ get_str_length_indices "ab%R".toList = some (18, [0, 1, 2, 3, 4, 5])
      ∧ get_current_type "ab%R".toList 0 = some ('\x00', 5)
      ∧ get_current_type_walk_indices "ab%R".toList 5 0 [0] = some ([], [0, 1, 2, 3, 4, 5])
      ∧ pprintf_value_heap_indices "ab%R".toList []
          = some ("ab\x1b[0m\x1b[31m%\x1b[0m".toList, [0, 1, 2, 4, 5]) := by
  decide

end Pprintf
